import Mathlib

/-!
Verification development for the Ladybirds compiler/mapper core.

Shallow embedding of the C++ sources:
* `src/range.h`, `src/range.cpp` — half-open integer ranges and spaces
  (Cartesian products of ranges);
* `src/spacedivision.h` — division of a bounding space into labeled,
  pairwise disjoint sub-spaces;
* `src/gen/occupationchart.h` — step-function resource occupation charts
  backed by a `std::map`;
* `src/graph/graph-extra.h` — adjacency and reachability matrices;
* `src/lua/pass.cpp` — pass orchestration (requires/destroys sets);
* `src/opt/bankassignment.cpp` — memory bank assignment with retries;
* `src/basetype.cpp` — the interned base type table;
* `src/metakernelseq.cpp` — dataflow resolution of kernel call sequences.

C++ `int`/`long` arithmetic is modelled by `Int` (no call site in the
modelled code comes near the overflow boundaries), `std::map` by sorted
association lists, and pointer identity by indices.
-/

namespace Ladybirds

/-! ## Ranges (src/range.h) -/

/-- A half-open integer interval [Begin, End), as in `class Range` of
src/range.h (fields `Begin_`, `End_`). -/
structure Range where
  Begin : Int
  End : Int
deriving DecidableEq, Repr

/-- `Range::BeginCount`: by first element and count. -/
def Range.BeginCount (b cnt : Int) : Range := ⟨b, b + cnt⟩

/-- `Range::BeginEnd`. -/
def Range.BeginEnd (b e : Int) : Range := ⟨b, e⟩

/-- `Range::size()`: `End_ - Begin_`. -/
def Range.size (r : Range) : Int := r.End - r.Begin

/-- `Range::IsEmpty()`: `Begin_ >= End_`. -/
def Range.IsEmpty (r : Range) : Bool := decide (r.Begin ≥ r.End)

/-- `Range::first()`. -/
def Range.first (r : Range) : Int := r.Begin

/-- Membership of an integer in the interval (the semantic reading of a
range as a set of integers). -/
def Range.mem (r : Range) (x : Int) : Bool := decide (r.Begin ≤ x) && decide (x < r.End)

/-- `Range::Overlaps`: `(Begin_ < r.End_) && (End_ > r.Begin_)`. -/
def Range.Overlaps (a r : Range) : Bool := decide (a.Begin < r.End) && decide (a.End > r.Begin)

/-- `Range::Contains`: `(Begin_ <= r.Begin_) && (End_ >= r.End_)`. -/
def Range.Contains (a r : Range) : Bool := decide (a.Begin ≤ r.Begin) && decide (a.End ≥ r.End)

/-- `Range::operator|=`: bounding union (empty range is the identity). -/
def Range.unionA (a r : Range) : Range :=
  if a.IsEmpty then r
  else if r.IsEmpty then a
  else ⟨min a.Begin r.Begin, max a.End r.End⟩

/-- `Range::operator&=`: `Begin_ = max(Begin_, r.Begin_);
End_ = max(Begin_, min(End_, r.End_))` (the second `max` uses the already
updated `Begin_`). -/
def Range.inter (a r : Range) : Range :=
  ⟨max a.Begin r.Begin, max (max a.Begin r.Begin) (min a.End r.End)⟩

/-- `Range::Remove`: removes the intersection with `r` from `a`; when the
intersection is strictly interior to `a`, nothing happens. -/
def Range.Remove (a r : Range) : Range :=
  if r.Begin ≤ a.Begin then ⟨max a.Begin (min a.End r.End), a.End⟩
  else if r.End ≥ a.End then ⟨a.Begin, min a.End (max a.Begin r.Begin)⟩
  else a

/-- `Range::operator+=`: displace by an offset. -/
def Range.displace (r : Range) (off : Int) : Range := ⟨r.Begin + off, r.End + off⟩

/-- `RangeSubtract` from src/range.cpp: the 0, 1 or 2 intervals making up
`a` minus (`a` ∩ `sub`), returned as a list (the C++ fills an output array
`result[2]` and returns the count). -/
def RangeSubtract (a sub : Range) : List Range :=
  if a.Begin < sub.Begin then
    if a.End > sub.End then
      [Range.BeginEnd a.Begin sub.Begin, Range.BeginEnd sub.End a.End]
    else if a.End ≤ sub.Begin then [a]
    else [Range.BeginEnd a.Begin sub.Begin]
  else
    if a.End ≤ sub.End then []
    else if a.Begin ≥ sub.End then [a]
    else [Range.BeginEnd sub.End a.End]

/-! ## Spaces (src/range.h, src/range.cpp) -/

/-- A `Space` is an ordered vector of ranges (`class Space : private
std::vector<Range>`). -/
abbrev Space := List Range

/-- Pointwise membership of an integer vector in a space: the semantic
reading of a space as a set of integer points. -/
def Space.memB : Space → List Int → Bool
  | [], [] => true
  | r :: s, x :: p => r.mem x && Space.memB s p
  | _, _ => false

/-- `Space::Contains`: element-wise `Range::Contains` (the C++ asserts equal
dimensionality). -/
def Space.Contains : Space → Space → Bool
  | [], [] => true
  | a :: as_, b :: bs => a.Contains b && Space.Contains as_ bs
  | _, _ => false

/-- `Space::Overlaps`: element-wise `Range::Overlaps`. -/
def Space.Overlaps : Space → Space → Bool
  | [], [] => true
  | a :: as_, b :: bs => a.Overlaps b && Space.Overlaps as_ bs
  | _, _ => false

/-- `Space::IsEmpty`: true iff any element range is empty. -/
def Space.IsEmpty (s : Space) : Bool := s.any Range.IsEmpty

/-- `Space::GetVolume`: `std::accumulate(begin(), end(), 1, i * r.size())`. -/
def Space.GetVolume (s : Space) : Int := s.foldl (fun i r => i * r.size) 1

/-- `Space::Clear`: each range keeps its begin but gets size zero. -/
def Space.Clear (s : Space) : Space := s.map fun r => Range.BeginCount r.Begin 0

/-- `Space::GetDimensions`. -/
def Space.GetDimensions (s : Space) : List Int := s.map Range.size

/-- `Space::GetOrigin`. -/
def Space.GetOrigin (s : Space) : List Int := s.map Range.Begin

/-- `Space::GetEffectiveDimensions`: the sizes, keeping only those `> 1`. -/
def Space.GetEffectiveDimensions (s : Space) : List Int :=
  (s.map Range.size).filter fun d => decide (d > 1)

/-- Helper for `Space::operator&=`: `std::equal` applies `a &= b` element
by element and stops at the first element whose intersection came out
empty; the returned flag says whether it ran through. -/
def Space.interGo : Space → Space → Space × Bool
  | [], _ => ([], true)
  | a, [] => (a, true)
  | a :: as_, b :: bs =>
      let a2 := a.inter b
      if a2.IsEmpty then (a2 :: as_, false)
      else
        let (rest, ok) := Space.interGo as_ bs
        (a2 :: rest, ok)

/-- `Space::operator&=`: element-wise intersection; if any element became
empty, the whole space is `Clear`ed (keeping the current begins). -/
def Space.interA (a b : Space) : Space :=
  let (res, ok) := Space.interGo a b
  if ok then res else Space.Clear res

/-- `Space::operator|=`: element-wise bounding union. -/
def Space.unionA : Space → Space → Space
  | [], _ => []
  | a, [] => a
  | a :: as_, b :: bs => a.unionA b :: Space.unionA as_ bs

/-- `Space::Remove` from src/range.cpp: locate the first dimension where
`s` does not contain `a`; if all following dimensions are contained, apply
`Range::Remove` in that dimension; in every other case leave `a`
unchanged. -/
def Space.Remove : Space → Space → Space
  | [], _ => []
  | a, [] => a
  | a :: as_, b :: bs =>
      if b.Contains a then a :: Space.Remove as_ bs
      else if Space.Contains bs as_ then a.Remove b :: as_
      else a :: as_

/-- `Space::Displace` (element-wise `Range::operator+=`). -/
def Space.Displace : Space → List Int → Space
  | [], _ => []
  | s, [] => s
  | r :: s, d :: ds => r.displace d :: Space.Displace s ds

/-- `Space(const std::vector<int> & dimensions)`: `{ [0, d0), [0, d1), … }`. -/
def Space.ofDims (dims : List Int) : Space := dims.map fun d => Range.BeginCount 0 d

/-- `a` is a subset of `b` as sets of integer points. -/
def Space.SubsetPt (a b : Space) : Prop := ∀ p, Space.memB a p = true → Space.memB b p = true

/-- `a` and `b` share no integer point. -/
def Space.DisjointPt (a b : Space) : Prop := ∀ p, ¬(Space.memB a p = true ∧ Space.memB b p = true)

/-! ## Space division (src/spacedivision.h) -/

/-- `SpaceDivision<AssignType>`: a bounding space and a multimap from label
to sub-space (modelled as a list of pairs; `std::unordered_multimap`
specifies no order). -/
structure SpaceDivision (A : Type) where
  FullSpace : Space
  Sections : List (A × Space)

/-- The sub-spaces `TrimSection` re-inserts in place of a trimmed section:
dimension by dimension, the fragments of `RangeSubtract(trim[i], remove[i])`
with all earlier dimensions already narrowed to `trim[j] & remove[j]`. -/
def SpaceDivision.trimPieces : Space → Space → List Space
  | [], _ => []
  | _, [] => []
  | t :: ts, r :: rs =>
      (RangeSubtract t r).map (fun d => d :: ts) ++
        (SpaceDivision.trimPieces ts rs).map (fun rest => t.inter r :: rest)

/-- `SpaceDivision::AssignSection`: intersect with the full space, give up
if empty, trim every overlapping stored section, then store `(assign, sec)`. -/
def SpaceDivision.AssignSection (sd : SpaceDivision A) (sec : Space) (assign : A) :
    SpaceDivision A :=
  let sec2 := Space.interA sec sd.FullSpace
  if sec2.IsEmpty then sd
  else
    { sd with Sections :=
        (sd.Sections.flatMap fun q =>
          if Space.Overlaps q.2 sec2 then
            (SpaceDivision.trimPieces q.2 sec2).map fun piece => (q.1, piece)
          else [q]) ++ [(assign, sec2)] }

/-- `SpaceDivision::Unassign`: erase all entries with the given label. -/
def SpaceDivision.Unassign [DecidableEq A] (sd : SpaceDivision A) (a : A) : SpaceDivision A :=
  { sd with Sections := sd.Sections.filter fun q => decide (q.1 ≠ a) }

/-- `SpaceDivision::SubDivision`: a new division bounded by `subspace`
holding all non-empty intersections of the stored sections with it. -/
def SpaceDivision.SubDivision (sd : SpaceDivision A) (subspace : Space) : SpaceDivision A :=
  { FullSpace := subspace
    Sections := sd.Sections.filterMap fun q =>
      let s := Space.interA q.2 subspace
      if s.IsEmpty then none else some (q.1, s) }

/-- `SpaceDivision::GetEnvelope`: bounding union of all sections with the
given label; a cleared full space if there are none. -/
def SpaceDivision.GetEnvelope [DecidableEq A] (sd : SpaceDivision A) (find : A) : Space :=
  match sd.Sections.filter (fun q => decide (q.1 = find)) with
  | [] => Space.Clear sd.FullSpace
  | q :: rest => rest.foldl (fun acc r => Space.unionA acc r.2) q.2

/-- The operations of the public mutating interface of `SpaceDivision`
(`SubDivision` returns a fresh division, which the sequence continues on). -/
inductive SDOp (A : Type) where
  | assign (sec : Space) (a : A)
  | unassign (a : A)
  | subdiv (sub : Space)

/-- Apply one operation. -/
def SDOp.apply [DecidableEq A] (sd : SpaceDivision A) : SDOp A → SpaceDivision A
  | .assign sec a => sd.AssignSection sec a
  | .unassign a => sd.Unassign a
  | .subdiv sub => sd.SubDivision sub

/-- Apply a sequence of operations. -/
def SpaceDivision.applyOps [DecidableEq A] (sd : SpaceDivision A) (ops : List (SDOp A)) :
    SpaceDivision A :=
  ops.foldl SDOp.apply sd

/-- Dimensionality discipline of one operation (the C++ asserts it). -/
def SDOp.wf (n : Nat) : SDOp A → Prop
  | .assign sec _ => sec.length = n
  | .unassign _ => True
  | .subdiv sub => sub.length = n

/-- The invariants of claim C4: every stored sub-space lies in the bounding
space (and has its dimensionality), and the stored sub-spaces are pairwise
disjoint. -/
def SpaceDivision.Inv (sd : SpaceDivision A) : Prop :=
  (∀ q ∈ sd.Sections, Space.SubsetPt q.2 sd.FullSpace ∧ q.2.length = sd.FullSpace.length) ∧
    List.Pairwise (fun q1 q2 => Space.DisjointPt q1.2 q2.2) sd.Sections

/-! ## Occupation chart (src/gen/occupationchart.h)

`std::map<Time, T>` is modelled as an association list sorted strictly by
key; `Time` (`long`) and the amounts (`T` = `long` in `MemOccs_` usage) are
both `Int`.  Behaviour that is undefined in C++ (dereferencing `end()`,
`std::prev(begin())`, a failing `assert`) is modelled as `none`. -/

/-- Index of the first entry with key `≥ k` (`Entries_.lower_bound(k)`);
the list length stands for `end()`. -/
def mapLowerBound (l : List (Int × Int)) (k : Int) : Nat :=
  l.findIdx fun e => decide (e.1 ≥ k)

/-- Index of the first entry with key `> k` (`Entries_.upper_bound(k)`). -/
def mapUpperBound (l : List (Int × Int)) (k : Int) : Nat :=
  l.findIdx fun e => decide (e.1 > k)

/-- Insert an entry with a fresh key at its sorted position (`emplace`). -/
def mapInsert (l : List (Int × Int)) (e : Int × Int) : List (Int × Int) :=
  (l.takeWhile fun q => decide (q.1 < e.1)) ++ e :: (l.dropWhile fun q => decide (q.1 < e.1))

/-- Add `occ` to the values of all entries with index in `[lo, hi)`. -/
def mapAddRange (l : List (Int × Int)) (lo hi : Nat) (occ : Int) : List (Int × Int) :=
  l.mapIdx fun i e => if lo ≤ i ∧ i < hi then (e.1, e.2 + occ) else e

/-- `OccupationChart<T>`: a capacity and the sorted entry map. -/
structure OccupationChart where
  Capacity : Int
  Entries : List (Int × Int)
deriving DecidableEq, Repr

/-- A fresh chart: `Entries_({{Time(0), T()}})`. -/
def OccupationChart.init (capacity : Int) : OccupationChart := ⟨capacity, [(0, 0)]⟩

/-- `OccupationChart::operator[]`: the value of the last entry with key
`≤ t` (`none` when there is none, where the C++ decrements `begin()`). -/
def OccupationChart.sample (c : OccupationChart) (t : Int) : Option Int :=
  match mapUpperBound c.Entries t with
  | 0 => none
  | i + 1 => some (c.Entries.getD i (0, 0)).2

/-- `OccupationChart::Occupy`, step for step from the source.  Returns
`none` when the C++ runs into a failing `assert` or undefined behaviour,
otherwise the new chart and the returned flag. -/
def OccupationChart.Occupy (c : OccupationChart) (tfrom tto occ : Int) :
    Option (OccupationChart × Bool) :=
  if ¬(tfrom ≥ 0 ∧ tto > tfrom) then none else -- assert(from >= 0 && to > from)
  let entries := c.Entries
  let itfrom := mapLowerBound entries tfrom
  if itfrom ≥ entries.length then none else -- assert(itfrom != Entries_.end())
  let itto := mapUpperBound entries tfrom
  match itto with
  | 0 => none -- toval = std::prev(itto)->second with itto == begin()
  | ittoPrev + 1 =>
  let toval := (entries.getD ittoPrev (0, 0)).2
  let fromKey := (entries.getD itfrom (0, 0)).1
  let fromvalNew := (entries.getD itfrom (0, 0)).2 + occ
  if fromKey ≠ tfrom ∧ fromvalNew > c.Capacity then some (c, false) else
  -- the loop over [itfrom, itto): on overflow everything is rolled back
  if ((entries.drop itfrom).take (itto - itfrom)).any (fun e => decide (e.2 + occ > c.Capacity))
  then some (c, false) else
  let entries1 := mapAddRange entries itfrom itto occ
  -- the element itto points at, identified by its key (it survives the fix-ups)
  let ittoKey? : Option Int := if itto ≥ entries.length then none else some ((entries.getD itto (0, 0)).1)
  -- fix-up at `from`
  let step1 : Option (List (Int × Int)) :=
    if fromKey ≠ tfrom then some (mapInsert entries1 (tfrom, fromvalNew))
    else match itfrom with
      | 0 => none -- std::prev(itfrom) with itfrom == begin()
      | ifPrev + 1 =>
        if (entries1.getD itfrom (0, 0)).2 = (entries1.getD ifPrev (0, 0)).2
        then some (entries1.eraseIdx itfrom) else some entries1
  match step1 with
  | none => none
  | some entries2 =>
  -- fix-up at `to`
  match ittoKey? with
  | none => some (⟨c.Capacity, mapInsert entries2 (tto, toval)⟩, true)
  | some k =>
    if k ≠ tto then some (⟨c.Capacity, mapInsert entries2 (tto, toval)⟩, true)
    else match entries2.findIdx (fun e => decide (e.1 = k)) with
      | 0 => none -- std::prev(itto) with itto == begin()
      | iPrev + 1 =>
        if (entries2.getD (iPrev + 1) (0, 0)).2 = (entries2.getD iPrev (0, 0)).2
        then some (⟨c.Capacity, entries2.eraseIdx (iPrev + 1)⟩, true)
        else some (⟨c.Capacity, entries2⟩, true)

/-- `OccupationChart::Unoccupy`, step for step from the source. -/
def OccupationChart.Unoccupy (c : OccupationChart) (tfrom tto occ : Int) :
    Option (OccupationChart × Bool) :=
  if ¬(tfrom ≥ 0 ∧ tto > tfrom) then none else -- assert(from >= 0 && to > from)
  let entries := c.Entries
  let itfrom := mapLowerBound entries tfrom
  if itfrom ≥ entries.length then none else -- assert(itfrom != Entries_.end())
  let itto := mapLowerBound entries tto
  match itto with
  | 0 => none -- toval = std::prev(itto)->second with itto == begin()
  | ittoPrev + 1 =>
  let toval := (entries.getD ittoPrev (0, 0)).2
  let fromKey := (entries.getD itfrom (0, 0)).1
  let fromvalNew := (entries.getD itfrom (0, 0)).2 - occ
  if fromKey ≠ tfrom ∧ fromvalNew < c.Capacity then some (c, false) else
  if ((entries.drop itfrom).take (itto - itfrom)).any (fun e => decide (e.2 - occ < 0))
  then some (c, false) else
  let entries1 := mapAddRange entries itfrom itto (-occ)
  let ittoKey? : Option Int := if itto ≥ entries.length then none else some ((entries.getD itto (0, 0)).1)
  let step1 : Option (List (Int × Int)) :=
    if fromKey ≠ tfrom then some (mapInsert entries1 (tfrom, fromvalNew))
    else match itfrom with
      | 0 => none
      | ifPrev + 1 =>
        if (entries1.getD itfrom (0, 0)).2 = (entries1.getD ifPrev (0, 0)).2
        then some (entries1.eraseIdx itfrom) else some entries1
  match step1 with
  | none => none
  | some entries2 =>
  match ittoKey? with
  | none => some (⟨c.Capacity, mapInsert entries2 (tto, toval)⟩, true)
  | some k =>
    if k ≠ tto then some (⟨c.Capacity, mapInsert entries2 (tto, toval)⟩, true)
    else match entries2.findIdx (fun e => decide (e.1 = k)) with
      | 0 => none
      | iPrev + 1 =>
        if (entries2.getD (iPrev + 1) (0, 0)).2 = (entries2.getD iPrev (0, 0)).2
        then some (⟨c.Capacity, entries2.eraseIdx (iPrev + 1)⟩, true)
        else some (⟨c.Capacity, entries2⟩, true)

/-! ## Graph reachability (src/graph/graph-extra.h)

A graph is its node count (nodes are numbered in insertion order, the
order `g.Nodes()` iterates) and its edge list.  `ItemSet` is a set of node
ids, modelled as `Finset Nat`. -/

/-- A directed graph with nodes `0 .. nodeCount-1`. -/
structure DiGraph where
  nodeCount : Nat
  edges : List (Nat × Nat)

/-- `AdjacencyMatrix`: for each edge, `ret[source].Insert(target)`. -/
def AdjacencyMatrix (g : DiGraph) : Nat → Finset Nat :=
  g.edges.foldl (fun ret e => Function.update ret e.1 (insert e.2 (ret e.1))) fun _ => ∅

/-- `ReachabilityMatrix`: the adjacency matrix, transformed by the double
loop `for n1: for n2: if ret[n1].Contains(n2) then ret[n1] |= ret[n2]`. -/
def ReachabilityMatrix (g : DiGraph) : Nat → Finset Nat :=
  (List.range g.nodeCount).foldl
    (fun ret n1 =>
      (List.range g.nodeCount).foldl
        (fun ret n2 =>
          if n2 ∈ ret n1 then Function.update ret n1 (ret n1 ∪ ret n2) else ret)
        ret)
    (AdjacencyMatrix g)

/-- A node `b` is reachable from `a` along at least one edge. -/
def DiGraph.Reaches (g : DiGraph) : Nat → Nat → Prop :=
  Relation.TransGen fun a b => (a, b) ∈ g.edges

/-! ## Pass orchestration (src/lua/pass.cpp)

`impl::Program` is reduced to the part the pass machinery touches: the
`PassesPerformed` name set (a duplicate-free list) plus an opaque payload.
`luaL_error` does not return; it is modelled as `Except.error`. -/

/-- The program state as seen by `Pass::Run`. -/
structure PassProgram (α : Type) where
  payload : α
  PassesPerformed : List String

/-- `std::set<std::string>::insert`. -/
def setInsert (l : List String) (s : String) : List String :=
  if l.contains s then l else l ++ [s]

/-- A pass declaration: name, requires-set and destroys-set. -/
structure Pass where
  Name : String
  Requires : List String
  Destroys : List String

/-- `Pass::CheckDependencies`: `luaL_error` on the first missing
requirement (reported as `Except.error` with the pass and the requirement),
otherwise erase every destroyed name from the performed set. -/
def Pass.CheckDependencies (p : Pass) (prog : PassProgram α) :
    Except (String × String) (PassProgram α) :=
  match p.Requires.find? (fun req => !prog.PassesPerformed.contains req) with
  | some req => .error (p.Name, req)
  | none =>
      .ok { prog with
            PassesPerformed := prog.PassesPerformed.filter fun s => !p.Destroys.contains s }

/-- `Pass::Run`: check dependencies, run the pass function, then
`Finish`/`FinishImpl` insert the pass name exactly on success. -/
def Pass.Run (p : Pass) (fn : PassProgram α → PassProgram α × Bool) (prog : PassProgram α) :
    Except (String × String) (PassProgram α × Bool) :=
  match p.CheckDependencies prog with
  | .error e => .error e
  | .ok prog1 =>
      let (prog2, res) := fn prog1
      .ok ({ prog2 with
             PassesPerformed :=
               if res then setInsert prog2.PassesPerformed p.Name
               else prog2.PassesPerformed }, res)

/-! ## Base type interning (src/basetype.cpp)

The function-local static `typemap` is the state; a `BaseType *` is an
index into the arena of `BaseType` objects created so far. -/

/-- `class BaseType` (src/basetype.h). -/
structure BaseType where
  Name : String
  Size : Int
deriving DecidableEq, Repr

/-- `BaseType::IsCompatible`: equal sizes. -/
def BaseType.IsCompatible (a b : BaseType) : Bool := decide (b.Size = a.Size)

/-- The built-in types registered by the `TypeMap` constructor. -/
def builtinTypes : List (String × Int) :=
  [("char", 1), ("int", 4), ("long", 8), ("float", 4), ("double", 8),
   ("int8_t", 1), ("int16_t", 2), ("int32_t", 4), ("int64_t", 8), ("int128_t", 16),
   ("uint8_t", 1), ("uint16_t", 2), ("uint32_t", 4), ("uint64_t", 8), ("uint128_t", 16)]

/-- The intern table state: the arena of objects and the name map. -/
structure TypeMap where
  objects : List BaseType
  table : List (String × Nat)

/-- The state after the `TypeMap` constructor ran. -/
def TypeMap.initial : TypeMap :=
  { objects := builtinTypes.map fun q => ⟨q.1, q.2⟩
    table := builtinTypes.mapIdx fun i q => (q.1, i) }

/-- The diagnostics `BaseType::FromString` can emit. -/
inductive TypeDiag where
  | errorUnknown (name : String)
  | warningUnknown (name : String)
deriving DecidableEq, Repr

/-- `BaseType::FromString`.  `hasSuccessFlag` says whether a `success`
out-pointer was passed, `successIn` the value it holds; the result carries
the new state, the returned object (as arena index), the value left in
`*success` and the diagnostics printed. -/
def BaseType.FromString (tm : TypeMap) (name : String) (hasSuccessFlag successIn : Bool) :
    TypeMap × Nat × Bool × List TypeDiag :=
  match List.lookup name tm.table with
  | some idx => (tm, idx, successIn, [])
  | none =>
      let diag := if hasSuccessFlag then [TypeDiag.errorUnknown name]
                  else [TypeDiag.warningUnknown name]
      let successOut := if hasSuccessFlag then false else successIn
      (⟨tm.objects ++ [⟨name, 1⟩], tm.table ++ [(name, tm.objects.length)]⟩,
        tm.objects.length, successOut, diag)

/-- A sequence of `FromString` calls, threading the intern table. -/
def TypeMap.runCalls (tm : TypeMap) (calls : List (String × Bool × Bool)) : TypeMap :=
  calls.foldl (fun s c => (BaseType.FromString s c.1 c.2.1 c.2.2).1) tm

/-- Consistency of the intern table: every table entry points to an arena
object carrying the entry's name. -/
def TypeMap.WF (tm : TypeMap) : Prop :=
  ∀ q ∈ tm.table, q.2 < tm.objects.length ∧ (tm.objects.getD q.2 ⟨"", 0⟩).Name = q.1

/-! ## Bank assignment (src/opt/bankassignment.cpp)

The buffer relation graph after `CreateBufferGraph`: one node per buffer
(nodes numbered in insertion order, carrying the buffer size and the
access task count), undirected edges with penalty, group penalty and
reward weights.  Message output is modelled as a list of events; `Verbose`
output is kept only where the claims mention it (the final bank usage dump
and the assignment report). -/

/-- `BankAssignment::InitialBankCapacity = 116*1024`. -/
def InitialBankCapacity : Int := 116 * 1024

/-- A node of the buffer relation graph. -/
structure BufferNode where
  Size : Int
  AccessTaskCount : Int
deriving DecidableEq, Repr

instance : Inhabited BufferNode := ⟨⟨0, 0⟩⟩

/-- An edge of the buffer relation graph. -/
structure BufferEdge where
  n1 : Nat
  n2 : Nat
  Penalty : Int
  GroupPenalty : Int
  Reward : Int
deriving DecidableEq, Repr

/-- The buffer relation graph. -/
structure BufferGraph where
  nodes : List BufferNode
  edges : List BufferEdge
deriving DecidableEq, Repr

/-- `MultiCritCmp`: the first non-zero comparison value decides. -/
def multiCrit : List Int → Int
  | [] => 0
  | x :: xs => if x ≠ 0 then x else multiCrit xs

/-- `CountPenaltyEdges`: over the out-edges and then the in-edges of node
`i`, count those whose other endpoint is not ignored and whose penalty is
positive, and sum those penalties. -/
def CountPenaltyEdges (g : BufferGraph) (ign : List Bool) (i : Nat) : Int × Int :=
  let outs := g.edges.foldl
    (fun acc e =>
      if e.n1 = i ∧ ¬(ign.getD e.n2 false) ∧ e.Penalty > 0 then (acc.1 + 1, acc.2 + e.Penalty)
      else acc) ((0 : Int), (0 : Int))
  g.edges.foldl
    (fun acc e =>
      if e.n2 = i ∧ ¬(ign.getD e.n1 false) ∧ e.Penalty > 0 then (acc.1 + 1, acc.2 + e.Penalty)
      else acc) outs

/-- The node comparison of the removal loop (`nodecmp`), applied to
`NodeCharacter`s: access task count and size are read through the node
iterator, neighbour count and penalty from the iterator's cached values
(`c1`, `c2`), which the quirky `operator++` leaves one step stale.  The
C++ shifts a `long` left by `correction` (modelled as multiplication) and
divides truncating towards zero. -/
def nodeCmpLt (corr : Nat) (g : BufferGraph) (p : Nat) (c1 : Int × Int) (q : Nat)
    (c2 : Int × Int) : Bool :=
  let b1 := g.nodes.getD p default
  let b2 := g.nodes.getD q default
  decide (multiCrit
    [-b1.AccessTaskCount - -b2.AccessTaskCount +
      Int.tdiv ((b1.Size - b2.Size) * 2 ^ corr) InitialBankCapacity,
     c1.1 - c2.1,
     c1.2 - c2.2,
     b1.Size - b2.Size] < 0)

/-- One `MinElementIf` call over `NodeCharacter`s: the first non-ignored
node seeds `smallest`; the scan then walks every later position, comparing
with the one-step-stale cache `CountPenaltyEdges` values. -/
def pickNode (g : BufferGraph) (ign : List Bool) (corr : Nat) : Option Nat :=
  let n := g.nodes.length
  let vals := fun p => CountPenaltyEdges g ign p
  let flt := fun p => !(ign.getD p false)
  match (List.range n).find? flt with
  | none => none
  | some p0 =>
      let cache0 := vals (p0 - 1) -- for p0 = 0 this is the constructor's own cache
      let r := (List.range' (p0 + 1) (n - (p0 + 1))).foldl
        (fun (sm : Nat × (Int × Int)) p =>
          if flt p ∧ nodeCmpLt corr g p (vals (p - 1)) sm.1 sm.2 = true then (p, vals (p - 1))
          else sm)
        (p0, cache0)
      some r.1

/-- The removal loop (1st step of `AssignBanks`): `Nodes().count()` times,
pick the smallest non-ignored node, push it and ignore it.  Returns the
stack (most recently pushed first) and the final ignore flags.  (When
nothing passes the filter the C++ would dereference `end()`; that
situation cannot arise and is modelled as a skipped iteration.) -/
def buildStack (g : BufferGraph) (corr : Nat) : List Nat × List Bool :=
  let n := g.nodes.length
  (List.range n).foldl
    (fun st _ =>
      match pickNode g st.2 corr with
      | none => st
      | some p => (p :: st.1, st.2.set p true))
    ([], List.replicate n false)

/-- The per-bank bookkeeping structure (`BankCharacteristics`; the group a
bank belongs to is `ID % 2`, `ngroups = 2`). -/
structure BankChar where
  Penalty : Int
  GroupPenalty : Int
  Reward : Int
  Capacity : Int
  FreeSpace : Int
  ID : Int
  group : Nat
deriving DecidableEq, Repr

instance : Inhabited BankChar := ⟨⟨0, 0, 0, 0, 0, -1, 0⟩⟩

/-- The initial bank vector: all with `InitialBankCapacity` except bank 0,
whose capacity is overwritten with `5 * 1024`. -/
def initBanks (nbanks : Nat) : List BankChar :=
  (List.range nbanks).map fun i =>
    let cap : Int := if i = 0 then 5 * 1024 else InitialBankCapacity
    ⟨0, 0, 0, cap, cap, Int.ofNat i, i % 2⟩

/-- Sum the penalties and rewards of the edges of `pn` into the banks of
the already-placed other endpoints (zeroing the accumulators first). -/
def bankSums (g : BufferGraph) (ign : List Bool) (memBank : List Int) (pn : Nat)
    (banks : List BankChar) : List BankChar :=
  let banks0 := banks.map fun b => { b with Penalty := 0, GroupPenalty := 0, Reward := 0 }
  g.edges.foldl
    (fun bks e =>
      if e.n1 = pn ∨ e.n2 = pn then
        let pn2 := if e.n1 = pn then e.n2 else e.n1
        if ign.getD pn2 false then bks
        else
          let bankidx := memBank.getD pn2 (-1)
          if bankidx < 0 then bks
          else
            let j := bankidx.toNat
            let b := bks.getD j default
            bks.set j { b with Penalty := b.Penalty + e.Penalty,
                               GroupPenalty := b.GroupPenalty + e.GroupPenalty,
                               Reward := b.Reward + e.Reward }
      else bks)
    banks0

/-- Per-group sums over the banks (`groups`; rewards from `Reward`,
penalties from `GroupPenalty`). -/
def groupSum (banks : List BankChar) (j : Nat) : Int × Int :=
  banks.foldl (fun acc b => if b.group = j then (acc.1 + b.Reward, acc.2 + b.GroupPenalty) else acc)
    (0, 0)

/-- The bank comparison `bankcmp` (group reward difference scaled by `*3/8`
with truncating division). -/
def bankCmpLt (banks : List BankChar) (b1 b2 : BankChar) : Bool :=
  decide (multiCrit
    [(-b1.Penalty + b2.Penalty) + (-(groupSum banks b1.group).2 + (groupSum banks b2.group).2),
     b1.Reward - b2.Reward +
       Int.tdiv (((groupSum banks b1.group).1 - (groupSum banks b2.group).1) * 3) 8,
     b1.FreeSpace - b2.FreeSpace] < 0)

/-- `MaxElementIf`: first element passing the filter, replaced whenever a
later passing element compares strictly greater. -/
def MaxElementIf {β : Type} : List β → (β → Bool) → (β → β → Bool) → Option β
  | [], _, _ => none
  | x :: xs, flt, cmp =>
      if flt x then some (xs.foldl (fun g b => if flt b && cmp g b then b else g) x)
      else MaxElementIf xs flt cmp

/-- The state of the coloring loop (2nd step of `AssignBanks`). -/
structure ColorState where
  memBank : List Int
  ign : List Bool
  banks : List BankChar
  ret : Bool
deriving Repr

/-- One iteration of the coloring loop: un-ignore the popped node, sum up
penalties/rewards per bank, and give the node the best bank that still
fits it — or mark it unassigned and record the failure. -/
def colorStep (g : BufferGraph) (st : ColorState) (pn : Nat) : ColorState :=
  let ign1 := st.ign.set pn false
  let banks1 := bankSums g ign1 st.memBank pn st.banks
  let size := (g.nodes.getD pn default).Size
  match MaxElementIf banks1.reverse (fun b => decide (b.FreeSpace ≥ size)) (bankCmpLt banks1) with
  | some b =>
      { memBank := st.memBank.set pn b.ID
        ign := ign1
        banks := banks1.map fun bk => if bk.ID = b.ID then { bk with FreeSpace := bk.FreeSpace - size } else bk
        ret := st.ret }
  | none =>
      { memBank := st.memBank.set pn (-1), ign := ign1, banks := banks1, ret := false }

/-- The messages `AssignBanks` and `PrintAssignmentInfo` produce. -/
inductive BankEvent where
  | errorBufferTooBig (size : Int)
  | errorInsufficientMemory (total : Int)
  | warning90
  | errorNotAllMapped
  | report (perBank : List (List (Nat × Int))) (unassigned : List (Nat × Int))
  | bankUsage (usage : List (Int × Int))
deriving DecidableEq, Repr

/-- The outcome of one attempt: bank per node, final bank vector, events,
whether every node got a bank, and whether the initial checks already
failed. -/
structure AttemptResult where
  memBank : List Int
  banks : List BankChar
  events : List BankEvent
  ok : Bool
  early : Bool
deriving Repr

/-- `PrintAssignmentInfo`: the buffers (with sizes) per bank, and the
unassigned ones. -/
def reportOf (g : BufferGraph) (nbanks : Nat) (memBank : List Int) : BankEvent :=
  let tagged := (List.range g.nodes.length).map fun i =>
    (i, (g.nodes.getD i default).Size, memBank.getD i (-1))
  .report
    ((List.range nbanks).map fun j =>
      (tagged.filter fun t => decide (t.2.2 = Int.ofNat j)).map fun t => (t.1, t.2.1))
    ((tagged.filter fun t => decide (t.2.2 = -1)).map fun t => (t.1, t.2.1))

/-- The final `Verbose("Bank usage")` loop: used and total capacity per bank. -/
def usageOf (banks : List BankChar) : List (Int × Int) :=
  banks.map fun b => (b.Capacity - b.FreeSpace, b.Capacity)

/-- One attempt of `AssignBanks` up to the retry decision: reset all
assignments, run the size and total-size checks, build the removal stack
and color it. -/
def assignBanksBody (g : BufferGraph) (nbanks : Nat) (corr : Nat) : AttemptResult :=
  let n := g.nodes.length
  let memBank0 : List Int := List.replicate n (-1)
  let oversize := g.nodes.filter fun nd => decide (nd.Size > InitialBankCapacity)
  let events0 : List BankEvent := oversize.map fun nd => .errorBufferTooBig nd.Size
  let totalsize := g.nodes.foldl (fun acc nd => acc + nd.Size) 0
  if oversize ≠ [] then ⟨memBank0, [], events0, false, true⟩
  else if totalsize > nbanks * InitialBankCapacity then
    ⟨memBank0, [], [.errorInsufficientMemory totalsize], false, true⟩
  else
    -- `totalsize > BankCount_*InitialBankCapacity*0.9` (double rounding ignored)
    let events1 : List BankEvent :=
      if 10 * totalsize > 9 * (nbanks * InitialBankCapacity) ∧ corr = 0 then [.warning90] else []
    let stack := (buildStack g corr).1
    let st := stack.foldl (colorStep g) ⟨memBank0, List.replicate n true, initBanks nbanks, true⟩
    ⟨st.memBank, st.banks, events1, st.ret, false⟩

/-- `BankAssignment::AssignBanks`: one attempt; when some buffer stays
unassigned and `correction < 10`, start over with `correction + 1`;
otherwise report.  Returns the flag, the bank per node, and the events of
all attempts in order. -/
def AssignBanks (g : BufferGraph) (nbanks : Nat) (correction : Nat) :
    Bool × List Int × List BankEvent :=
  let r := assignBanksBody g nbanks correction
  if r.early then (false, r.memBank, r.events)
  else if r.ok then (true, r.memBank, r.events ++ [.bankUsage (usageOf r.banks)])
  else if _h : correction < 10 then
    let rest := AssignBanks g nbanks (correction + 1)
    (rest.1, rest.2.1, r.events ++ rest.2.2)
  else
    (false, r.memBank,
      r.events ++ [.errorNotAllMapped, reportOf g nbanks r.memBank, .bankUsage (usageOf r.banks)])
termination_by 10 - correction

/-! ## Dataflow resolution (src/metakernelseq.cpp)

Kernels, packets and kernel calls as the resolver sees them.  Pointer
identities: a variable (`const Packet *`) is an index into the list of the
meta-kernel's packets followed by the temporary variables; an argument
(`const KernelCall::Argument *`) is identified by its operation and
argument position, or as the synthetic input dummy of a meta-kernel
packet. -/

/-- `Packet::AccessType`. -/
inductive AccessType where
  | acIn | acOut | acInOut | acParam
deriving DecidableEq, Repr

/-- A kernel packet: name, access type, base type, declared dimensions
(negative entries refer to derived parameters). -/
structure Packet where
  Name : String
  Access : AccessType
  BType : BaseType
  ArrayDims : List Int
deriving DecidableEq, Repr

instance : Inhabited Packet := ⟨⟨"", .acIn, ⟨"", 0⟩, []⟩⟩

/-- A kernel: name and packets. -/
structure Kernel where
  Name : String
  Packets : List Packet
deriving DecidableEq, Repr

instance : Inhabited Kernel := ⟨⟨"", []⟩⟩

/-- A kernel call as the front-end hands it over: callee, arguments
(variable index and index space), parameters and derived parameters. -/
structure KernelCall where
  Callee : Kernel
  Args : List (Nat × Space)
  Params : List Int
  DerivedParams : List Int
deriving DecidableEq, Repr

instance : Inhabited KernelCall := ⟨⟨default, [], [], []⟩⟩

/-- A meta-kernel sequence: the meta-kernel's own packets, the temporary
variables, and the ordered operations. -/
structure MKEnv where
  mkPackets : List Packet
  Variables : List Packet
  Operations : List KernelCall
deriving Repr

/-- The packet a variable index denotes. -/
def MKEnv.varPacket (env : MKEnv) (v : Nat) : Packet :=
  (env.mkPackets ++ env.Variables).getD v default

/-- Number of variables (meta-kernel packets and temporaries). -/
def MKEnv.totalVars (env : MKEnv) : Nat := env.mkPackets.length + env.Variables.length

/-- A processed argument: variable, padded index space, relevant
dimensions (the `Argument` fields after both constructors ran). -/
structure ProcArg where
  var : Nat
  Indices : Space
  RelevantDims : List Nat
deriving DecidableEq, Repr

instance : Inhabited ProcArg := ⟨⟨0, [], []⟩⟩

/-- Substitution of a negative dimension by its derived parameter
(`if (dim < 0) dim = DerivedParams_[-dim-1]`). -/
def substDim (derived : List Int) (d : Int) : Int :=
  if d < 0 then derived.getD (-d - 1).toNat 0 else d

/-- The inner `while (cursize == 1 && suppidx > 0)` loop of the
`KernelCall` constructor: skip collapsed dimensions downwards. -/
def skipOnes (indices : Space) : Int → Nat → Int × Nat
  | cursize, suppidx =>
    if h : cursize = 1 ∧ suppidx > 0 then
      skipOnes indices (indices.getD (suppidx - 1) ⟨0, 0⟩).size (suppidx - 1)
    else (cursize, suppidx)
termination_by _ suppidx => suppidx

/-- The descending loop of the `KernelCall` constructor computing
`RelevantDims_`: the input is the (already substituted) callee dimensions
in reverse order; the result lists the matched variable dimension for each
callee dimension, in variable order, plus the final `suppidx`.  `none`
when a block size mismatch is diagnosed. -/
def relDimsGo (indices : Space) (derived : List Int) :
    List Int → Nat → Option (List Nat × Nat)
  | [], suppidx => some ([], suppidx)
  | a :: rest, suppidx =>
      let curargdim := substDim derived a
      let cursize : Int :=
        if suppidx = 0 then -1 else (indices.getD (suppidx - 1) ⟨0, 0⟩).size
      let supp1 := suppidx - 1
      if cursize = curargdim then
        (relDimsGo indices derived rest supp1).map fun q => (q.1 ++ [supp1], q.2)
      else
        let sk := skipOnes indices cursize supp1
        if sk.1 = curargdim then
          (relDimsGo indices derived rest sk.2).map fun q => (q.1 ++ [sk.2], q.2)
        else none

/-- `RelevantDims_` for one argument: run the descending loop over the
substituted callee dimensions, then insist that all remaining leading
variable dimensions are collapsed (`size == 1`). -/
def computeRelDims (indices : Space) (derived : List Int) (argdims : List Int) :
    Option (List Nat) :=
  let argdims2 := argdims.map (substDim derived)
  match relDimsGo indices derived argdims2.reverse indices.length with
  | none => none
  | some (rel, suppfin) =>
      if (indices.take suppfin).any (fun r => decide (r.size ≠ 1)) then none
      else some rel

/-- Both constructors for one argument: the `Argument` constructor pads or
truncates the index space to the variable's dimensionality and checks
bounds and zero sizes; the `KernelCall` constructor checks base type and
access compatibility and computes the relevant dimensions.  `none` when
any diagnostic was recorded (the call is then invalid). -/
def processArg (env : MKEnv) (derived : List Int) (demand : Packet) (rawArg : Nat × Space) :
    Option ProcArg :=
  let vpack := env.varPacket rawArg.1
  let vdims := vpack.ArrayDims
  let tooMany := decide (rawArg.2.length > vdims.length)
  let ind1 := if rawArg.2.length > vdims.length then rawArg.2.take vdims.length
              else rawArg.2 ++ Space.ofDims (vdims.drop rawArg.2.length)
  let argOk := !tooMany &&
    (List.zip ind1 vdims).all (fun q => (Range.BeginCount 0 q.2).Contains q.1) &&
    ind1.all fun r => decide (r.size ≠ 0)
  let btOk := vpack.BType.IsCompatible demand.BType
  let accOk := !(decide (vpack.Access = .acIn) && decide (demand.Access ≠ .acIn))
  match computeRelDims ind1 derived demand.ArrayDims with
  | none => none
  | some rel => if argOk && btOk && accOk then some ⟨rawArg.1, ind1, rel⟩ else none

/-- All arguments of one call (`KernelCall::IsValid`): argument count must
match and every argument must process cleanly. -/
def KernelCall.procArgs (env : MKEnv) (call : KernelCall) : Option (List ProcArg) :=
  if call.Args.length ≠ call.Callee.Packets.length then none
  else (List.zip call.Callee.Packets call.Args).mapM fun q =>
    processArg env call.DerivedParams q.1 q.2

/-- All operations processed (`std::all_of(..., IsValid)`). -/
def MKEnv.procOps (env : MKEnv) : Option (List (List ProcArg)) :=
  env.Operations.mapM (KernelCall.procArgs env)

/-- Identity of a live definition: the input dummy of a meta-kernel
packet, or argument `j` of operation `i`. -/
inductive MArgRef where
  | input (packetIdx : Nat)
  | call (opIdx : Nat) (argIdx : Nat)
deriving DecidableEq, Repr

/-- One anchor of a dependency: the packet of the interface it points
into, and the index space. -/
structure Anchor where
  ifacePacket : Packet
  Index : Space
deriving DecidableEq, Repr

/-- `spec::Dependency`. -/
structure MDependency where
  From : Anchor
  To : Anchor
deriving DecidableEq, Repr

/-- `Dependency::CheckCompatibility` (src/dependency.cpp): compatible base
types and element-wise equal effective dimensions. -/
def MDependency.CheckCompatibility (d : MDependency) : Bool :=
  d.From.ifacePacket.BType.IsCompatible d.To.ifacePacket.BType &&
    decide (d.From.Index.GetEffectiveDimensions = d.To.Index.GetEffectiveDimensions)

/-- The byte size an anchor transports (`Dependency::GetMemSize` uses the
`From` side; the claim compares both sides). -/
def Anchor.MemSize (a : Anchor) : Int := a.Index.GetVolume * a.ifacePacket.BType.Size

/-- `IndicesAbsToRel`: for each relevant dimension, the absolute range
displaced by the reference origin. -/
def IndicesAbsToRel (abs ref : Space) (relvdims : List Nat) : Space :=
  relvdims.map fun d => (abs.getD d ⟨0, 0⟩).displace (-(ref.getD d ⟨0, 0⟩).first)

/-- The diagnosable errors `TranslateToMetaKernel` formats into the
`errors` string, as structured records. -/
inductive TransError where
  | uninit (taskKernel : String) (taskInst : Nat) (varName : String) (region : Space)
  | unwrittenOutput (packetName : String) (region : Space)
deriving DecidableEq, Repr

/-- The running state of `TranslateToMetaKernel`. -/
structure TransState where
  defs : List (SpaceDivision (Option MArgRef))
  deps : List MDependency
  errors : List TransError

/-- The instantiation index of operation `i` (`instcounts[kernel]++`):
how many earlier operations call the same kernel. -/
def MKEnv.instIdx (env : MKEnv) (i : Nat) : Nat :=
  ((env.Operations.take i).filter fun op =>
    decide (op.Callee = (env.Operations.getD i default).Callee)).length

/-- The data of a live-definition reference: its processed argument and
the packet of its interface. -/
def MKEnv.refArg (env : MKEnv) (pops : List (List ProcArg)) : MArgRef → ProcArg × Packet
  | .input pidx =>
      let pk := env.mkPackets.getD pidx default
      (⟨pidx, Space.ofDims pk.ArrayDims, List.range pk.ArrayDims.length⟩, pk)
  | .call i j =>
      ((pops.getD i []).getD j default,
        (env.Operations.getD i default).Callee.Packets.getD j default)

/-- The initial live-definition divisions: temporaries and `out` packets
start uninitialized (`nullptr`), other meta-kernel packets start covered
by their input dummy. -/
def MKEnv.initDefs (env : MKEnv) : List (SpaceDivision (Option MArgRef)) :=
  (env.mkPackets.mapIdx fun i pk =>
    let sdiv : SpaceDivision (Option MArgRef) := ⟨Space.ofDims pk.ArrayDims, []⟩
    if pk.Access = .acOut then sdiv.AssignSection sdiv.FullSpace none
    else sdiv.AssignSection sdiv.FullSpace (some (.input i))) ++
  env.Variables.map fun pk =>
    let sdiv : SpaceDivision (Option MArgRef) := ⟨Space.ofDims pk.ArrayDims, []⟩
    sdiv.AssignSection sdiv.FullSpace none

/-- The body of the inputs loop iterating over the live definitions
overlapping argument `j` of operation `i`: an uninitialized-variable error
for an unlabelled section, a dependency from the recorded definition
otherwise. -/
def MKEnv.secStep (env : MKEnv) (pops : List (List ProcArg)) (i j : Nat) (st : TransState)
    (sec : Option MArgRef × Space) : TransState :=
  let op := env.Operations.getD i default
  let packet := op.Callee.Packets.getD j default
  let pa := (pops.getD i []).getD j default
  match sec.1 with
  | none =>
      { st with errors := st.errors ++
          [.uninit op.Callee.Name (env.instIdx i) (env.varPacket pa.var).Name sec.2] }
  | some ref =>
      let refPa := (env.refArg pops ref).1
      let refPk := (env.refArg pops ref).2
      { st with deps := st.deps ++
          [⟨⟨refPk, IndicesAbsToRel sec.2 refPa.Indices refPa.RelevantDims⟩,
            ⟨packet, IndicesAbsToRel sec.2 pa.Indices pa.RelevantDims⟩⟩] }

/-- One iteration of the inputs loop of an operation: take the sub-division
of the argument's variable under the argument's index space and fold
`secStep` over its sections (skipping `out` packets). -/
def MKEnv.inputStep (env : MKEnv) (pops : List (List ProcArg)) (i : Nat) (st : TransState)
    (j : Nat) : TransState :=
  let op := env.Operations.getD i default
  let packet := op.Callee.Packets.getD j default
  if packet.Access = .acOut then st
  else
    let pa := (pops.getD i []).getD j default
    let subdiv := (st.defs.getD pa.var ⟨[], []⟩).SubDivision pa.Indices
    subdiv.Sections.foldl (env.secStep pops i j) st

/-- One iteration of the outputs loop of an operation: re-assign the
written section of a non-`in` argument to this argument. -/
def MKEnv.outputStep (env : MKEnv) (pops : List (List ProcArg)) (i : Nat) (st : TransState)
    (j : Nat) : TransState :=
  let op := env.Operations.getD i default
  let packet := op.Callee.Packets.getD j default
  if packet.Access = .acIn then st
  else
    let pa := (pops.getD i []).getD j default
    let d2 := (st.defs.getD pa.var ⟨[], []⟩).AssignSection pa.Indices (some (.call i j))
    { st with defs := st.defs.set pa.var d2 }

/-- Processing of one operation: the inputs loop emits a dependency (or an
uninitialized-variable error) per live definition overlapping a non-`out`
argument; the outputs loop then re-assigns the written sections. -/
def MKEnv.translateStep (env : MKEnv) (pops : List (List ProcArg)) (st : TransState) (i : Nat) :
    TransState :=
  let pargs := pops.getD i []
  let st1 := (List.range pargs.length).foldl (env.inputStep pops i) st
  (List.range pargs.length).foldl (env.outputStep pops i) st1

/-- The body of the final loop iterating over the live definitions of
meta-kernel packet `i`: a dependency into the synthetic outputs task for a
labelled section, an unwritten-output error for an unlabelled section of
an `out` packet. -/
def MKEnv.finalSecStep (env : MKEnv) (pops : List (List ProcArg)) (i : Nat) (st : TransState)
    (sec : Option MArgRef × Space) : TransState :=
  let packet := env.mkPackets.getD i default
  match sec.1 with
  | some ref =>
      let refPa := (env.refArg pops ref).1
      let refPk := (env.refArg pops ref).2
      { st with deps := st.deps ++
          [⟨⟨refPk, IndicesAbsToRel sec.2 refPa.Indices refPa.RelevantDims⟩,
            ⟨packet, sec.2⟩⟩] }
  | none =>
      if packet.Access = .acOut then
        { st with errors := st.errors ++ [.unwrittenOutput packet.Name sec.2] }
      else st

/-- The final loop: every non-`in` meta-kernel packet gets a dependency to
the synthetic outputs task per live definition; still-uninitialized
sections of `out` packets are diagnosed. -/
def MKEnv.finalStep (env : MKEnv) (pops : List (List ProcArg)) (st : TransState) : TransState :=
  (List.range env.mkPackets.length).foldl
    (fun st i =>
      let packet := env.mkPackets.getD i default
      if packet.Access = .acIn then st
      else (st.defs.getD i ⟨[], []⟩).Sections.foldl (env.finalSecStep pops i) st)
    st

/-- `MetaKernelSeq::TranslateToMetaKernel`: validity check, live-definition
initialization, the operation loop, and the output boundary check; returns
`errors.empty()` along with the dependencies and errors produced. -/
def MKEnv.Translate (env : MKEnv) : Bool × List MDependency × List TransError :=
  match env.procOps with
  | none => (false, [], [])
  | some pops =>
      let st0 : TransState := ⟨env.initDefs, [], []⟩
      let st1 := (List.range env.Operations.length).foldl (env.translateStep pops) st0
      let st2 := env.finalStep pops st1
      (decide (st2.errors = []), st2.deps, st2.errors)

/-- The ground truth of claim C6: which live definition covers point `p`
of variable `v` before operation `k` runs — the latest non-`in` argument
of an earlier operation whose index space contains `p`, the input dummy
for a non-`out` meta-kernel packet, or nothing. -/
def MKEnv.gtInit (env : MKEnv) (v : Nat) : Option MArgRef :=
  if v < env.mkPackets.length ∧ (env.mkPackets.getD v default).Access ≠ .acOut
  then some (.input v) else none

/-- See `MKEnv.gtInit`: the effect of argument `j` of operation `i` on the
ground truth for point `p` of variable `v` (a write overrides). -/
def MKEnv.gtArgUpd (env : MKEnv) (pops : List (List ProcArg)) (i : Nat) (v : Nat)
    (p : List Int) (acc : Option MArgRef) (j : Nat) : Option MArgRef :=
  let packet := (env.Operations.getD i default).Callee.Packets.getD j default
  let pa := (pops.getD i []).getD j default
  if packet.Access ≠ .acIn ∧ pa.var = v ∧ Space.memB pa.Indices p = true
  then some (.call i j) else acc

/-- See `MKEnv.gtInit`: ground truth after the first `k` operations. -/
def MKEnv.gtAfter (env : MKEnv) (pops : List (List ProcArg)) (k v : Nat) (p : List Int) :
    Option MArgRef :=
  (List.range k).foldl
    (fun acc i => (List.range (pops.getD i []).length).foldl (env.gtArgUpd pops i v p) acc)
    (env.gtInit v)

/-- The selection property `computeRelDims` establishes for a processed
argument: the relevant dimensions are strictly ascending positions into
the index space, and every position outside them is collapsed (size 1). -/
def ArgSel (pa : ProcArg) : Prop :=
  List.Pairwise (fun a b => a < b) pa.RelevantDims ∧
  (∀ d ∈ pa.RelevantDims, d < pa.Indices.length) ∧
  (∀ j, j < pa.Indices.length → j ∉ pa.RelevantDims →
    (pa.Indices.getD j ⟨0, 0⟩).size = 1)

/-- What a successfully processed argument guarantees against the callee
packet it was passed for: the index space has the variable's
dimensionality, the selection property holds, and the base type sizes of
callee packet and variable agree. -/
def ArgRel (env : MKEnv) (pk : Packet) (pa : ProcArg) : Prop :=
  pa.Indices.length = (env.varPacket pa.var).ArrayDims.length ∧
  ArgSel pa ∧
  pk.BType.Size = (env.varPacket pa.var).BType.Size

/-- Consistency of the whole processed-operations table. -/
def PopsOk (env : MKEnv) (pops : List (List ProcArg)) : Prop :=
  pops.length = env.Operations.length ∧
  ∀ i, i < env.Operations.length →
    (pops.getD i []).length = (env.Operations.getD i default).Callee.Packets.length ∧
    ∀ j, j < (pops.getD i []).length →
      ArgRel env ((env.Operations.getD i default).Callee.Packets.getD j default)
        ((pops.getD i []).getD j default)

/-- Consistency of a live-definition reference for variable `v`. -/
def RefOk (env : MKEnv) (pops : List (List ProcArg)) (v : Nat) (ref : MArgRef) : Prop :=
  (env.refArg pops ref).1.var = v ∧
  ArgRel env (env.refArg pops ref).2 (env.refArg pops ref).1

/-- The translation-loop invariant: the division table has one entry per
variable, and every stored section has the variable's dimensionality, is
non-empty, and (when labelled) points to a consistent live definition
whose index space covers it. -/
def DivInv (env : MKEnv) (pops : List (List ProcArg)) (st : TransState) : Prop :=
  st.defs.length = env.totalVars ∧
  ∀ v, v < env.totalVars →
    ∀ q ∈ (st.defs.getD v ⟨[], []⟩).Sections,
      q.2.length = (env.varPacket v).ArrayDims.length ∧
      Space.IsEmpty q.2 = false ∧
      ∀ ref, q.1 = some ref →
        RefOk env pops v ref ∧
        Space.SubsetPt q.2 (env.refArg pops ref).1.Indices

/-- A dependency with compatible anchors transporting equal byte sizes. -/
def DepOk (d : MDependency) : Prop :=
  d.CheckCompatibility = true ∧ d.From.MemSize = d.To.MemSize

/-- The coverage invariant of claim C6, against an arbitrary ground-truth
labelling `g`: each variable's division keeps its bounding space, and every
in-bounds point is covered by a stored section carrying the label `g`
prescribes for it. -/
def Cov (env : MKEnv) (g : Nat → List Int → Option MArgRef) (st : TransState) : Prop :=
  ∀ v, v < env.totalVars →
    (st.defs.getD v ⟨[], []⟩).FullSpace = Space.ofDims (env.varPacket v).ArrayDims ∧
    ∀ p, Space.memB (Space.ofDims (env.varPacket v).ArrayDims) p = true →
      ∃ q ∈ (st.defs.getD v ⟨[], []⟩).Sections,
        Space.memB q.2 p = true ∧ q.1 = g v p

/-- A two-packet copy kernel sequence used to exercise the translation. -/
def sampleMK : MKEnv :=
  ⟨[⟨"A", .acIn, ⟨"int", 4⟩, [2]⟩, ⟨"B", .acOut, ⟨"int", 4⟩, [2]⟩], [],
   [⟨⟨"copy", [⟨"x", .acIn, ⟨"int", 4⟩, [2]⟩, ⟨"y", .acOut, ⟨"int", 4⟩, [2]⟩]⟩,
     [(0, [⟨0, 2⟩]), (1, [⟨0, 2⟩])], [], []⟩]⟩

/-- A sequence reading a temporary variable that was never written, used to
exercise the uninitialized-read diagnosis. -/
def sampleUninit : MKEnv :=
  ⟨[], [⟨"A", .acParam, ⟨"int", 4⟩, [10]⟩],
   [⟨⟨"consume", [⟨"x", .acIn, ⟨"int", 4⟩, [10]⟩]⟩, [(0, [⟨0, 10⟩])], [], []⟩]⟩

/-- The processed arguments of `sampleUninit`. -/
def sampleUninitPops : List (List ProcArg) := [[⟨0, [⟨0, 10⟩], [0]⟩]]

/-- Claim C7, formalized as stated: whenever `s` contains `a` on all
dimensions except exactly one, `Space::Remove` subtracts the intersection
with `s` from `a` in that dimension (as a set of integers); in every other
case `a` is left unchanged. -/
def RemoveClaimC7 (a s : Space) : Prop :=
  ((∃ i, i < a.length ∧ (s.getD i ⟨0, 0⟩).Contains (a.getD i ⟨0, 0⟩) = false ∧
      ∀ j, j < a.length → j ≠ i → (s.getD j ⟨0, 0⟩).Contains (a.getD j ⟨0, 0⟩) = true) →
    ∀ i, i < a.length → (s.getD i ⟨0, 0⟩).Contains (a.getD i ⟨0, 0⟩) = false →
      (∀ j, j < a.length → j ≠ i → (s.getD j ⟨0, 0⟩).Contains (a.getD j ⟨0, 0⟩) = true) →
      (∀ j, j ≠ i → (Space.Remove a s).getD j ⟨0, 0⟩ = a.getD j ⟨0, 0⟩) ∧
      ∀ x : Int, ((Space.Remove a s).getD i ⟨0, 0⟩).mem x =
        ((a.getD i ⟨0, 0⟩).mem x && !(s.getD i ⟨0, 0⟩).mem x)) ∧
  ((¬ ∃ i, i < a.length ∧ (s.getD i ⟨0, 0⟩).Contains (a.getD i ⟨0, 0⟩) = false ∧
      ∀ j, j < a.length → j ≠ i → (s.getD j ⟨0, 0⟩).Contains (a.getD j ⟨0, 0⟩) = true) →
    Space.Remove a s = a)

/-! # Theorems -/

/-! ## Basic range lemmas -/

theorem Range.mem_true {r : Range} {x : Int} : r.mem x = true ↔ r.Begin ≤ x ∧ x < r.End := by
  simp [Range.mem]

theorem Range.isEmpty_false {r : Range} : r.IsEmpty = false ↔ r.Begin < r.End := by
  simp [Range.IsEmpty]

theorem Range.mem_inter {a b : Range} {x : Int} :
    (a.inter b).mem x = true ↔ a.mem x = true ∧ b.mem x = true := by
  unfold Range.inter
  simp only [Range.mem_true]
  omega

theorem Range.isEmpty_true {r : Range} : r.IsEmpty = true ↔ r.End ≤ r.Begin := by
  simp [Range.IsEmpty]

theorem Range.mem_false {r : Range} {x : Int} :
    r.mem x = false ↔ ¬(r.Begin ≤ x ∧ x < r.End) := by
  rw [← Range.mem_true]
  cases h : r.mem x <;> simp

theorem Range.mem_unionA_left {a b : Range} {x : Int} (h : a.mem x = true) :
    (a.unionA b).mem x = true := by
  have hx := Range.mem_true.1 h
  unfold Range.unionA
  split_ifs with h1 h2
  · rw [Range.isEmpty_true] at h1; omega
  · exact h
  · rw [Range.mem_true]; dsimp only; omega

theorem Range.mem_unionA_right {a b : Range} {x : Int} (h : b.mem x = true) :
    (a.unionA b).mem x = true := by
  have hx := Range.mem_true.1 h
  unfold Range.unionA
  split_ifs with h1 h2
  · exact h
  · rw [Range.isEmpty_true] at h2; omega
  · rw [Range.mem_true]; dsimp only; omega

theorem Range.not_overlaps {a b : Range} {x : Int} (h : a.Overlaps b = false) :
    ¬(a.mem x = true ∧ b.mem x = true) := by
  rintro ⟨h1, h2⟩
  rw [Range.mem_true] at h1 h2
  simp [Range.Overlaps] at h
  omega

theorem Range.contains_mem {a b : Range} {x : Int} (h : a.Contains b = true)
    (hm : b.mem x = true) : a.mem x = true := by
  simp [Range.Contains] at h
  rw [Range.mem_true] at *
  omega

theorem Range.mem_isEmpty_false {r : Range} {x : Int} (h : r.mem x = true) :
    r.IsEmpty = false := by
  rw [Range.mem_true] at h
  rw [Range.isEmpty_false]
  omega

theorem Range.isEmpty_false_exists_mem {r : Range} (h : r.IsEmpty = false) :
    ∃ x, r.mem x = true := by
  rw [Range.isEmpty_false] at h
  exact ⟨r.Begin, Range.mem_true.2 ⟨le_refl _, h⟩⟩

/-! ## RangeSubtract lemmas -/

theorem RangeSubtract.sound {a sub r : Range} (hsub : sub.IsEmpty = false)
    (h : r ∈ RangeSubtract a sub) {x : Int}
    (hm : r.mem x = true) : a.mem x = true ∧ sub.mem x = false := by
  rw [Range.isEmpty_false] at hsub
  unfold RangeSubtract at h
  split_ifs at h with h1 h2 h3 h4 h5 <;>
    simp only [List.mem_cons, List.not_mem_nil, or_false] at h
  · rcases h with rfl | rfl <;>
      (rw [Range.mem_true] at hm; dsimp only [Range.BeginEnd] at hm
       exact ⟨Range.mem_true.2 (by omega), Range.mem_false.2 (by omega)⟩)
  · subst h
    rw [Range.mem_true] at hm
    exact ⟨Range.mem_true.2 (by omega), Range.mem_false.2 (by omega)⟩
  · subst h
    rw [Range.mem_true] at hm; dsimp only [Range.BeginEnd] at hm
    exact ⟨Range.mem_true.2 (by omega), Range.mem_false.2 (by omega)⟩
  · subst h
    rw [Range.mem_true] at hm
    exact ⟨Range.mem_true.2 (by omega), Range.mem_false.2 (by omega)⟩
  · subst h
    rw [Range.mem_true] at hm; dsimp only [Range.BeginEnd] at hm
    exact ⟨Range.mem_true.2 (by omega), Range.mem_false.2 (by omega)⟩

theorem RangeSubtract.complete {a sub : Range} {x : Int} (ha : a.mem x = true)
    (hs : sub.mem x = false) : ∃ r ∈ RangeSubtract a sub, r.mem x = true := by
  rw [Range.mem_true] at ha
  rw [Range.mem_false] at hs
  unfold RangeSubtract
  split_ifs with h1 h2 h3 h4 h5
  · by_cases hx : x < sub.Begin
    · exact ⟨Range.BeginEnd a.Begin sub.Begin, by simp,
        Range.mem_true.2 (by dsimp only [Range.BeginEnd]; omega)⟩
    · exact ⟨Range.BeginEnd sub.End a.End, by simp,
        Range.mem_true.2 (by dsimp only [Range.BeginEnd]; omega)⟩
  · exact ⟨a, by simp, Range.mem_true.2 ha⟩
  · exact ⟨Range.BeginEnd a.Begin sub.Begin, by simp,
      Range.mem_true.2 (by dsimp only [Range.BeginEnd]; omega)⟩
  · omega
  · exact ⟨a, by simp, Range.mem_true.2 ha⟩
  · exact ⟨Range.BeginEnd sub.End a.End, by simp,
      Range.mem_true.2 (by dsimp only [Range.BeginEnd]; omega)⟩

theorem RangeSubtract.nonempty {a sub r : Range} (ha : a.IsEmpty = false)
    (h : r ∈ RangeSubtract a sub) : r.IsEmpty = false := by
  rw [Range.isEmpty_false] at *
  unfold RangeSubtract at h
  split_ifs at h with h1 h2 h3 h4 h5 <;>
    simp only [List.mem_cons, List.not_mem_nil, or_false] at h
  · rcases h with rfl | rfl <;> (dsimp only [Range.BeginEnd]; omega)
  · subst h; omega
  · subst h; dsimp only [Range.BeginEnd]; omega
  · subst h; omega
  · subst h; dsimp only [Range.BeginEnd]; omega

/-! ## Space membership lemmas -/

theorem Space.memB_length : ∀ {s : Space} {p : List Int}, Space.memB s p = true →
    p.length = s.length
  | [], [], _ => rfl
  | [], _ :: _, h => by simp [Space.memB] at h
  | _ :: _, [], h => by simp [Space.memB] at h
  | _ :: s, _ :: p, h => by
    simp only [Space.memB, Bool.and_eq_true] at h
    simpa using Space.memB_length (s := s) (p := p) h.2

theorem Space.memB_isEmpty_false : ∀ {s : Space} {p : List Int}, Space.memB s p = true →
    Space.IsEmpty s = false
  | [], _, _ => rfl
  | _ :: _, [], h => by simp [Space.memB] at h
  | r :: s, x :: p, h => by
    simp only [Space.memB, Bool.and_eq_true] at h
    have h1 := Range.mem_isEmpty_false h.1
    have h2 := Space.memB_isEmpty_false (s := s) (p := p) h.2
    simp only [Space.IsEmpty, List.any_cons, List.any_eq_false, Bool.or_eq_false_iff] at h1 h2 ⊢
    exact ⟨h1, h2⟩

theorem Space.isEmpty_false_exists_memB : ∀ {s : Space}, Space.IsEmpty s = false →
    ∃ p, Space.memB s p = true
  | [], _ => ⟨[], rfl⟩
  | r :: s, h => by
    simp only [Space.IsEmpty, List.any_cons, Bool.or_eq_false_iff] at h
    obtain ⟨x, hx⟩ := Range.isEmpty_false_exists_mem h.1
    obtain ⟨p, hp⟩ := Space.isEmpty_false_exists_memB (s := s) (by simp [Space.IsEmpty, h.2])
    exact ⟨x :: p, by simp [Space.memB, hx, hp]⟩

theorem Space.contains_subset : ∀ {a b : Space}, Space.Contains a b = true →
    ∀ {p : List Int}, Space.memB b p = true → Space.memB a p = true
  | [], [], _, p, hm => hm
  | [], _ :: _, h, _, _ => by simp [Space.Contains] at h
  | _ :: _, [], h, _, _ => by simp [Space.Contains] at h
  | r :: a, u :: b, h, p, hm => by
    cases p with
    | nil => simp [Space.memB] at hm
    | cons x q =>
      simp only [Space.Contains, Bool.and_eq_true] at h
      simp only [Space.memB, Bool.and_eq_true] at hm ⊢
      exact ⟨Range.contains_mem h.1 hm.1, Space.contains_subset h.2 hm.2⟩

theorem Space.contains_of_forall : ∀ {a b : Space}, a.length = b.length →
    (∀ j, j < b.length → (a.getD j ⟨0, 0⟩).Contains (b.getD j ⟨0, 0⟩) = true) →
    Space.Contains a b = true
  | [], [], _, _ => rfl
  | [], _ :: _, h, _ => by simp at h
  | _ :: _, [], h, _ => by simp at h
  | r :: a, u :: b, h, hall => by
    simp only [Space.Contains, Bool.and_eq_true]
    refine ⟨hall 0 (by simp), Space.contains_of_forall (by simpa using h) ?_⟩
    intro j hj
    simpa using hall (j + 1) (by simpa using hj)

theorem Space.contains_at : ∀ {a b : Space}, Space.Contains a b = true →
    ∀ j, (a.getD j ⟨0, 0⟩).Contains (b.getD j ⟨0, 0⟩) = true ∨ j ≥ b.length
  | [], [], _, j => .inr (by simp)
  | [], _ :: _, h, _ => by simp [Space.Contains] at h
  | _ :: _, [], h, _ => by simp [Space.Contains] at h
  | r :: a, u :: b, h, j => by
    simp only [Space.Contains, Bool.and_eq_true] at h
    cases j with
    | zero => exact .inl h.1
    | succ j =>
      rcases Space.contains_at h.2 j with hc | hge
      · exact .inl (by simpa using hc)
      · exact .inr (by simpa using hge)

theorem Space.not_overlaps_disjoint : ∀ {a b : Space}, a.length = b.length →
    Space.Overlaps a b = false → Space.DisjointPt a b
  | [], [], h, ho => by simp [Space.Overlaps] at ho
  | [], _ :: _, h, _ => by simp at h
  | _ :: _, [], h, _ => by simp at h
  | r :: a, u :: b, h, ho => by
    intro p hp
    obtain ⟨h1, h2⟩ := hp
    cases p with
    | nil => simp [Space.memB] at h1
    | cons x q =>
      simp only [Space.memB, Bool.and_eq_true] at h1 h2
      simp only [Space.Overlaps, Bool.and_eq_false_iff] at ho
      rcases ho with ho | ho
      · exact Range.not_overlaps ho ⟨h1.1, h2.1⟩
      · exact Space.not_overlaps_disjoint (by simpa using h) ho q ⟨h1.2, h2.2⟩

theorem Space.memB_Clear : ∀ {s : Space} {p : List Int}, Space.memB (Space.Clear s) p = true →
    s = [] ∧ p = []
  | [], [], _ => ⟨rfl, rfl⟩
  | [], _ :: _, h => by simp [Space.Clear, Space.memB] at h
  | r :: s, p, h => by
    exfalso
    cases p with
    | nil => simp [Space.Clear, Space.memB] at h
    | cons x q =>
      simp only [Space.Clear, List.map_cons, Space.memB, Bool.and_eq_true] at h
      have := Range.mem_true.1 h.1
      dsimp only [Range.BeginCount] at this
      omega

theorem Space.interGo_memB : ∀ {a b : Space}, a.length = b.length →
    ∀ {p : List Int},
      (Space.memB (Space.interGo a b).1 p = true ∧ (Space.interGo a b).2 = true) ↔
        (Space.memB a p = true ∧ Space.memB b p = true)
  | [], [], _, p => by simp [Space.interGo]
  | [], _ :: _, h, _ => by simp at h
  | _ :: _, [], h, _ => by simp at h
  | r :: a, u :: b, h, p => by
    simp only [Space.interGo]
    split_ifs with he
    · constructor
      · rintro ⟨hm, hok⟩
        exact absurd hok (by simp)
      · rintro ⟨h1, h2⟩
        cases p with
        | nil => simp [Space.memB] at h1
        | cons x q =>
          simp only [Space.memB, Bool.and_eq_true] at h1 h2
          have := Range.mem_inter.2 ⟨h1.1, h2.1⟩
          rw [Range.mem_isEmpty_false this] at he
          simp at he
    · constructor
      · rintro ⟨hm, hok⟩
        cases p with
        | nil => simp [Space.memB] at hm
        | cons x q =>
          simp only [Space.memB, Bool.and_eq_true] at hm
          obtain ⟨hmi, hmrest⟩ := hm
          have hx := Range.mem_inter.1 hmi
          have := (Space.interGo_memB (a := a) (b := b) (by simpa using h) (p := q)).1 ⟨hmrest, hok⟩
          simp only [Space.memB, Bool.and_eq_true]
          exact ⟨⟨hx.1, this.1⟩, hx.2, this.2⟩
      · rintro ⟨h1, h2⟩
        cases p with
        | nil => simp [Space.memB] at h1
        | cons x q =>
          simp only [Space.memB, Bool.and_eq_true] at h1 h2
          have := (Space.interGo_memB (a := a) (b := b) (by simpa using h) (p := q)).2
            ⟨h1.2, h2.2⟩
          simp only [Space.memB, Bool.and_eq_true]
          exact ⟨⟨Range.mem_inter.2 ⟨h1.1, h2.1⟩, this.1⟩, this.2⟩

theorem Space.interGo_length : ∀ {a b : Space}, (Space.interGo a b).1.length = a.length := by
  intro a
  induction a with
  | nil => intro b; simp [Space.interGo]
  | cons r a ih =>
    intro b
    cases b with
    | nil => simp [Space.interGo]
    | cons u b =>
      simp only [Space.interGo]
      split_ifs <;> simp [ih]

theorem Space.memB_interA {a b : Space} (h : a.length = b.length) {p : List Int} :
    Space.memB (Space.interA a b) p = true ↔
      Space.memB a p = true ∧ Space.memB b p = true := by
  have hgo := Space.interGo_memB (a := a) (b := b) h (p := p)
  have hlen := Space.interGo_length (a := a) (b := b)
  unfold Space.interA
  rcases he : Space.interGo a b with ⟨res, ok⟩
  rw [he] at hgo hlen
  simp only at hgo hlen ⊢
  cases ok with
  | true => simpa using hgo
  | false =>
    simp only [Bool.false_eq_true, if_false]
    constructor
    · intro hm
      obtain ⟨hres, hp⟩ := Space.memB_Clear hm
      rw [hres] at hlen
      simp only [List.length_nil] at hlen
      have ha : a = [] := List.length_eq_zero.1 hlen.symm
      subst ha
      simp [Space.interGo] at he
    · intro hab
      have := hgo.2 hab
      exact absurd this.2 (by simp)

theorem Space.interA_length {a b : Space} : (Space.interA a b).length = a.length := by
  have hlen := Space.interGo_length (a := a) (b := b)
  unfold Space.interA
  rcases he : Space.interGo a b with ⟨res, ok⟩
  rw [he] at hlen
  simp only at hlen ⊢
  cases ok with
  | true => simpa using hlen
  | false => simpa [Space.Clear] using hlen

theorem Space.memB_interGo_left : ∀ {a b : Space} {p : List Int},
    Space.memB (Space.interGo a b).1 p = true → Space.memB a p = true
  | [], _, p, hm => by simpa [Space.interGo] using hm
  | _ :: _, [], p, hm => by simpa [Space.interGo] using hm
  | r :: a, u :: b, p, hm => by
    simp only [Space.interGo] at hm
    split_ifs at hm
    · cases p with
      | nil => simp [Space.memB] at hm
      | cons x q =>
        simp only [Space.memB, Bool.and_eq_true] at hm ⊢
        exact ⟨(Range.mem_inter.1 hm.1).1, hm.2⟩
    · cases p with
      | nil => simp [Space.memB] at hm
      | cons x q =>
        simp only [Space.memB, Bool.and_eq_true] at hm ⊢
        exact ⟨(Range.mem_inter.1 hm.1).1, Space.memB_interGo_left hm.2⟩

/-- Without any dimensionality assumption: a point of `a &= b` is a point
of `a`. -/
theorem Space.memB_interA_left {a b : Space} {p : List Int}
    (hm : Space.memB (Space.interA a b) p = true) : Space.memB a p = true := by
  unfold Space.interA at hm
  rcases he : Space.interGo a b with ⟨res, ok⟩
  rw [he] at hm
  simp only at hm
  cases ok with
  | true =>
    simp only [if_true] at hm
    have : Space.memB (Space.interGo a b).1 p = true := by rw [he]; exact hm
    exact Space.memB_interGo_left this
  | false =>
    simp only [Bool.false_eq_true, if_false] at hm
    obtain ⟨hres, hp⟩ := Space.memB_Clear hm
    have hlen := Space.interGo_length (a := a) (b := b)
    rw [he, hres] at hlen
    simp only [List.length_nil] at hlen
    have ha : a = [] := List.length_eq_zero.1 hlen.symm
    subst ha hp
    rfl

theorem Space.memB_unionA_left : ∀ {a b : Space}, a.length = b.length →
    ∀ {p : List Int}, Space.memB a p = true → Space.memB (Space.unionA a b) p = true
  | [], [], _, p, hm => hm
  | [], _ :: _, h, _, _ => by simp at h
  | _ :: _, [], h, _, _ => by simp at h
  | r :: a, u :: b, h, p, hm => by
    cases p with
    | nil => simp [Space.memB] at hm
    | cons x q =>
      simp only [Space.memB, Bool.and_eq_true] at hm
      simp only [Space.unionA, Space.memB, Bool.and_eq_true]
      exact ⟨Range.mem_unionA_left hm.1, Space.memB_unionA_left (by simpa using h) hm.2⟩

theorem Space.memB_unionA_right : ∀ {a b : Space}, a.length = b.length →
    ∀ {p : List Int}, Space.memB b p = true → Space.memB (Space.unionA a b) p = true
  | [], [], _, p, hm => hm
  | [], _ :: _, h, _, _ => by simp at h
  | _ :: _, [], h, _, _ => by simp at h
  | r :: a, u :: b, h, p, hm => by
    cases p with
    | nil => simp [Space.memB] at hm
    | cons x q =>
      simp only [Space.memB, Bool.and_eq_true] at hm
      simp only [Space.unionA, Space.memB, Bool.and_eq_true]
      exact ⟨Range.mem_unionA_right hm.1, Space.memB_unionA_right (by simpa using h) hm.2⟩

theorem Space.unionA_length : ∀ {a b : Space}, a.length = b.length →
    (Space.unionA a b).length = a.length
  | [], [], _ => rfl
  | [], _ :: _, h => by simp at h
  | _ :: _, [], h => by simp at h
  | r :: a, u :: b, h => by
    simp only [Space.unionA, List.length_cons]
    simpa using Space.unionA_length (a := a) (b := b) (by simpa using h)

theorem Space.isEmpty_cons {r : Range} {s : Space} :
    Space.IsEmpty (r :: s) = false ↔ r.IsEmpty = false ∧ Space.IsEmpty s = false := by
  simp [Space.IsEmpty]

theorem Space.disjointPt_cons_head {r1 r2 : Range} {s1 s2 : Space}
    (h : ∀ x, ¬(r1.mem x = true ∧ r2.mem x = true)) : Space.DisjointPt (r1 :: s1) (r2 :: s2) := by
  intro p hp
  cases p with
  | nil => simp [Space.memB] at hp
  | cons x q =>
    simp only [Space.memB, Bool.and_eq_true] at hp
    exact h x ⟨hp.1.1, hp.2.1⟩

theorem Space.disjointPt_cons_tail {r1 r2 : Range} {s1 s2 : Space}
    (h : Space.DisjointPt s1 s2) : Space.DisjointPt (r1 :: s1) (r2 :: s2) := by
  intro p hp
  cases p with
  | nil => simp [Space.memB] at hp
  | cons x q =>
    simp only [Space.memB, Bool.and_eq_true] at hp
    exact h q ⟨hp.1.2, hp.2.2⟩

theorem Range.inter_nonempty {t r : Range} (ht : t.IsEmpty = false) (hr : r.IsEmpty = false)
    (ho : t.Overlaps r = true) : (t.inter r).IsEmpty = false := by
  rw [Range.isEmpty_false] at *
  simp only [Range.Overlaps, Bool.and_eq_true, decide_eq_true_eq] at ho
  unfold Range.inter
  dsimp only
  omega

/-! ## TrimSection lemmas -/

theorem RangeSubtract.pairwise {a sub : Range} (hsub : sub.IsEmpty = false) :
    List.Pairwise (fun r1 r2 => ∀ x : Int, ¬(r1.mem x = true ∧ r2.mem x = true))
      (RangeSubtract a sub) := by
  rw [Range.isEmpty_false] at hsub
  unfold RangeSubtract
  split_ifs <;> simp_all <;>
    (intro x h1
     rw [Range.mem_true] at h1
     rw [Range.mem_false]
     dsimp only [Range.BeginEnd] at h1 ⊢
     omega)

theorem SpaceDivision.trimPieces_subset : ∀ {trim remove piece : Space},
    Space.IsEmpty remove = false → piece ∈ SpaceDivision.trimPieces trim remove →
    ∀ {p : List Int}, Space.memB piece p = true → Space.memB trim p = true
  | [], _, piece, _, h, _, _ => by simp [SpaceDivision.trimPieces] at h
  | _ :: _, [], piece, _, h, _, _ => by simp [SpaceDivision.trimPieces] at h
  | t :: ts, r :: rs, piece, hrem, h, p, hm => by
    rw [Space.isEmpty_cons] at hrem
    simp only [SpaceDivision.trimPieces, List.mem_append, List.mem_map] at h
    rcases h with ⟨d, hd, rfl⟩ | ⟨rest, hrest, rfl⟩
    · cases p with
      | nil => simp [Space.memB] at hm
      | cons x q =>
        simp only [Space.memB, Bool.and_eq_true] at hm ⊢
        exact ⟨(RangeSubtract.sound hrem.1 hd hm.1).1, hm.2⟩
    · cases p with
      | nil => simp [Space.memB] at hm
      | cons x q =>
        simp only [Space.memB, Bool.and_eq_true] at hm ⊢
        exact ⟨(Range.mem_inter.1 hm.1).1,
          SpaceDivision.trimPieces_subset hrem.2 hrest hm.2⟩

theorem SpaceDivision.trimPieces_avoid : ∀ {trim remove piece : Space},
    Space.IsEmpty remove = false → piece ∈ SpaceDivision.trimPieces trim remove →
    ∀ {p : List Int}, Space.memB piece p = true → Space.memB remove p ≠ true
  | [], _, piece, _, h, _, _ => by simp [SpaceDivision.trimPieces] at h
  | _ :: _, [], piece, _, h, _, _ => by simp [SpaceDivision.trimPieces] at h
  | t :: ts, r :: rs, piece, hrem, h, p, hm => by
    rw [Space.isEmpty_cons] at hrem
    simp only [SpaceDivision.trimPieces, List.mem_append, List.mem_map] at h
    rcases h with ⟨d, hd, rfl⟩ | ⟨rest, hrest, rfl⟩
    · cases p with
      | nil => simp [Space.memB] at hm
      | cons x q =>
        simp only [Space.memB, Bool.and_eq_true] at hm
        intro hcon
        simp only [Space.memB, Bool.and_eq_true] at hcon
        have := (RangeSubtract.sound hrem.1 hd hm.1).2
        rw [hcon.1] at this
        exact absurd this (by simp)
    · cases p with
      | nil => simp [Space.memB] at hm
      | cons x q =>
        simp only [Space.memB, Bool.and_eq_true] at hm
        intro hcon
        simp only [Space.memB, Bool.and_eq_true] at hcon
        exact SpaceDivision.trimPieces_avoid hrem.2 hrest hm.2 hcon.2

theorem SpaceDivision.trimPieces_pairwise : ∀ {trim remove : Space},
    Space.IsEmpty remove = false →
    List.Pairwise Space.DisjointPt (SpaceDivision.trimPieces trim remove)
  | [], _, _ => by simp [SpaceDivision.trimPieces]
  | _ :: _, [], _ => by simp [SpaceDivision.trimPieces]
  | t :: ts, r :: rs, hrem => by
    rw [Space.isEmpty_cons] at hrem
    simp only [SpaceDivision.trimPieces]
    rw [List.pairwise_append]
    refine ⟨?_, ?_, ?_⟩
    · rw [List.pairwise_map]
      exact (RangeSubtract.pairwise hrem.1).imp fun h => Space.disjointPt_cons_head h
    · rw [List.pairwise_map]
      exact (SpaceDivision.trimPieces_pairwise hrem.2).imp fun h => Space.disjointPt_cons_tail h
    · intro p1 hp1 p2 hp2
      simp only [List.mem_map] at hp1 hp2
      obtain ⟨d, hd, rfl⟩ := hp1
      obtain ⟨rest, hrest, rfl⟩ := hp2
      refine Space.disjointPt_cons_head fun x hx => ?_
      have h1 := (RangeSubtract.sound hrem.1 hd hx.1).2
      have h2 := (Range.mem_inter.1 hx.2).2
      rw [h2] at h1
      exact absurd h1 (by simp)

theorem SpaceDivision.trimPieces_cover : ∀ {trim remove : Space},
    trim.length = remove.length →
    ∀ {p : List Int}, Space.memB trim p = true → Space.memB remove p ≠ true →
    ∃ piece ∈ SpaceDivision.trimPieces trim remove, Space.memB piece p = true
  | [], [], _, p, hm, hno => absurd hm hno
  | [], _ :: _, h, _, _, _ => by simp at h
  | _ :: _, [], h, _, _, _ => by simp at h
  | t :: ts, r :: rs, h, p, hm, hno => by
    cases p with
    | nil => simp [Space.memB] at hm
    | cons x q =>
      simp only [Space.memB, Bool.and_eq_true] at hm
      by_cases hx : r.mem x = true
      · have hq : Space.memB rs q ≠ true := by
          intro hcon
          exact hno (by simp [Space.memB, hx, hcon])
        obtain ⟨rest, hrest, hrm⟩ :=
          SpaceDivision.trimPieces_cover (by simpa using h) hm.2 hq
        refine ⟨(t.inter r) :: rest, ?_, ?_⟩
        · simp only [SpaceDivision.trimPieces, List.mem_append, List.mem_map]
          exact .inr ⟨rest, hrest, rfl⟩
        · simp only [Space.memB, Bool.and_eq_true]
          exact ⟨Range.mem_inter.2 ⟨hm.1, hx⟩, hrm⟩
      · obtain ⟨d, hd, hdm⟩ := RangeSubtract.complete hm.1 (by
          cases hcase : r.mem x
          · rfl
          · exact absurd hcase hx)
        refine ⟨d :: ts, ?_, ?_⟩
        · simp only [SpaceDivision.trimPieces, List.mem_append, List.mem_map]
          exact .inl ⟨d, hd, rfl⟩
        · simp only [Space.memB, Bool.and_eq_true]
          exact ⟨hdm, hm.2⟩

theorem SpaceDivision.trimPieces_nonempty : ∀ {trim remove piece : Space},
    Space.IsEmpty trim = false → Space.IsEmpty remove = false →
    Space.Overlaps trim remove = true →
    piece ∈ SpaceDivision.trimPieces trim remove → Space.IsEmpty piece = false
  | [], _, piece, _, _, _, h => by simp [SpaceDivision.trimPieces] at h
  | _ :: _, [], piece, _, _, _, h => by simp [SpaceDivision.trimPieces] at h
  | t :: ts, r :: rs, piece, htr, hrem, ho, h => by
    rw [Space.isEmpty_cons] at htr hrem
    simp only [Space.Overlaps, Bool.and_eq_true] at ho
    simp only [SpaceDivision.trimPieces, List.mem_append, List.mem_map] at h
    rcases h with ⟨d, hd, rfl⟩ | ⟨rest, hrest, rfl⟩
    · rw [Space.isEmpty_cons]
      exact ⟨RangeSubtract.nonempty htr.1 hd, htr.2⟩
    · rw [Space.isEmpty_cons]
      exact ⟨Range.inter_nonempty htr.1 hrem.1 ho.1,
        SpaceDivision.trimPieces_nonempty htr.2 hrem.2 ho.2 hrest⟩

theorem SpaceDivision.trimPieces_length : ∀ {trim remove piece : Space},
    piece ∈ SpaceDivision.trimPieces trim remove → piece.length = trim.length
  | [], _, piece, h => by simp [SpaceDivision.trimPieces] at h
  | _ :: _, [], piece, h => by simp [SpaceDivision.trimPieces] at h
  | t :: ts, r :: rs, piece, h => by
    simp only [SpaceDivision.trimPieces, List.mem_append, List.mem_map] at h
    rcases h with ⟨d, hd, rfl⟩ | ⟨rest, hrest, rfl⟩
    · simp
    · simpa using SpaceDivision.trimPieces_length hrest

/-! ## Division invariant lemmas -/

theorem pairwise_flatMap_of {α β : Type} {R : β → β → Prop} {f : α → List β} :
    ∀ {l : List α}, (∀ a ∈ l, (f a).Pairwise R) →
    l.Pairwise (fun a b => ∀ x ∈ f a, ∀ y ∈ f b, R x y) →
    (l.flatMap f).Pairwise R
  | [], _, _ => by simp
  | a :: l, hR, hC => by
    simp only [List.flatMap_cons]
    rw [List.pairwise_append]
    rw [List.pairwise_cons] at hC
    refine ⟨hR a (by simp), pairwise_flatMap_of (fun b hb => hR b (by simp [hb])) hC.2, ?_⟩
    intro x hx y hy
    simp only [List.mem_flatMap] at hy
    obtain ⟨b, hb, hyb⟩ := hy
    exact hC.1 b hb x hx y hyb

/-- Every element produced for an old section by the trimming pass of
`AssignSection` is (point-wise) a subset of that old section. -/
theorem SpaceDivision.trimmed_subset {A : Type} {q0 q : A × Space} {sec2 : Space}
    (hne : Space.IsEmpty sec2 = false)
    (h : q ∈ (if Space.Overlaps q0.2 sec2 = true then
      (SpaceDivision.trimPieces q0.2 sec2).map fun piece => (q0.1, piece) else [q0])) :
    q.1 = q0.1 ∧ ∀ p, Space.memB q.2 p = true → Space.memB q0.2 p = true := by
  split_ifs at h
  · simp only [List.mem_map] at h
    obtain ⟨piece, hp, rfl⟩ := h
    exact ⟨rfl, fun p hm => SpaceDivision.trimPieces_subset hne hp hm⟩
  · simp only [List.mem_singleton] at h
    subst h
    exact ⟨rfl, fun _ h => h⟩

theorem SpaceDivision.inv_assignSection {A : Type} {sd : SpaceDivision A} {sec : Space} {a : A}
    (hinv : sd.Inv) (hlen : sec.length = sd.FullSpace.length) :
    (sd.AssignSection sec a).Inv := by
  unfold SpaceDivision.AssignSection
  simp only
  split_ifs with hne
  · exact hinv
  · rw [Bool.not_eq_true] at hne
    have hseclen : (Space.interA sec sd.FullSpace).length = sd.FullSpace.length := by
      rw [Space.interA_length, hlen]
    constructor
    · intro q hq
      simp only [List.mem_append, List.mem_flatMap, List.mem_singleton] at hq
      rcases hq with ⟨q0, hq0, hq⟩ | rfl
      · obtain ⟨hlbl, hsub⟩ := SpaceDivision.trimmed_subset hne hq
        have hq2len : q.2.length = q0.2.length := by
          revert hq
          split_ifs
          · intro hq
            simp only [List.mem_map] at hq
            obtain ⟨piece, hp, rfl⟩ := hq
            exact SpaceDivision.trimPieces_length hp
          · intro hq
            simp only [List.mem_singleton] at hq
            subst hq
            rfl
        exact ⟨fun p hp => (hinv.1 q0 hq0).1 p (hsub p hp),
          by rw [hq2len, (hinv.1 q0 hq0).2]⟩
      · refine ⟨fun p hp => ?_, by simpa using hseclen⟩
        exact ((Space.memB_interA (by rw [hlen])).1 hp).2
    · rw [List.pairwise_append]
      refine ⟨?_, by simp, ?_⟩
      · apply pairwise_flatMap_of
        · intro q0 hq0
          split_ifs
          · rw [List.pairwise_map]
            exact (SpaceDivision.trimPieces_pairwise hne).imp fun h => h
          · simp
        · apply hinv.2.imp
          intro q0 q1 hdisj x hx y hy
          obtain ⟨_, hxs⟩ := SpaceDivision.trimmed_subset hne hx
          obtain ⟨_, hys⟩ := SpaceDivision.trimmed_subset hne hy
          intro p hp
          exact hdisj p ⟨hxs p hp.1, hys p hp.2⟩
      · intro x hx y hy
        simp only [List.mem_singleton] at hy
        subst hy
        simp only [List.mem_flatMap] at hx
        obtain ⟨q0, hq0, hxin⟩ := hx
        revert hxin
        split_ifs with hov
        · intro hxin
          simp only [List.mem_map] at hxin
          obtain ⟨piece, hp, rfl⟩ := hxin
          intro p hcon
          exact SpaceDivision.trimPieces_avoid hne hp hcon.1 hcon.2
        · intro hxin
          simp only [List.mem_singleton] at hxin
          subst hxin
          exact Space.not_overlaps_disjoint
            (by rw [(hinv.1 x hq0).2, ← hseclen]) (by simpa using hov)

theorem SpaceDivision.assignSection_fullSpace {A : Type} {sd : SpaceDivision A} {sec : Space}
    {a : A} : (sd.AssignSection sec a).FullSpace = sd.FullSpace := by
  unfold SpaceDivision.AssignSection
  simp only
  split_ifs <;> rfl

theorem SpaceDivision.inv_unassign {A : Type} [DecidableEq A] {sd : SpaceDivision A} {a : A}
    (hinv : sd.Inv) : (sd.Unassign a).Inv := by
  refine ⟨fun q hq => hinv.1 q (List.mem_of_mem_filter hq), ?_⟩
  exact hinv.2.sublist (List.filter_sublist _)

theorem SpaceDivision.inv_subDivision {A : Type} {sd : SpaceDivision A} {sub : Space}
    (hinv : sd.Inv) (hlen : sub.length = sd.FullSpace.length) :
    (sd.SubDivision sub).Inv := by
  unfold SpaceDivision.SubDivision
  constructor
  · intro q hq
    simp only [List.mem_filterMap] at hq
    obtain ⟨q0, hq0, hf⟩ := hq
    split_ifs at hf
    obtain rfl := Option.some.inj hf
    have hql : q0.2.length = sub.length := by rw [(hinv.1 q0 hq0).2, hlen]
    constructor
    · intro p hp
      exact ((Space.memB_interA hql).1 hp).2
    · simp only
      rw [Space.interA_length, hql]
  · refine List.Pairwise.filterMap _ ?_ hinv.2
    intro q0 q1 hdisj x hx y hy
    simp only [Option.mem_def] at hx hy
    split_ifs at hx hy
    obtain rfl := Option.some.inj hx
    obtain rfl := Option.some.inj hy
    intro p hp
    exact hdisj p ⟨Space.memB_interA_left hp.1, Space.memB_interA_left hp.2⟩

theorem foldl_unionA_mem {A : Type} {n : Nat} : ∀ {l : List (A × Space)} {init : Space},
    init.length = n → (∀ q ∈ l, q.2.length = n) →
    ∀ {p : List Int}, (Space.memB init p = true ∨ ∃ q ∈ l, Space.memB q.2 p = true) →
    Space.memB (l.foldl (fun acc r => Space.unionA acc r.2) init) p = true
  | [], init, hi, hl, p, h => by
    rcases h with h | ⟨q, hq, _⟩
    · exact h
    · simp at hq
  | q :: l, init, hi, hl, p, h => by
    have hq2 : q.2.length = n := hl q (by simp)
    have hlen2 : (Space.unionA init q.2).length = n := by
      rw [Space.unionA_length (by rw [hi, hq2]), hi]
    simp only [List.foldl_cons]
    apply foldl_unionA_mem hlen2 (fun r hr => hl r (by simp [hr]))
    rcases h with h | ⟨r, hr, hm⟩
    · exact .inl (Space.memB_unionA_left (by rw [hi, hq2]) h)
    · rcases List.mem_cons.1 hr with rfl | hr2
      · exact .inl (Space.memB_unionA_right (by rw [hi, hq2]) hm)
      · exact .inr ⟨r, hr2, hm⟩

theorem SpaceDivision.mem_envelope {A : Type} [DecidableEq A] {sd : SpaceDivision A} {a : A}
    {sp : Space} (hL : ∀ q ∈ sd.Sections, q.2.length = sd.FullSpace.length)
    (hsec : (a, sp) ∈ sd.Sections) {p : List Int} (hp : Space.memB sp p = true) :
    Space.memB (sd.GetEnvelope a) p = true := by
  unfold SpaceDivision.GetEnvelope
  have hmemf : (a, sp) ∈ sd.Sections.filter (fun q => decide (q.1 = a)) :=
    List.mem_filter.2 ⟨hsec, by simp⟩
  rcases hflt : sd.Sections.filter (fun q => decide (q.1 = a)) with _ | ⟨q, rest⟩
  · rw [hflt] at hmemf; simp at hmemf
  · rw [hflt] at hmemf
    rw [hflt]
    have hLf : ∀ r ∈ q :: rest, r.2.length = sd.FullSpace.length := by
      intro r hr
      rw [← hflt] at hr
      exact hL r (List.mem_of_mem_filter hr)
    apply foldl_unionA_mem (n := sd.FullSpace.length) (hLf q (by simp))
      (fun r hr => hLf r (by simp [hr]))
    rcases List.mem_cons.1 hmemf with heq | hmem
    · exact .inl (by rw [← heq]; exact hp)
    · exact .inr ⟨(a, sp), hmem, hp⟩

theorem claim4_inv_step {A : Type} [DecidableEq A] {sd : SpaceDivision A} {op : SDOp A} {n : Nat}
    (hinv : sd.Inv) (hf : sd.FullSpace.length = n) (hwf : op.wf n) :
    (SDOp.apply sd op).Inv ∧ (SDOp.apply sd op).FullSpace.length = n := by
  cases op with
  | assign sec a =>
    simp only [SDOp.apply]
    rw [SDOp.wf] at hwf
    refine ⟨SpaceDivision.inv_assignSection hinv (by rw [hwf, hf]), ?_⟩
    rw [SpaceDivision.assignSection_fullSpace, hf]
  | unassign a =>
    exact ⟨SpaceDivision.inv_unassign hinv, hf⟩
  | subdiv sub =>
    simp only [SDOp.apply]
    rw [SDOp.wf] at hwf
    exact ⟨SpaceDivision.inv_subDivision hinv (by rw [hwf, hf]), hwf⟩

theorem claim4_inv_fold {A : Type} [DecidableEq A] : ∀ {ops : List (SDOp A)}
    {sd : SpaceDivision A} {n : Nat},
    sd.Inv → sd.FullSpace.length = n → (∀ op ∈ ops, op.wf n) →
    (SpaceDivision.applyOps sd ops).Inv ∧ (SpaceDivision.applyOps sd ops).FullSpace.length = n
  | [], sd, n, hinv, hf, _ => ⟨hinv, hf⟩
  | op :: ops, sd, n, hinv, hf, hwf => by
    obtain ⟨h1, h2⟩ := claim4_inv_step hinv hf (hwf op (by simp))
    have hrec := @claim4_inv_fold A _ ops (SDOp.apply sd op) n h1 h2
      fun o ho => hwf o (by simp [ho])
    simpa [SpaceDivision.applyOps] using hrec

/-! ## Claim C4 -/

/-- Claim C4: after any sequence of `AssignSection`/`Unassign`/`SubDivision`
operations on a fresh division, the stored sub-spaces are pairwise disjoint
and contained in the bounding space; and immediately after
`AssignSection(s, a)`, `GetEnvelope(a)` contains `s` intersected with the
bounding space. -/
theorem claim4_spacedivision_invariants {A : Type} [DecidableEq A] (full : Space)
    (ops : List (SDOp A)) (hwf : ∀ op ∈ ops, op.wf full.length) :
    (SpaceDivision.applyOps ⟨full, []⟩ ops).Inv ∧
    (∀ (s : Space) (a : A), s.length = full.length →
      ∀ p, Space.memB (Space.interA s (SpaceDivision.applyOps ⟨full, []⟩ ops).FullSpace) p = true →
        Space.memB (((SpaceDivision.applyOps ⟨full, []⟩ ops).AssignSection s a).GetEnvelope a)
          p = true) := by
  have hinit : (SpaceDivision.mk full ([] : List (A × Space))).Inv := by
    constructor
    · intro q hq; simp at hq
    · simp
  obtain ⟨hinv, hflen⟩ := claim4_inv_fold hinit rfl hwf
  set sd := SpaceDivision.applyOps ⟨full, []⟩ ops with hsd
  refine ⟨hinv, ?_⟩
  intro s a hslen p hp
  have hslen2 : s.length = sd.FullSpace.length := by rw [hslen, hflen]
  have hne : Space.IsEmpty (Space.interA s sd.FullSpace) = false :=
    Space.memB_isEmpty_false hp
  have hmem : (a, Space.interA s sd.FullSpace) ∈ (sd.AssignSection s a).Sections := by
    unfold SpaceDivision.AssignSection
    simp only
    rw [if_neg (by rw [hne]; simp)]
    simp
  have hinv2 := SpaceDivision.inv_assignSection (a := a) hinv hslen2
  exact SpaceDivision.mem_envelope (fun q hq => (hinv2.1 q hq).2) hmem hp

/-- Witness for C4 at a concrete instance. -/
theorem claim4_witness :
    (∀ op ∈ [SDOp.assign [Range.mk 0 2] (1 : Nat), SDOp.unassign 1, SDOp.subdiv [Range.mk 0 3]],
      op.wf ([Range.mk 0 4] : Space).length) ∧
    ((SpaceDivision.applyOps ⟨[Range.mk 0 4], []⟩
        [SDOp.assign [Range.mk 0 2] (1 : Nat), SDOp.unassign 1, SDOp.subdiv [Range.mk 0 3]]).Inv ∧
      (∀ (s : Space) (a : Nat), s.length = ([Range.mk 0 4] : Space).length →
        ∀ p, Space.memB (Space.interA s (SpaceDivision.applyOps
            (⟨[Range.mk 0 4], []⟩ : SpaceDivision Nat)
            [SDOp.assign [Range.mk 0 2] 1, SDOp.unassign 1, SDOp.subdiv [Range.mk 0 3]]).FullSpace)
            p = true →
          Space.memB (((SpaceDivision.applyOps ⟨[Range.mk 0 4], []⟩
              [SDOp.assign [Range.mk 0 2] 1, SDOp.unassign 1,
                SDOp.subdiv [Range.mk 0 3]]).AssignSection s a).GetEnvelope a) p = true)) :=
  ⟨by intro op hop
      fin_cases hop <;> simp [SDOp.wf],
   claim4_spacedivision_invariants [Range.mk 0 4] _
     (by intro op hop
         fin_cases hop <;> simp [SDOp.wf])⟩

/-! ## Claim C7: Space::Remove -/

theorem Range.remove_border_mem {a r : Range}
    (h : r.Begin ≤ a.Begin ∨ r.End ≥ a.End) (x : Int) :
    ((a.Remove r).mem x = true ↔ (a.mem x = true ∧ r.mem x = false)) := by
  unfold Range.Remove
  split_ifs with h1 h2
  · rw [Range.mem_true, Range.mem_true, Range.mem_false]
    dsimp only
    omega
  · rw [Range.mem_true, Range.mem_true, Range.mem_false]
    dsimp only
    omega
  · omega

theorem Range.remove_interior {a r : Range} (h1 : r.Begin > a.Begin) (h2 : r.End < a.End) :
    a.Remove r = a := by
  unfold Range.Remove
  split_ifs with g1 g2
  · omega
  · omega
  · rfl

theorem Space.remove_all_contained : ∀ {a s : Space}, Space.Contains s a = true →
    Space.Remove a s = a
  | [], s, _ => by cases s <;> rfl
  | _ :: _, [], h => by simp [Space.Contains] at h
  | a :: as_, b :: bs, h => by
    simp only [Space.Contains, Bool.and_eq_true] at h
    simp only [Space.Remove, if_pos h.1]
    rw [Space.remove_all_contained h.2]

theorem Space.remove_two_fail : ∀ {a s : Space} {i j : Nat}, s.length = a.length →
    i < j → j < a.length →
    (s.getD i ⟨0, 0⟩).Contains (a.getD i ⟨0, 0⟩) = false →
    (s.getD j ⟨0, 0⟩).Contains (a.getD j ⟨0, 0⟩) = false →
    Space.Remove a s = a
  | [], _, i, j, hlen, hij, hj, _, _ => by simp at hj
  | _ :: _, [], i, j, hlen, _, _, _, _ => by simp at hlen
  | a :: as_, b :: bs, i, j, hlen, hij, hj, hfi, hfj => by
    have hlen2 : bs.length = as_.length := by simpa using hlen
    simp only [Space.Remove]
    split_ifs with h1 h2
    · -- head contained, so i ≥ 1 and j ≥ 1: recurse
      cases i with
      | zero => simp only [List.getD_cons_zero] at hfi; rw [h1] at hfi; simp at hfi
      | succ i2 =>
        cases j with
        | zero => omega
        | succ j2 =>
          rw [Space.remove_two_fail (i := i2) (j := j2) hlen2 (by omega)
            (by simpa using hj) (by simpa using hfi) (by simpa using hfj)]
    · -- head not contained, but some later dimension also fails: contradiction with h2
      exfalso
      cases j with
      | zero => omega
      | succ j2 =>
        have hj2 : j2 < as_.length := by simpa using hj
        rcases Space.contains_at h2 j2 with hc | hge
        · rw [List.getD_cons_succ, List.getD_cons_succ] at hfj
          rw [hfj] at hc
          simp at hc
        · omega
    · rfl

theorem Space.remove_single_getD : ∀ {a s : Space} {i : Nat}, s.length = a.length →
    i < a.length →
    (s.getD i ⟨0, 0⟩).Contains (a.getD i ⟨0, 0⟩) = false →
    (∀ j, j < a.length → j ≠ i → (s.getD j ⟨0, 0⟩).Contains (a.getD j ⟨0, 0⟩) = true) →
    (Space.Remove a s).length = a.length ∧
    (∀ j, j ≠ i → (Space.Remove a s).getD j ⟨0, 0⟩ = a.getD j ⟨0, 0⟩) ∧
    (Space.Remove a s).getD i ⟨0, 0⟩ = (a.getD i ⟨0, 0⟩).Remove (s.getD i ⟨0, 0⟩)
  | [], _, i, hlen, hi, _, _ => by simp at hi
  | _ :: _, [], i, hlen, _, _, _ => by simp at hlen
  | a :: as_, b :: bs, i, hlen, hi, hfail, hcont => by
    have hlen2 : bs.length = as_.length := by simpa using hlen
    cases i with
    | zero =>
      simp only [List.getD_cons_zero] at hfail ⊢
      have hbs : Space.Contains bs as_ = true := by
        apply Space.contains_of_forall hlen2
        intro k hk
        have := hcont (k + 1) (by simpa using hk) (by omega)
        simpa using this
      have hnc : ¬(b.Contains a = true) := by rw [hfail]; simp
      simp only [Space.Remove, if_neg hnc, if_pos hbs]
      refine ⟨by simp, ?_, by simp⟩
      intro j hj
      cases j with
      | zero => omega
      | succ j2 => simp
    | succ i2 =>
      have hhead : b.Contains a = true := by
        have := hcont 0 (by simp) (by omega)
        simpa using this
      simp only [Space.Remove, if_pos hhead]
      obtain ⟨hL, hG, hI⟩ := Space.remove_single_getD (a := as_) (s := bs) (i := i2) hlen2
        (by simpa using hi) (by simpa using hfail)
        (by intro j hj hne
            have := hcont (j + 1) (by simpa using hj) (by omega)
            simpa using this)
      refine ⟨by simpa using hL, ?_, by simpa using hI⟩
      intro j hj
      cases j with
      | zero => simp
      | succ j2 =>
        simp only [List.getD_cons_succ]
        exact hG j2 (by omega)

/-- Claim C7 as stated is false: with `a = [0,10)` and `s = [3,5)`, `s`
fails to contain `a` in the single dimension, but the strictly interior
intersection `[3,5)` is not subtracted — `a` is left unchanged (3 is still
a member). -/
theorem claim7_counterexample :
    ¬ RemoveClaimC7 [Range.mk 0 10] [Range.mk 3 5] := by
  intro h
  have hcond : ∃ i, i < ([Range.mk 0 10] : Space).length ∧
      (([Range.mk 3 5] : Space).getD i ⟨0, 0⟩).Contains
        (([Range.mk 0 10] : Space).getD i ⟨0, 0⟩) = false ∧
      ∀ j, j < ([Range.mk 0 10] : Space).length → j ≠ i →
        (([Range.mk 3 5] : Space).getD j ⟨0, 0⟩).Contains
          (([Range.mk 0 10] : Space).getD j ⟨0, 0⟩) = true := by
    refine ⟨0, by simp, by decide, ?_⟩
    intro j hj hne
    simp at hj
    omega
  have hbeh := (h.1 hcond 0 (by simp) (by decide)
    (by intro j hj hne; simp at hj; omega)).2 3
  revert hbeh
  decide

/-- Claim C7, amended: `Space::Remove` changes `a` only when `s` contains
`a` on all dimensions except exactly one; in that dimension the
intersection is removed only when it touches a border of `a`'s range
(`Range::Remove` semantics); a strictly interior intersection leaves `a`
unchanged, as does every other case. -/
theorem claim7_remove_amended (a s : Space) (hlen : s.length = a.length) :
    ((¬ ∃ i, i < a.length ∧ (s.getD i ⟨0, 0⟩).Contains (a.getD i ⟨0, 0⟩) = false ∧
        ∀ j, j < a.length → j ≠ i → (s.getD j ⟨0, 0⟩).Contains (a.getD j ⟨0, 0⟩) = true) →
      Space.Remove a s = a) ∧
    (∀ i, i < a.length → (s.getD i ⟨0, 0⟩).Contains (a.getD i ⟨0, 0⟩) = false →
      (∀ j, j < a.length → j ≠ i → (s.getD j ⟨0, 0⟩).Contains (a.getD j ⟨0, 0⟩) = true) →
      (Space.Remove a s).length = a.length ∧
      (∀ j, j ≠ i → (Space.Remove a s).getD j ⟨0, 0⟩ = a.getD j ⟨0, 0⟩) ∧
      (((s.getD i ⟨0, 0⟩).Begin ≤ (a.getD i ⟨0, 0⟩).Begin ∨
          (s.getD i ⟨0, 0⟩).End ≥ (a.getD i ⟨0, 0⟩).End) →
        ∀ x : Int, (((Space.Remove a s).getD i ⟨0, 0⟩).mem x = true ↔
          ((a.getD i ⟨0, 0⟩).mem x = true ∧ (s.getD i ⟨0, 0⟩).mem x = false))) ∧
      (((s.getD i ⟨0, 0⟩).Begin > (a.getD i ⟨0, 0⟩).Begin ∧
          (s.getD i ⟨0, 0⟩).End < (a.getD i ⟨0, 0⟩).End) →
        Space.Remove a s = a)) := by
  constructor
  · intro hno
    by_cases hfail : ∃ i, i < a.length ∧
        (s.getD i ⟨0, 0⟩).Contains (a.getD i ⟨0, 0⟩) = false
    · obtain ⟨i, hi, hf⟩ := hfail
      have hother : ∃ j, j < a.length ∧ j ≠ i ∧
          (s.getD j ⟨0, 0⟩).Contains (a.getD j ⟨0, 0⟩) = false := by
        by_contra hcon
        push_neg at hcon
        exact hno ⟨i, hi, hf, fun j hj hne =>
          by rcases hc : (s.getD j ⟨0, 0⟩).Contains (a.getD j ⟨0, 0⟩) with _ | _
             · exact absurd hc (hcon j hj hne)
             · rfl⟩
      obtain ⟨j, hj, hne, hfj⟩ := hother
      rcases Nat.lt_or_ge i j with hij | hij
      · exact Space.remove_two_fail hlen hij hj hf hfj
      · exact Space.remove_two_fail hlen (by omega) hi hfj hf
    · push_neg at hfail
      apply Space.remove_all_contained
      apply Space.contains_of_forall (by rw [hlen])
      intro j hj
      rcases hc : (s.getD j ⟨0, 0⟩).Contains (a.getD j ⟨0, 0⟩) with _ | _
      · exact absurd hc (by simpa using hfail j hj)
      · rfl
  · intro i hi hf hcont
    obtain ⟨hL, hG, hI⟩ := Space.remove_single_getD hlen hi hf hcont
    refine ⟨hL, hG, ?_, ?_⟩
    · intro hborder x
      rw [hI]
      exact Range.remove_border_mem hborder x
    · intro hint
      have : Space.Remove a s = a := by
        apply List.ext_getElem (by rw [hL])
        intro k hk1 hk2
        have hgetd : ∀ (l : Space) (hkl : k < l.length), l[k] = l.getD k ⟨0, 0⟩ := by
          intro l hkl
          rw [List.getD_eq_getElem?_getD, List.getElem?_eq_getElem hkl]
          rfl
        rw [hgetd _ hk1, hgetd _ hk2]
        by_cases hki : k = i
        · subst hki
          rw [hI, Range.remove_interior hint.1 hint.2]
        · exact hG k hki
      exact this

/-- Witness for the amended C7 at a concrete input: `a = [0,10)`,
`s = [5,12)` (border-touching). -/
theorem claim7_witness :
    (([Range.mk 5 12] : Space).length = ([Range.mk 0 10] : Space).length) ∧
    ((¬ ∃ i, i < ([Range.mk 0 10] : Space).length ∧
        (([Range.mk 5 12] : Space).getD i ⟨0, 0⟩).Contains
          (([Range.mk 0 10] : Space).getD i ⟨0, 0⟩) = false ∧
        ∀ j, j < ([Range.mk 0 10] : Space).length → j ≠ i →
          (([Range.mk 5 12] : Space).getD j ⟨0, 0⟩).Contains
            (([Range.mk 0 10] : Space).getD j ⟨0, 0⟩) = true) →
      Space.Remove [Range.mk 0 10] [Range.mk 5 12] = [Range.mk 0 10]) ∧
    (∀ i, i < ([Range.mk 0 10] : Space).length →
      (([Range.mk 5 12] : Space).getD i ⟨0, 0⟩).Contains
        (([Range.mk 0 10] : Space).getD i ⟨0, 0⟩) = false →
      (∀ j, j < ([Range.mk 0 10] : Space).length → j ≠ i →
        (([Range.mk 5 12] : Space).getD j ⟨0, 0⟩).Contains
          (([Range.mk 0 10] : Space).getD j ⟨0, 0⟩) = true) →
      (Space.Remove [Range.mk 0 10] [Range.mk 5 12]).length =
        ([Range.mk 0 10] : Space).length ∧
      (∀ j, j ≠ i → (Space.Remove [Range.mk 0 10] [Range.mk 5 12]).getD j ⟨0, 0⟩ =
        ([Range.mk 0 10] : Space).getD j ⟨0, 0⟩) ∧
      (((([Range.mk 5 12] : Space).getD i ⟨0, 0⟩).Begin ≤
          (([Range.mk 0 10] : Space).getD i ⟨0, 0⟩).Begin ∨
        (([Range.mk 5 12] : Space).getD i ⟨0, 0⟩).End ≥
          (([Range.mk 0 10] : Space).getD i ⟨0, 0⟩).End) →
        ∀ x : Int, (((Space.Remove [Range.mk 0 10] [Range.mk 5 12]).getD i ⟨0, 0⟩).mem x = true ↔
          ((([Range.mk 0 10] : Space).getD i ⟨0, 0⟩).mem x = true ∧
            (([Range.mk 5 12] : Space).getD i ⟨0, 0⟩).mem x = false))) ∧
      (((([Range.mk 5 12] : Space).getD i ⟨0, 0⟩).Begin >
          (([Range.mk 0 10] : Space).getD i ⟨0, 0⟩).Begin ∧
        (([Range.mk 5 12] : Space).getD i ⟨0, 0⟩).End <
          (([Range.mk 0 10] : Space).getD i ⟨0, 0⟩).End) →
        Space.Remove [Range.mk 0 10] [Range.mk 5 12] = [Range.mk 0 10])) :=
  ⟨rfl, claim7_remove_amended [Range.mk 0 10] [Range.mk 5 12] rfl⟩

/-! ## Claim C1: OccupationChart::Occupy (code bug)

On the chart with capacity 2 and entries `{0 ↦ 0, 2 ↦ 1}` (samples: 0 on
[0,2), 1 from 2 on), the call `Occupy(1, 3, 1)` must, by the claim,
raise the samples on [1,3) by 1 (all stay ≤ 2) and leave the rest alone.
The code computes the end of its update range as `upper_bound(from)`
instead of `lower_bound(to)`, inserts `(1, 2)` (the value of the *next*
entry plus 1) and returns true: the sample at 1 becomes 2 instead of 1,
and the sample at 2 stays 1 instead of becoming 2. -/
theorem claim1_occupy_eval :
    OccupationChart.Occupy ⟨2, [(0, 0), (2, 1)]⟩ 1 3 1 =
      some (⟨2, [(0, 0), (1, 2), (2, 1), (3, 0)]⟩, true) ∧
    OccupationChart.sample ⟨2, [(0, 0), (2, 1)]⟩ 1 = some 0 ∧
    OccupationChart.sample ⟨2, [(0, 0), (2, 1)]⟩ 2 = some 1 ∧
    OccupationChart.sample ⟨2, [(0, 0), (1, 2), (2, 1), (3, 0)]⟩ 1 = some 2 ∧
    OccupationChart.sample ⟨2, [(0, 0), (1, 2), (2, 1), (3, 0)]⟩ 2 = some 1 := by
  refine ⟨?_, ?_, ?_, ?_, ?_⟩ <;> rfl

/-! ## Claim C2: OccupationChart::Unoccupy (code bug)

On the chart with capacity 10 and entries `{0 ↦ 0, 2 ↦ 5, 6 ↦ 0}`, the
call `Unoccupy(3, 6, 5)` must, by the claim, succeed (every sample in
[3,6) is 5, and 5 − 5 = 0 ≥ 0).  Because `from` is not a stored key, the
code takes the pre-check branch and compares `fromval -= occ` against
`Capacity_` instead of 0 (the loop below correctly checks `< 0`), so it
returns false without touching anything. -/
theorem claim2_unoccupy_eval :
    OccupationChart.Unoccupy ⟨10, [(0, 0), (2, 5), (6, 0)]⟩ 3 6 5 =
      some (⟨10, [(0, 0), (2, 5), (6, 0)]⟩, false) ∧
    OccupationChart.sample ⟨10, [(0, 0), (2, 5), (6, 0)]⟩ 3 = some 5 ∧
    OccupationChart.sample ⟨10, [(0, 0), (2, 5), (6, 0)]⟩ 4 = some 5 ∧
    OccupationChart.sample ⟨10, [(0, 0), (2, 5), (6, 0)]⟩ 5 = some 5 := by
  refine ⟨?_, ?_, ?_, ?_⟩ <;> rfl

/-! ## Claim C3: ReachabilityMatrix (code bug)

With nodes inserted in the order 0, 1, 2, 3 and edges 0→2, 2→1, 1→3,
node 3 is reachable from node 0 (0→2→1→3), but the single-pass loop
structure unions `ret[2] = {1}` into `ret[0]` only after the inner loop
has already passed position 1, so `ret[0]` ends as `{1, 2}`, missing 3 —
contradicting the function's own documentation ("the set of nodes that
can be reached from it by following the edges"). -/
theorem claim3_reachability_eval :
    DiGraph.Reaches ⟨4, [(0, 2), (2, 1), (1, 3)]⟩ 0 3 ∧
    ¬(3 ∈ ReachabilityMatrix ⟨4, [(0, 2), (2, 1), (1, 3)]⟩ 0) ∧
    2 ∈ ReachabilityMatrix ⟨4, [(0, 2), (2, 1), (1, 3)]⟩ 0 ∧
    1 ∈ ReachabilityMatrix ⟨4, [(0, 2), (2, 1), (1, 3)]⟩ 0 := by
  refine ⟨?_, by decide, by decide, by decide⟩
  apply Relation.TransGen.tail (b := 1)
  · apply Relation.TransGen.tail (b := 2)
    · exact Relation.TransGen.single (by decide)
    · decide
  · decide

/-! ## Claim C8: pass orchestration -/

theorem contains_iff_mem {α : Type} [BEq α] [LawfulBEq α] {l : List α} {s : α} :
    l.contains s = true ↔ s ∈ l := List.elem_iff

theorem setInsert_contains {l : List String} {s : String} :
    (setInsert l s).contains s = true := by
  unfold setInsert
  split_ifs with hc
  · exact hc
  · exact contains_iff_mem.2 (by simp)

/-- Claim C8: a pass with unmet requirements raises a user-visible error
without ever calling the pass function; with met requirements, the pass
function observes the performed-set with every destroyed name erased, and
the pass's own name is added exactly when the function reports success. -/
theorem claim8_pass_run {α : Type} (p : Pass) (fn : PassProgram α → PassProgram α × Bool)
    (prog : PassProgram α) :
    ((¬ ∀ req ∈ p.Requires, prog.PassesPerformed.contains req = true) →
      (∃ req ∈ p.Requires, prog.PassesPerformed.contains req = false ∧
        Pass.Run p fn prog = .error (p.Name, req)) ∧
      (∀ fn2 : PassProgram α → PassProgram α × Bool, Pass.Run p fn2 prog = Pass.Run p fn prog)) ∧
    ((∀ req ∈ p.Requires, prog.PassesPerformed.contains req = true) →
      ∃ prog2 res prog3,
        fn { prog with PassesPerformed :=
              prog.PassesPerformed.filter fun s => !p.Destroys.contains s } = (prog2, res) ∧
        (∀ d ∈ p.Destroys,
          (prog.PassesPerformed.filter fun s => !p.Destroys.contains s).contains d = false) ∧
        Pass.Run p fn prog = .ok (prog3, res) ∧
        (res = true → prog3.PassesPerformed = setInsert prog2.PassesPerformed p.Name ∧
          prog3.PassesPerformed.contains p.Name = true) ∧
        (res = false → prog3.PassesPerformed = prog2.PassesPerformed) ∧
        prog3.payload = prog2.payload) := by
  constructor
  · intro hmiss
    rcases hf : p.Requires.find? (fun req => !prog.PassesPerformed.contains req) with _ | req0
    · exfalso
      apply hmiss
      intro req hreq
      have := List.find?_eq_none.1 hf req hreq
      simpa using this
    · have hmem := List.mem_of_find?_eq_some hf
      have hprop := List.find?_some hf
      simp only [Bool.not_eq_eq_eq_not, Bool.not_true] at hprop
      constructor
      · refine ⟨req0, hmem, by simpa using hprop, ?_⟩
        unfold Pass.Run Pass.CheckDependencies
        rw [hf]
      · intro fn2
        unfold Pass.Run Pass.CheckDependencies
        rw [hf]
  · intro hall
    have hf : p.Requires.find? (fun req => !prog.PassesPerformed.contains req) = none := by
      apply List.find?_eq_none.2
      intro req hreq
      rw [hall req hreq]
      simp
    rcases hfn : fn { prog with PassesPerformed :=
        prog.PassesPerformed.filter fun s => !p.Destroys.contains s } with ⟨prog2, res⟩
    refine ⟨prog2, res,
      { prog2 with PassesPerformed :=
          if res then setInsert prog2.PassesPerformed p.Name else prog2.PassesPerformed },
      ?_, ?_, ?_, ?_, ?_, rfl⟩
    · first
      | exact hfn
      | rfl
    · intro d hd
      rcases hc : (prog.PassesPerformed.filter fun s => !p.Destroys.contains s).contains d
      · rfl
      · exfalso
        have hdm : d ∈ prog.PassesPerformed.filter fun s => !p.Destroys.contains s :=
          contains_iff_mem.1 hc
        have := List.of_mem_filter hdm
        simp only [Bool.not_eq_eq_eq_not, Bool.not_true] at this
        have hnd : ¬(d ∈ p.Destroys) := fun hmem => by
          rw [contains_iff_mem.2 hmem] at this
          simp at this
        exact hnd hd
    · unfold Pass.Run Pass.CheckDependencies
      rw [hf]
      simp only [hfn]
    · intro hres
      subst hres
      refine ⟨by simp, ?_⟩
      show (if true = true then setInsert prog2.PassesPerformed p.Name
            else prog2.PassesPerformed).contains p.Name = true
      rw [if_pos rfl]
      exact setInsert_contains
    · intro hres
      subst hres
      simp

/-! ## Claim C9: bank assignment -/

theorem assignBanksBody_oversize (g : BufferGraph) (nbanks c : Nat)
    (h1 : (g.nodes.filter fun nd => decide (nd.Size > InitialBankCapacity)) ≠ []) :
    assignBanksBody g nbanks c =
      ⟨List.replicate g.nodes.length (-1), [],
       (g.nodes.filter fun nd => decide (nd.Size > InitialBankCapacity)).map
         fun nd => BankEvent.errorBufferTooBig nd.Size, false, true⟩ := by
  unfold assignBanksBody
  rw [if_pos h1]

theorem assignBanksBody_insufficient (g : BufferGraph) (nbanks c : Nat)
    (h1 : (g.nodes.filter fun nd => decide (nd.Size > InitialBankCapacity)) = [])
    (h2 : g.nodes.foldl (fun acc nd => acc + nd.Size) 0 > nbanks * InitialBankCapacity) :
    assignBanksBody g nbanks c =
      ⟨List.replicate g.nodes.length (-1), [],
       [BankEvent.errorInsufficientMemory (g.nodes.foldl (fun acc nd => acc + nd.Size) 0)],
       false, true⟩ := by
  unfold assignBanksBody
  rw [if_neg (by simp [h1]), if_pos h2]

theorem assignBanksBody_not_early (g : BufferGraph) (nbanks c : Nat)
    (h1 : (g.nodes.filter fun nd => decide (nd.Size > InitialBankCapacity)) = [])
    (h2 : g.nodes.foldl (fun acc nd => acc + nd.Size) 0 ≤ nbanks * InitialBankCapacity) :
    (assignBanksBody g nbanks c).early = false := by
  unfold assignBanksBody
  rw [if_neg (by simp [h1]), if_neg (not_lt.mpr h2)]

theorem assignBanks_early (g : BufferGraph) (nbanks c : Nat)
    (h : (assignBanksBody g nbanks c).early = true) :
    AssignBanks g nbanks c =
      (false, (assignBanksBody g nbanks c).memBank, (assignBanksBody g nbanks c).events) := by
  unfold AssignBanks
  rw [if_pos h]

theorem assignBanks_characterize (g : BufferGraph) (nbanks : Nat)
    (h1 : (g.nodes.filter fun nd => decide (nd.Size > InitialBankCapacity)) = [])
    (h2 : g.nodes.foldl (fun acc nd => acc + nd.Size) 0 ≤ nbanks * InitialBankCapacity) :
    ∀ k c0, 10 - c0 ≤ k → c0 ≤ 10 →
    ∃ c, c0 ≤ c ∧ c ≤ 10 ∧ ∃ evs : List BankEvent,
      (∀ c2, c0 ≤ c2 → c2 < c → (assignBanksBody g nbanks c2).ok = false) ∧
      (((assignBanksBody g nbanks c).ok = true ∧
          AssignBanks g nbanks c0 = (true, (assignBanksBody g nbanks c).memBank,
            evs ++ [BankEvent.bankUsage (usageOf (assignBanksBody g nbanks c).banks)])) ∨
        (c = 10 ∧ (assignBanksBody g nbanks c).ok = false ∧
          AssignBanks g nbanks c0 = (false, (assignBanksBody g nbanks c).memBank,
            evs ++ [BankEvent.errorNotAllMapped,
              reportOf g nbanks (assignBanksBody g nbanks c).memBank,
              BankEvent.bankUsage (usageOf (assignBanksBody g nbanks c).banks)]))) := by
  intro k
  induction k with
  | zero =>
    intro c0 hk hc0
    have hc10 : c0 = 10 := by omega
    subst hc10
    have he := assignBanksBody_not_early g nbanks 10 h1 h2
    refine ⟨10, le_rfl, le_rfl, (assignBanksBody g nbanks 10).events, by omega, ?_⟩
    rcases hok : (assignBanksBody g nbanks 10).ok with _ | _
    · right
      refine ⟨rfl, rfl, ?_⟩
      unfold AssignBanks
      rw [if_neg (by rw [he]; exact Bool.false_ne_true), if_neg (by rw [hok]; exact Bool.false_ne_true),
        dif_neg (by omega)]
    · left
      refine ⟨rfl, ?_⟩
      unfold AssignBanks
      rw [if_neg (by rw [he]; exact Bool.false_ne_true), if_pos hok]
  | succ k ih =>
    intro c0 hk hc0
    have he := assignBanksBody_not_early g nbanks c0 h1 h2
    rcases hok : (assignBanksBody g nbanks c0).ok with _ | _
    · by_cases hc10 : c0 = 10
      · subst hc10
        refine ⟨10, le_rfl, le_rfl, (assignBanksBody g nbanks 10).events, by omega, ?_⟩
        right
        refine ⟨rfl, hok, ?_⟩
        unfold AssignBanks
        rw [if_neg (by rw [he]; exact Bool.false_ne_true),
          if_neg (by rw [hok]; exact Bool.false_ne_true), dif_neg (by omega)]
      · obtain ⟨c, hcc1, hcc2, evs, hall, hcase⟩ := ih (c0 + 1) (by omega) (by omega)
        refine ⟨c, by omega, hcc2, (assignBanksBody g nbanks c0).events ++ evs, ?_, ?_⟩
        · intro c2 hl hu
          rcases Nat.eq_or_lt_of_le hl with hq | hq
          · rw [← hq]; exact hok
          · exact hall c2 hq hu
        · rcases hcase with ⟨ho, heq⟩ | ⟨hceq, ho, heq⟩
          · left
            refine ⟨ho, ?_⟩
            unfold AssignBanks
            rw [if_neg (by rw [he]; exact Bool.false_ne_true),
              if_neg (by rw [hok]; exact Bool.false_ne_true), dif_pos (by omega), heq]
            simp [List.append_assoc]
          · right
            refine ⟨hceq, ho, ?_⟩
            unfold AssignBanks
            rw [if_neg (by rw [he]; exact Bool.false_ne_true),
              if_neg (by rw [hok]; exact Bool.false_ne_true), dif_pos (by omega), heq]
            simp [List.append_assoc]
    · refine ⟨c0, le_rfl, hc0, (assignBanksBody g nbanks c0).events, by omega, ?_⟩
      left
      refine ⟨hok, ?_⟩
      unfold AssignBanks
      rw [if_neg (by rw [he]; exact Bool.false_ne_true), if_pos hok]

/-- Claim C9: `AssignBanks` fails immediately — all buffers left without a
bank and an error emitted — when some buffer exceeds the bank capacity or
the total size exceeds the aggregate capacity; otherwise attempts with
corrections 0, 1, … are made until one colors every buffer (result true
with the final bank usage) or the attempt with correction 10 still leaves
a buffer unassigned, in which case it returns false and reports the
per-bank assignment with the unassigned buffers and the bank occupancy. -/
theorem claim9_assignbanks (g : BufferGraph) (nbanks : Nat) :
    ((∃ nd ∈ g.nodes, nd.Size > InitialBankCapacity) →
      AssignBanks g nbanks 0 = (false, List.replicate g.nodes.length (-1),
        (g.nodes.filter fun nd => decide (nd.Size > InitialBankCapacity)).map
          fun nd => BankEvent.errorBufferTooBig nd.Size) ∧
      ∃ s, BankEvent.errorBufferTooBig s ∈ (AssignBanks g nbanks 0).2.2) ∧
    ((∀ nd ∈ g.nodes, nd.Size ≤ InitialBankCapacity) →
      g.nodes.foldl (fun acc nd => acc + nd.Size) 0 > nbanks * InitialBankCapacity →
      AssignBanks g nbanks 0 = (false, List.replicate g.nodes.length (-1),
        [BankEvent.errorInsufficientMemory (g.nodes.foldl (fun acc nd => acc + nd.Size) 0)])) ∧
    ((∀ nd ∈ g.nodes, nd.Size ≤ InitialBankCapacity) →
      g.nodes.foldl (fun acc nd => acc + nd.Size) 0 ≤ nbanks * InitialBankCapacity →
      ∃ c, c ≤ 10 ∧ ∃ evs : List BankEvent,
        (∀ c2, c2 < c → (assignBanksBody g nbanks c2).ok = false) ∧
        (((assignBanksBody g nbanks c).ok = true ∧
            AssignBanks g nbanks 0 = (true, (assignBanksBody g nbanks c).memBank,
              evs ++ [BankEvent.bankUsage (usageOf (assignBanksBody g nbanks c).banks)])) ∨
          (c = 10 ∧ (assignBanksBody g nbanks c).ok = false ∧
            AssignBanks g nbanks 0 = (false, (assignBanksBody g nbanks c).memBank,
              evs ++ [BankEvent.errorNotAllMapped,
                reportOf g nbanks (assignBanksBody g nbanks c).memBank,
                BankEvent.bankUsage (usageOf (assignBanksBody g nbanks c).banks)])))) := by
  refine ⟨?_, ?_, ?_⟩
  · intro hover
    have hne : (g.nodes.filter fun nd => decide (nd.Size > InitialBankCapacity)) ≠ [] := by
      intro hnil
      obtain ⟨nd, hmem, hsz⟩ := hover
      have := List.filter_eq_nil_iff.mp hnil nd hmem
      simp at this
      omega
    have hb := assignBanksBody_oversize g nbanks 0 hne
    have heq := assignBanks_early g nbanks 0 (by rw [hb])
    rw [hb] at heq
    refine ⟨heq, ?_⟩
    rw [heq]
    obtain ⟨nd, hmem, hsz⟩ := hover
    exact ⟨nd.Size, List.mem_map_of_mem _ (List.mem_filter.mpr ⟨hmem, by simpa using hsz⟩)⟩
  · intro hall htot
    have h1 : (g.nodes.filter fun nd => decide (nd.Size > InitialBankCapacity)) = [] :=
      List.filter_eq_nil_iff.mpr fun nd hmem => by simpa using not_lt.mpr (hall nd hmem)
    have hb := assignBanksBody_insufficient g nbanks 0 h1 htot
    have heq := assignBanks_early g nbanks 0 (by rw [hb])
    rw [hb] at heq
    exact heq
  · intro hall htot
    have h1 : (g.nodes.filter fun nd => decide (nd.Size > InitialBankCapacity)) = [] :=
      List.filter_eq_nil_iff.mpr fun nd hmem => by simpa using not_lt.mpr (hall nd hmem)
    obtain ⟨c, _, hc2, evs, hfails, hcase⟩ :=
      assignBanks_characterize g nbanks h1 htot 10 0 (by omega) (by omega)
    exact ⟨c, hc2, evs, fun c2 hu => hfails c2 (Nat.zero_le c2) hu, hcase⟩

/-! ## Claim C10: BaseType::FromString -/

theorem lookup_mem {α β : Type} [BEq α] [LawfulBEq α] {l : List (α × β)} {k : α} {b : β}
    (h : l.lookup k = some b) : (k, b) ∈ l := by
  obtain ⟨l1, l2, rfl, -⟩ := List.lookup_eq_some_iff.mp h
  simp

theorem typeMap_initial_WF : TypeMap.WF TypeMap.initial := by
  intro q hq
  fin_cases hq <;> exact ⟨by decide, by decide⟩

theorem fromString_spec {tm : TypeMap} (h : tm.WF) (name : String) (hf sf : Bool) :
    ∃ tm2 idx so d, BaseType.FromString tm name hf sf = (tm2, idx, so, d) ∧
      tm2.WF ∧ idx < tm2.objects.length ∧ (tm2.objects.getD idx ⟨"", 0⟩).Name = name ∧
      List.lookup name tm2.table = some idx ∧
      (∀ n i, List.lookup n tm.table = some i → List.lookup n tm2.table = some i ∧
        tm2.objects.getD i ⟨"", 0⟩ = tm.objects.getD i ⟨"", 0⟩) ∧
      (List.lookup name tm.table = none →
        (tm2.objects.getD idx ⟨"", 0⟩).Size = 1 ∧
        (hf = true → so = false ∧ d = [TypeDiag.errorUnknown name]) ∧
        (hf = false → so = sf ∧ d = [TypeDiag.warningUnknown name])) ∧
      (∀ i, List.lookup name tm.table = some i → d = [] ∧ idx = i ∧ so = sf) := by
  unfold BaseType.FromString
  rcases hlk : List.lookup name tm.table with _ | idx0
  · refine ⟨_, _, _, _, rfl, ?_, ?_, ?_, ?_, ?_, ?_, ?_⟩
    · -- WF after the append
      intro q hq
      simp only [List.mem_append, List.mem_singleton] at hq
      rcases hq with hq | rfl
      · obtain ⟨h1, h2⟩ := h q hq
        refine ⟨by simp; omega, ?_⟩
        rw [List.getD_append _ _ _ _ h1]
        exact h2
      · refine ⟨by simp, ?_⟩
        simp only
        rw [List.getD_eq_getElem?_getD, List.getElem?_append_right (by omega)]
        simp
    · simp
    · rw [List.getD_eq_getElem?_getD, List.getElem?_append_right (by omega)]
      simp
    · rw [List.lookup_append, hlk]
      simp
    · intro n i hni
      refine ⟨by rw [List.lookup_append]; rw [hni]; rfl, ?_⟩
      obtain ⟨h1, _⟩ := h (n, i) (lookup_mem hni)
      rw [List.getD_append _ _ _ _ h1]
    · intro _
      refine ⟨?_, ?_, ?_⟩
      · rw [List.getD_eq_getElem?_getD, List.getElem?_append_right (by omega)]
        simp
      · intro hhf
        subst hhf
        simp
      · intro hhf
        subst hhf
        simp
    · intro i hcon
      exact absurd hcon (by simp)
  · obtain ⟨hi1, hi2⟩ := h (name, idx0) (lookup_mem hlk)
    refine ⟨_, _, _, _, rfl, h, hi1, hi2, hlk, ?_, ?_, ?_⟩
    · exact fun n i hni => ⟨hni, rfl⟩
    · intro hcon
      exact absurd hcon (by simp)
    · intro i hi
      exact ⟨rfl, Option.some.inj hi, rfl⟩

theorem runCalls_preserves : ∀ {calls : List (String × Bool × Bool)} {tm : TypeMap},
    tm.WF →
    (tm.runCalls calls).WF ∧ ∀ n i, List.lookup n tm.table = some i →
      List.lookup n (tm.runCalls calls).table = some i ∧
      (tm.runCalls calls).objects.getD i ⟨"", 0⟩ = tm.objects.getD i ⟨"", 0⟩
  | [], tm, h => ⟨h, fun _ _ hni => ⟨hni, rfl⟩⟩
  | c :: calls, tm, h => by
    obtain ⟨tm2, idx, so, d, heq, hwf2, _, _, _, hpres, _, _⟩ := fromString_spec h c.1 c.2.1 c.2.2
    have hstep : tm.runCalls (c :: calls) = tm2.runCalls calls := by
      unfold TypeMap.runCalls
      simp only [List.foldl_cons, heq]
    obtain ⟨hwf3, hpres3⟩ := @runCalls_preserves calls tm2 hwf2
    rw [hstep]
    refine ⟨hwf3, ?_⟩
    intro n i hni
    obtain ⟨ha, hb⟩ := hpres n i hni
    obtain ⟨hc, hd⟩ := hpres3 n i ha
    exact ⟨hc, by rw [hd, hb]⟩

/-- Claim C10: `FromString` never returns null and interns its results —
after any earlier calls, a call for `name` yields a valid object carrying
that name; any later call for the same name (with arbitrary calls in
between) returns the same object with no further diagnostic; an unknown
name is registered with size 1 and diagnosed as an error exactly when a
success flag was passed (which is set to false), as a warning otherwise. -/
theorem claim10_fromstring (pre mid : List (String × Bool × Bool)) (name : String)
    (hf1 sf1 hf2 sf2 : Bool) :
    ∃ s1 i1 so1 d1 s3 i2 so2 d2,
      BaseType.FromString (TypeMap.runCalls TypeMap.initial pre) name hf1 sf1 =
        (s1, i1, so1, d1) ∧
      BaseType.FromString (TypeMap.runCalls s1 mid) name hf2 sf2 = (s3, i2, so2, d2) ∧
      i1 < s1.objects.length ∧
      (s1.objects.getD i1 ⟨"", 0⟩).Name = name ∧
      i2 = i1 ∧ d2 = [] ∧ so2 = sf2 ∧
      (List.lookup name (TypeMap.runCalls TypeMap.initial pre).table = none →
        (s1.objects.getD i1 ⟨"", 0⟩).Size = 1 ∧
        (hf1 = true → so1 = false ∧ d1 = [TypeDiag.errorUnknown name]) ∧
        (hf1 = false → so1 = sf1 ∧ d1 = [TypeDiag.warningUnknown name])) := by
  obtain ⟨hwf0, _⟩ := @runCalls_preserves pre TypeMap.initial typeMap_initial_WF
  obtain ⟨s1, i1, so1, d1, heq1, hwf1, hlt1, hname1, hlook1, _, hfresh1, _⟩ :=
    fromString_spec hwf0 name hf1 sf1
  obtain ⟨hwfm, hpresm⟩ := @runCalls_preserves mid s1 hwf1
  obtain ⟨hlookm, _⟩ := hpresm name i1 hlook1
  obtain ⟨s3, i2, so2, d2, heq2, _, _, _, _, _, _, hfound2⟩ :=
    fromString_spec hwfm name hf2 sf2
  obtain ⟨hd2, hi2, hso2⟩ := hfound2 i1 hlookm
  exact ⟨s1, i1, so1, d1, s3, i2, so2, d2, heq1, heq2, hlt1, hname1, hi2, hd2, hso2,
    fun hnone => hfresh1 hnone⟩

/-! ## Claim C5: dependency compatibility -/

theorem map_getD_range {α β : Type} (d : α) (f : α → β) :
    ∀ (l : List α), (List.range l.length).map (fun j => f (l.getD j d)) = l.map f
  | [] => rfl
  | a :: l => by
    rw [List.length_cons, List.range_succ_eq_map, List.map_cons, List.map_map]
    refine congrArg (f a :: ·) ?_
    have hfun : ((fun j => f ((a :: l).getD j d)) ∘ Nat.succ) = fun j => f (l.getD j d) := by
      funext j
      simp
    rw [hfun]
    exact map_getD_range d f l

theorem mem_range1 {lo n j : Nat} (h : j ∈ List.range' lo n) : lo ≤ j ∧ j < lo + n := by
  rw [List.mem_range'] at h
  obtain ⟨i, hi, rfl⟩ := h
  omega

theorem filter_selection {g : Nat → Int} {p : Int → Bool} :
    ∀ (ps : List Nat) (lo n : Nat),
    List.Pairwise (fun a b => a < b) ps → (∀ d ∈ ps, lo ≤ d ∧ d < n) →
    (∀ j, lo ≤ j → j < n → j ∉ ps → p (g j) = false) →
    ((List.range' lo (n - lo)).map g).filter p = (ps.map g).filter p
  | [], lo, n, _, _, hoff => by
    rw [List.map_nil, List.filter_nil]
    rw [List.filter_eq_nil_iff]
    intro x hx
    simp only [List.mem_map] at hx
    obtain ⟨j, hj, rfl⟩ := hx
    obtain ⟨h1, h2⟩ := mem_range1 hj
    simp [hoff j h1 (by omega) (by simp)]
  | d :: rest, lo, n, hasc, hbnd, hoff => by
    obtain ⟨hd1, hd2⟩ := hbnd d (by simp)
    rw [List.pairwise_cons] at hasc
    have hsplit : List.range' lo (n - lo) = List.range' lo (d - lo) ++ List.range' d (n - d) := by
      have := List.range'_append_1 lo (d - lo) (n - d)
      rw [show lo + (d - lo) = d by omega] at this
      rw [show n - d + (d - lo) = n - lo by omega] at this
      exact this.symm
    rw [hsplit, List.map_append, List.filter_append]
    have hnil : ((List.range' lo (d - lo)).map g).filter p = [] := by
      rw [List.filter_eq_nil_iff]
      intro x hx
      simp only [List.mem_map] at hx
      obtain ⟨j, hj, rfl⟩ := hx
      obtain ⟨h1, h2⟩ := mem_range1 hj
      have hnot : j ∉ d :: rest := by
        simp only [List.mem_cons]
        push_neg
        exact ⟨by omega, fun hc => by have := hasc.1 j hc; omega⟩
      simp [hoff j h1 (by omega) hnot]
    rw [hnil, List.nil_append]
    have htail : List.range' d (n - d) = d :: List.range' (d + 1) (n - (d + 1)) := by
      rw [show n - d = (n - (d + 1)) + 1 by omega, List.range'_succ]
    rw [htail, List.map_cons, List.map_cons, List.filter_cons, List.filter_cons]
    have hrec := filter_selection rest (d + 1) n hasc.2
      (fun e he => ⟨by have := hasc.1 e he; omega, (hbnd e (by simp [he])).2⟩)
      (fun j hj1 hj2 hj3 => hoff j (by omega) hj2 (by
        simp only [List.mem_cons]
        push_neg
        exact ⟨by omega, hj3⟩))
    rw [hrec]

theorem prod_filter_of_one {p : Int → Bool} :
    ∀ {l : List Int}, (∀ x ∈ l, p x = false → x = 1) → (l.filter p).prod = l.prod
  | [], _ => rfl
  | a :: l, h => by
    rw [List.filter_cons]
    have ht := prod_filter_of_one (l := l) fun x hx => h x (by simp [hx])
    rcases hpa : p a with _ | _
    · rw [if_neg (by simp), ht, List.prod_cons, h a (by simp) hpa, one_mul]
    · rw [if_pos (by trivial), List.prod_cons, List.prod_cons, ht]

theorem Range.size_displace {r : Range} {off : Int} : (r.displace off).size = r.size := by
  unfold Range.displace Range.size
  simp only
  omega

theorem Space.volume_eq_prod (s : Space) : s.GetVolume = (s.map Range.size).prod := by
  unfold Space.GetVolume
  rw [List.prod_eq_foldl, List.foldl_map]

theorem Space.isEmpty_false_sizes {s : Space} (h : Space.IsEmpty s = false) :
    ∀ r ∈ s, 1 ≤ r.size := by
  intro r hr
  unfold Space.IsEmpty at h
  rw [List.any_eq_false] at h
  have := h r hr
  rw [Bool.not_eq_true] at this
  have := Range.isEmpty_false.mp this
  unfold Range.size
  omega

theorem Space.volume_eq_eff_prod {s : Space} (h : ∀ r ∈ s, 1 ≤ r.size) :
    s.GetVolume = s.GetEffectiveDimensions.prod := by
  unfold Space.GetEffectiveDimensions
  rw [Space.volume_eq_prod]
  refine (prod_filter_of_one ?_).symm
  intro x hx hpx
  simp only [List.mem_map] at hx
  obtain ⟨r, hr, rfl⟩ := hx
  have := h r hr
  simp only [decide_eq_false_iff_not, not_lt] at hpx
  omega

theorem Space.memB_getD : ∀ {s : Space} {p : List Int}, Space.memB s p = true →
    ∀ j, j < s.length → (s.getD j ⟨0, 0⟩).mem (p.getD j 0) = true
  | [], _, _, j, hj => by simp at hj
  | _ :: _, [], hm, _, _ => by simp [Space.memB] at hm
  | r :: s, x :: q, hm, j, hj => by
    simp only [Space.memB, Bool.and_eq_true] at hm
    cases j with
    | zero => simpa using hm.1
    | succ j =>
      have := Space.memB_getD hm.2 j (by simpa using hj)
      simpa using this

theorem Space.memB_set : ∀ {s : Space} {p : List Int} {j : Nat} {x : Int},
    Space.memB s p = true → (s.getD j ⟨0, 0⟩).mem x = true →
    Space.memB s (p.set j x) = true
  | [], [], _, _, hm, _ => hm
  | [], _ :: _, _, _, hm, _ => by simp [Space.memB] at hm
  | _ :: _, [], _, _, hm, _ => by simp [Space.memB] at hm
  | r :: s, y :: q, j, x, hm, hx => by
    simp only [Space.memB, Bool.and_eq_true] at hm
    cases j with
    | zero =>
      simp only [List.getD_cons_zero] at hx
      simp only [List.set_cons_zero, Space.memB, Bool.and_eq_true]
      exact ⟨hx, hm.2⟩
    | succ j =>
      simp only [List.getD_cons_succ] at hx
      simp only [List.set_cons_succ, Space.memB, Bool.and_eq_true]
      exact ⟨hm.1, Space.memB_set hm.2 hx⟩

theorem Range.contains_of_mem_imp {a b : Range} (hne : b.IsEmpty = false)
    (h : ∀ x, b.mem x = true → a.mem x = true) : a.Contains b = true := by
  have hb := Range.isEmpty_false.mp hne
  have h1 := h b.Begin (by rw [Range.mem_true]; omega)
  have h2 := h (b.End - 1) (by rw [Range.mem_true]; omega)
  rw [Range.mem_true] at h1 h2
  unfold Range.Contains
  simp only [Bool.and_eq_true, decide_eq_true_eq]
  omega

theorem Space.isEmpty_false_getD {s : Space} (h : Space.IsEmpty s = false) {j : Nat}
    (hj : j < s.length) : (s.getD j ⟨0, 0⟩).IsEmpty = false := by
  unfold Space.IsEmpty at h
  rw [List.any_eq_false] at h
  have hmem : s.getD j ⟨0, 0⟩ ∈ s := by
    rw [List.getD_eq_getElem?_getD, List.getElem?_eq_getElem hj]
    exact List.getElem_mem hj
  have := h _ hmem
  rwa [Bool.not_eq_true] at this

theorem Space.subsetPt_contains_at {sec ind : Space} (hlen : sec.length = ind.length)
    (hne : Space.IsEmpty sec = false) (hsub : Space.SubsetPt sec ind) :
    ∀ j, j < sec.length → (ind.getD j ⟨0, 0⟩).Contains (sec.getD j ⟨0, 0⟩) = true := by
  intro j hj
  obtain ⟨p, hp⟩ := Space.isEmpty_false_exists_memB hne
  have hplen : p.length = sec.length := Space.memB_length hp
  refine Range.contains_of_mem_imp (Space.isEmpty_false_getD hne hj) fun x hx => ?_
  have hset : Space.memB sec (p.set j x) = true := Space.memB_set hp hx
  have hind := hsub _ hset
  have hmm := Space.memB_getD hind j (by omega)
  have hx2 : (p.set j x).getD j 0 = x := by
    rw [List.getD_eq_getElem?_getD, List.getElem?_set_self (by omega), Option.getD_some]
  rwa [hx2] at hmm

theorem skipOnes_spec (indices : Space) : ∀ (supp : Nat) (cursize : Int),
    (skipOnes indices cursize supp).2 ≤ supp ∧
    (skipOnes indices cursize supp = (cursize, supp) ∨
     (cursize = 1 ∧ (skipOnes indices cursize supp).2 < supp ∧
      (skipOnes indices cursize supp).1 =
        (indices.getD (skipOnes indices cursize supp).2 ⟨0, 0⟩).size ∧
      ∀ j, (skipOnes indices cursize supp).2 < j → j < supp →
        (indices.getD j ⟨0, 0⟩).size = 1)) := by
  intro supp
  induction supp with
  | zero =>
    intro cursize
    rw [skipOnes]
    rw [dif_neg (by omega)]
    exact ⟨le_rfl, .inl rfl⟩
  | succ t ih =>
    intro cursize
    by_cases hc : cursize = 1
    · subst hc
      rw [skipOnes, dif_pos ⟨rfl, by omega⟩]
      simp only [Nat.add_sub_cancel]
      obtain ⟨ha, hb⟩ := ih (indices.getD t ⟨0, 0⟩).size
      refine ⟨by omega, .inr ?_⟩
      rcases hb with heq | ⟨h1, h2, h3, h4⟩
      · rw [heq]
        refine ⟨trivial, by exact Nat.lt_succ_self t, rfl, ?_⟩
        intro j hj1 hj2
        have hj1b : t < j := hj1
        omega
      · refine ⟨trivial, by omega, h3, ?_⟩
        intro j hj1 hj2
        by_cases hjt : j = t
        · subst hjt
          exact h1
        · exact h4 j hj1 (by omega)
    · rw [skipOnes, dif_neg (by intro hcon; exact hc hcon.1)]
      exact ⟨le_rfl, .inl rfl⟩

theorem relDimsGo_spec (indices : Space) (derived : List Int) :
    ∀ (adims : List Int) (supp : Nat) (rel : List Nat) (suppfin : Nat),
    (∀ a ∈ adims, 0 < substDim derived a) →
    relDimsGo indices derived adims supp = some (rel, suppfin) →
    suppfin ≤ supp ∧
    List.Pairwise (fun a b => a < b) rel ∧
    (∀ d ∈ rel, suppfin ≤ d ∧ d < supp) ∧
    (∀ j, suppfin ≤ j → j < supp → j ∉ rel → (indices.getD j ⟨0, 0⟩).size = 1)
  | [], supp, rel, suppfin, _, h => by
    unfold relDimsGo at h
    rw [Option.some_inj] at h
    injection h with h1 h2
    subst h1 h2
    exact ⟨le_rfl, by simp, by simp, by omega⟩
  | a :: rest, supp, rel, suppfin, hpos, h => by
    have hpa : 0 < substDim derived a := hpos a (by simp)
    have hpr : ∀ b ∈ rest, 0 < substDim derived b := fun b hb => hpos b (by simp [hb])
    unfold relDimsGo at h
    cases supp with
    | zero =>
      rw [if_pos rfl] at h
      rw [if_neg (by omega)] at h
      rw [Nat.zero_sub] at h
      rw [skipOnes, dif_neg (by omega)] at h
      rw [if_neg (fun hcon => by
        have h2 : (-1 : Int) = substDim derived a := hcon
        omega)] at h
      exact absurd h (by simp)
    | succ s =>
      rw [if_neg (Nat.succ_ne_zero s)] at h
      rw [Nat.add_sub_cancel] at h
      by_cases hm : (indices.getD s ⟨0, 0⟩).size = substDim derived a
      · rw [if_pos hm] at h
        rcases hrec : relDimsGo indices derived rest s with _ | ⟨rel1, sf1⟩
        · rw [hrec] at h
          exact absurd h (by simp)
        · rw [hrec] at h
          simp only [Option.map_some'] at h
          rw [Option.some_inj] at h
          injection h.symm with hr1 hr2
          subst hr1 hr2
          obtain ⟨i1, i2, i3, i4⟩ := relDimsGo_spec indices derived rest s rel1 suppfin hpr hrec
          refine ⟨by omega, ?_, ?_, ?_⟩
          · rw [List.pairwise_append]
            exact ⟨i2, by simp, fun x hx y hy => by
              rw [List.mem_singleton] at hy
              subst hy
              exact (i3 x hx).2⟩
          · intro d hd
            rw [List.mem_append, List.mem_singleton] at hd
            rcases hd with hd | rfl
            · exact ⟨(i3 d hd).1, by have := (i3 d hd).2; omega⟩
            · exact ⟨i1, by omega⟩
          · intro j hj1 hj2 hj3
            rw [List.mem_append, List.mem_singleton] at hj3
            push_neg at hj3
            have hjs : j ≠ s := hj3.2
            exact i4 j hj1 (by omega) hj3.1
      · rw [if_neg hm] at h
        by_cases hm2 : (skipOnes indices (indices.getD s ⟨0, 0⟩).size s).1 = substDim derived a
        · rw [if_pos hm2] at h
          rcases hrec : relDimsGo indices derived rest
              (skipOnes indices (indices.getD s ⟨0, 0⟩).size s).2 with _ | ⟨rel1, sf1⟩
          · rw [hrec] at h
            exact absurd h (by simp)
          · rw [hrec] at h
            simp only [Option.map_some'] at h
            rw [Option.some_inj] at h
            injection h.symm with hr1 hr2
            subst hr1 hr2
            obtain ⟨i1, i2, i3, i4⟩ :=
              relDimsGo_spec indices derived rest _ rel1 suppfin hpr hrec
            obtain ⟨sk1, sk2⟩ := skipOnes_spec indices s (indices.getD s ⟨0, 0⟩).size
            rcases sk2 with heq | ⟨k1, k2, k3, k4⟩
            · rw [heq] at hm2
              exact absurd hm2 hm
            · refine ⟨by omega, ?_, ?_, ?_⟩
              · rw [List.pairwise_append]
                exact ⟨i2, by simp, fun x hx y hy => by
                  rw [List.mem_singleton] at hy
                  subst hy
                  exact (i3 x hx).2⟩
              · intro d hd
                rw [List.mem_append, List.mem_singleton] at hd
                rcases hd with hd | rfl
                · exact ⟨(i3 d hd).1, by have := (i3 d hd).2; omega⟩
                · exact ⟨i1, by omega⟩
              · intro j hj1 hj2 hj3
                rw [List.mem_append, List.mem_singleton] at hj3
                push_neg at hj3
                by_cases hjlt : j < (skipOnes indices (indices.getD s ⟨0, 0⟩).size s).2
                · exact i4 j hj1 hjlt hj3.1
                · by_cases hjs : j = s
                  · subst hjs
                    exact k1
                  · exact k4 j (by omega) (by omega)
        · rw [if_neg hm2] at h
          exact absurd h (by simp)

theorem substDim_pos_fix {derived : List Int} {x : Int} (h : 0 < x) :
    substDim derived x = x := by
  unfold substDim
  rw [if_neg (by omega)]

theorem computeRelDims_spec {indices : Space} {derived argdims : List Int} {rel : List Nat}
    (hpos : ∀ d ∈ argdims, 0 < substDim derived d)
    (h : computeRelDims indices derived argdims = some rel) :
    List.Pairwise (fun a b => a < b) rel ∧ (∀ d ∈ rel, d < indices.length) ∧
    (∀ j, j < indices.length → j ∉ rel → (indices.getD j ⟨0, 0⟩).size = 1) := by
  simp only [computeRelDims] at h
  rcases hgo : relDimsGo indices derived
      ((argdims.map (substDim derived)).reverse) indices.length with _ | ⟨rel0, suppfin⟩
  · rw [hgo] at h
    exact absurd h (by simp)
  · rw [hgo] at h
    simp only at h
    rcases hflt : (indices.take suppfin).any fun r => decide (r.size ≠ 1) with _ | _
    · rw [hflt] at h
      simp only [Bool.false_eq_true, if_false, Option.some_inj] at h
      subst h
      have hpos2 : ∀ a ∈ (argdims.map (substDim derived)).reverse, 0 < substDim derived a := by
        intro a ha
        rw [List.mem_reverse, List.mem_map] at ha
        obtain ⟨d, hd, rfl⟩ := ha
        rw [substDim_pos_fix (hpos d hd)]
        exact hpos d hd
      obtain ⟨g1, g2, g3, g4⟩ := relDimsGo_spec indices derived _ _ _ _ hpos2 hgo
      have htake : ∀ j, j < suppfin → j < indices.length →
          (indices.getD j ⟨0, 0⟩).size = 1 := by
        intro j hj hjl
        rw [List.any_eq_false] at hflt
        have hjt : j < (indices.take suppfin).length := by
          rw [List.length_take]
          omega
        have hmem : indices.getD j ⟨0, 0⟩ ∈ indices.take suppfin := by
          rw [List.getD_eq_getElem?_getD, List.getElem?_eq_getElem hjl]
          simp only [Option.getD_some]
          have h2 : (indices.take suppfin).get ⟨j, hjt⟩ = indices[j] := List.getElem_take _
          rw [← h2]
          exact List.get_mem _ _ hjt
        have := hflt _ hmem
        simpa using this
      refine ⟨g2, fun d hd => (g3 d hd).2, ?_⟩
      intro j hjl hjr
      by_cases hjf : j < suppfin
      · exact htake j hjf hjl
      · exact g4 j (by omega) hjl hjr
    · rw [hflt] at h
      simp at h

theorem mapM_some_spec {α β : Type} [Inhabited α] [Inhabited β] {f : α → Option β} :
    ∀ {l : List α} {res : List β}, l.mapM f = some res →
      res.length = l.length ∧ ∀ i, i < l.length → f (l.getD i default) = some (res.getD i default)
  | [], res, h => by
    rw [List.mapM_nil] at h
    have hres : res = [] := (Option.some.inj h).symm
    subst hres
    exact ⟨rfl, fun i hi => by simp at hi⟩
  | a :: l, res, h => by
    rw [List.mapM_cons] at h
    rcases hfa : f a with _ | b
    · rw [hfa] at h
      simp at h
    · rw [hfa] at h
      rcases hml : l.mapM f with _ | bs
      · rw [hml] at h
        simp at h
      · rw [hml] at h
        simp only [Option.pure_def, Option.bind_some] at h
        have hres : res = b :: bs := (Option.some.inj h).symm
        subst hres
        obtain ⟨h1, h2⟩ := mapM_some_spec hml
        refine ⟨by simpa using h1, ?_⟩
        intro i hi
        cases i with
        | zero => simpa using hfa
        | succ i =>
          have := h2 i (by simpa using hi)
          simpa using this

theorem processArg_spec {env : MKEnv} {derived : List Int} {demand : Packet}
    {raw : Nat × Space} {pa : ProcArg}
    (hpos : ∀ d ∈ demand.ArrayDims, 0 < substDim derived d)
    (h : processArg env derived demand raw = some pa) :
    ArgRel env demand pa := by
  simp only [processArg] at h
  by_cases hmany : raw.2.length > (env.varPacket raw.1).ArrayDims.length
  · simp only [if_pos hmany] at h
    rcases hcrd : computeRelDims (raw.2.take (env.varPacket raw.1).ArrayDims.length)
        derived demand.ArrayDims with _ | rel
    · rw [hcrd] at h
      simp at h
    · rw [hcrd] at h
      simp only at h
      split_ifs at h with hok
      · exfalso
        have ht : (!decide (raw.2.length > (env.varPacket raw.1).ArrayDims.length)) = true := by
          simp only [Bool.and_eq_true] at hok
          exact hok.1.1.1.1
        rw [Bool.not_eq_eq_eq_not, Bool.not_true, decide_eq_false_iff_not] at ht
        exact ht hmany
  · simp only [if_neg hmany] at h
    rcases hcrd : computeRelDims
        (raw.2 ++ Space.ofDims ((env.varPacket raw.1).ArrayDims.drop raw.2.length))
        derived demand.ArrayDims with _ | rel
    · rw [hcrd] at h
      simp at h
    · rw [hcrd] at h
      simp only at h
      split_ifs at h with hok
      · have hpav := Option.some.inj h
        subst hpav
        simp only [Bool.and_eq_true] at hok
        obtain ⟨⟨⟨⟨_, hzip⟩, hsz⟩, hbt⟩, hacc⟩ := hok
        have hlen :
            (raw.2 ++ Space.ofDims ((env.varPacket raw.1).ArrayDims.drop raw.2.length)).length
            = (env.varPacket raw.1).ArrayDims.length := by
          rw [List.length_append]
          unfold Space.ofDims
          rw [List.length_map, List.length_drop]
          omega
        obtain ⟨c1, c2, c3⟩ := computeRelDims_spec hpos hcrd
        refine ⟨hlen, ⟨c1, fun d hd => c2 d hd, fun j hj hjr => c3 j hj hjr⟩, ?_⟩
        unfold BaseType.IsCompatible at hbt
        simpa using hbt

theorem procOps_ok {env : MKEnv} {pops : List (List ProcArg)}
    (hpos : ∀ op ∈ env.Operations, ∀ pk ∈ op.Callee.Packets, ∀ d ∈ pk.ArrayDims,
      0 < substDim op.DerivedParams d)
    (h : env.procOps = some pops) : PopsOk env pops := by
  unfold MKEnv.procOps at h
  obtain ⟨hlen, hget⟩ := mapM_some_spec h
  refine ⟨hlen, ?_⟩
  intro i hi
  have hcall := hget i hi
  unfold KernelCall.procArgs at hcall
  split_ifs at hcall with hne
  · push_neg at hne
    obtain ⟨hlz, hgz⟩ := mapM_some_spec hcall
    have hdl : (default : List ProcArg) = [] := rfl
    rw [hdl] at hlz hgz
    have hople : (env.Operations.getD i default) ∈ env.Operations := by
      rw [List.getD_eq_getElem _ _ hi]
      exact List.getElem_mem hi
    have hziplen : (List.zip (env.Operations.getD i default).Callee.Packets
        (env.Operations.getD i default).Args).length =
        (env.Operations.getD i default).Callee.Packets.length := by
      rw [List.length_zip]
      omega
    have hplen2 : (pops.getD i []).length =
        (env.Operations.getD i default).Callee.Packets.length := by
      rw [hlz, hziplen]
    refine ⟨hplen2, ?_⟩
    intro j hj
    have hjp : j < (env.Operations.getD i default).Callee.Packets.length := by omega
    have hja : j < (env.Operations.getD i default).Args.length := by omega
    have hj2 : j < (List.zip (env.Operations.getD i default).Callee.Packets
        (env.Operations.getD i default).Args).length := by omega
    have harg := hgz j (by omega)
    have hzget : (List.zip (env.Operations.getD i default).Callee.Packets
        (env.Operations.getD i default).Args).getD j default =
        ((env.Operations.getD i default).Callee.Packets.getD j default,
         (env.Operations.getD i default).Args.getD j default) := by
      rw [List.getD_eq_getElem _ _ hj2, List.getElem_zip]
      rw [List.getD_eq_getElem _ _ hjp, List.getD_eq_getElem _ _ hja]
    rw [hzget] at harg
    have hpk : (env.Operations.getD i default).Callee.Packets.getD j default ∈
        (env.Operations.getD i default).Callee.Packets := by
      rw [List.getD_eq_getElem _ _ hjp]
      exact List.getElem_mem hjp
    exact processArg_spec (hpos _ hople _ hpk) harg

/-- The anchor of a dependency built by `IndicesAbsToRel` has the same
effective dimensions and the same volume as the covered section. -/
theorem anchor_eff_vol {sec ind : Space} {rel : List Nat}
    (hlen : sec.length = ind.length)
    (hasc : List.Pairwise (fun a b => a < b) rel)
    (hbnd : ∀ d ∈ rel, d < ind.length)
    (hones : ∀ j, j < ind.length → j ∉ rel → (ind.getD j ⟨0, 0⟩).size = 1)
    (hsub : Space.SubsetPt sec ind)
    (hne : Space.IsEmpty sec = false) :
    (IndicesAbsToRel sec ind rel).GetEffectiveDimensions = sec.GetEffectiveDimensions ∧
    (IndicesAbsToRel sec ind rel).GetVolume = sec.GetVolume := by
  have hconts := Space.subsetPt_contains_at hlen hne hsub
  have hsecones : ∀ j, j < sec.length → j ∉ rel → (sec.getD j ⟨0, 0⟩).size = 1 := by
    intro j hj hjr
    have hc := hconts j hj
    unfold Range.Contains at hc
    simp only [Bool.and_eq_true, decide_eq_true_eq] at hc
    have h1 := hones j (by omega) hjr
    have h2 : 1 ≤ (sec.getD j ⟨0, 0⟩).size := by
      have := Space.isEmpty_false_getD hne hj
      have := Range.isEmpty_false.mp this
      unfold Range.size
      omega
    unfold Range.size at h1 h2 ⊢
    omega
  have hmapsize : (IndicesAbsToRel sec ind rel).map Range.size =
      rel.map fun d => (sec.getD d ⟨0, 0⟩).size := by
    unfold IndicesAbsToRel
    rw [List.map_map]
    refine List.map_congr_left fun d _ => ?_
    exact Range.size_displace
  have hsel := filter_selection (g := fun j => (sec.getD j ⟨0, 0⟩).size)
    (p := fun x => decide (x > 1)) rel 0 sec.length hasc
    (fun d hd => ⟨Nat.zero_le d, by rw [hlen]; exact hbnd d hd⟩)
    (fun j _ hj2 hj3 => by
      have h1 := hsecones j hj2 hj3
      simp only [decide_eq_false_iff_not, not_lt]
      omega)
  rw [Nat.sub_zero, ← List.range_eq_range'] at hsel
  rw [map_getD_range ⟨0, 0⟩ Range.size sec] at hsel
  have heff : (IndicesAbsToRel sec ind rel).GetEffectiveDimensions =
      sec.GetEffectiveDimensions := by
    unfold Space.GetEffectiveDimensions
    rw [hmapsize, ← hsel]
  refine ⟨heff, ?_⟩
  have hrelsizes : ∀ r ∈ IndicesAbsToRel sec ind rel, 1 ≤ r.size := by
    intro r hr
    unfold IndicesAbsToRel at hr
    simp only [List.mem_map] at hr
    obtain ⟨d, hd, rfl⟩ := hr
    rw [Range.size_displace]
    have hdlt : d < sec.length := by rw [hlen]; exact hbnd d hd
    have := Space.isEmpty_false_getD hne hdlt
    have := Range.isEmpty_false.mp this
    unfold Range.size
    omega
  rw [Space.volume_eq_eff_prod hrelsizes, Space.volume_eq_eff_prod (Space.isEmpty_false_sizes hne),
    heff]

theorem foldl_preserves {σ α : Type} {P : σ → Prop} {f : σ → α → σ} :
    ∀ {l : List α} {s : σ}, (∀ s2 a, a ∈ l → P s2 → P (f s2 a)) → P s → P (l.foldl f s)
  | [], _, _, h => h
  | a :: l, s, hstep, h => by
    rw [List.foldl_cons]
    exact foldl_preserves (fun s2 b hb => hstep s2 b (by simp [hb])) (hstep s a (by simp) h)

theorem subdiv_sections {A : Type} {sd : SpaceDivision A} {sub : Space}
    {q : A × Space} (h : q ∈ (sd.SubDivision sub).Sections) :
    ∃ q0 ∈ sd.Sections, q.1 = q0.1 ∧ q.2 = Space.interA q0.2 sub ∧
      Space.IsEmpty (Space.interA q0.2 sub) = false := by
  simp only [SpaceDivision.SubDivision, List.mem_filterMap] at h
  obtain ⟨q0, hq0, hmk⟩ := h
  split_ifs at hmk with hemp
  have hqe := Option.some.inj hmk
  subst hqe
  exact ⟨q0, hq0, rfl, rfl, by simpa using hemp⟩

theorem assign_sections {A : Type} {sd : SpaceDivision A} {sec : Space} {a : A}
    {q : A × Space} (h : q ∈ (sd.AssignSection sec a).Sections) :
    q ∈ sd.Sections ∨
    (∃ q0 ∈ sd.Sections, q.1 = q0.1 ∧
      q.2 ∈ SpaceDivision.trimPieces q0.2 (Space.interA sec sd.FullSpace) ∧
      Space.Overlaps q0.2 (Space.interA sec sd.FullSpace) = true ∧
      Space.IsEmpty (Space.interA sec sd.FullSpace) = false) ∨
    (q = (a, Space.interA sec sd.FullSpace) ∧
      Space.IsEmpty (Space.interA sec sd.FullSpace) = false) := by
  simp only [SpaceDivision.AssignSection] at h
  split_ifs at h with hemp
  · exact .inl h
  · simp only [List.mem_append, List.mem_flatMap, List.mem_singleton] at h
    rcases h with ⟨q0, hq0, hq⟩ | hq
    · split_ifs at hq with hov
      · simp only [List.mem_map] at hq
        obtain ⟨piece, hp, hqe⟩ := hq
        subst hqe
        exact .inr (.inl ⟨q0, hq0, rfl, hp, hov, by simpa using hemp⟩)
      · rw [List.mem_singleton] at hq
        subst hq
        exact .inl hq0
    · subst hq
      exact .inr (.inr ⟨rfl, by simpa using hemp⟩)

theorem initAssign_sections {A : Type} {full : Space} {lbl : A} {q : A × Space}
    (h : q ∈ ((⟨full, []⟩ : SpaceDivision A).AssignSection full lbl).Sections) :
    q = (lbl, Space.interA full full) ∧ Space.IsEmpty (Space.interA full full) = false := by
  rcases assign_sections h with hq | ⟨q0, hq0, _⟩ | ⟨hq, hne⟩
  · simp at hq
  · simp at hq0
  · exact ⟨hq, hne⟩

theorem dep_ok_build {env : MKEnv} {pops : List (List ProcArg)} {v : Nat} {ref : MArgRef}
    {sec : Space} {pa : ProcArg} {pk : Packet}
    (href : RefOk env pops v ref)
    (hsubref : Space.SubsetPt sec (env.refArg pops ref).1.Indices)
    (hrel : ArgRel env pk pa) (hvar : pa.var = v)
    (hsubpa : Space.SubsetPt sec pa.Indices)
    (hlen : sec.length = (env.varPacket v).ArrayDims.length)
    (hne : Space.IsEmpty sec = false) :
    DepOk ⟨⟨(env.refArg pops ref).2,
        IndicesAbsToRel sec (env.refArg pops ref).1.Indices (env.refArg pops ref).1.RelevantDims⟩,
      ⟨pk, IndicesAbsToRel sec pa.Indices pa.RelevantDims⟩⟩ := by
  obtain ⟨hrv, hrlen, ⟨hrasc, hrbnd, hrones⟩, hrbt⟩ := href
  obtain ⟨hplen, ⟨hpasc, hpbnd, hpones⟩, hpbt⟩ := hrel
  have hlenref : sec.length = (env.refArg pops ref).1.Indices.length := by
    rw [hlen, hrlen, hrv]
  have hlenpa : sec.length = pa.Indices.length := by
    rw [hlen, hplen, hvar]
  obtain ⟨heff1, hvol1⟩ := anchor_eff_vol hlenref hrasc hrbnd hrones hsubref hne
  obtain ⟨heff2, hvol2⟩ := anchor_eff_vol hlenpa hpasc hpbnd hpones hsubpa hne
  constructor
  · unfold MDependency.CheckCompatibility
    simp only [Bool.and_eq_true, decide_eq_true_eq]
    constructor
    · unfold BaseType.IsCompatible
      simp only [decide_eq_true_eq]
      rw [hpbt, hrbt, hvar, hrv]
    · rw [heff1, heff2]
  · unfold Anchor.MemSize
    simp only
    rw [hvol1, hvol2, hpbt, hrbt, hvar, hrv]

theorem dep_final_ok {env : MKEnv} {pops : List (List ProcArg)} {v : Nat} {ref : MArgRef}
    {sec : Space} {packet : Packet}
    (href : RefOk env pops v ref)
    (hsubref : Space.SubsetPt sec (env.refArg pops ref).1.Indices)
    (hlen : sec.length = (env.varPacket v).ArrayDims.length)
    (hne : Space.IsEmpty sec = false)
    (hpk : packet.BType.Size = (env.varPacket v).BType.Size) :
    DepOk ⟨⟨(env.refArg pops ref).2,
        IndicesAbsToRel sec (env.refArg pops ref).1.Indices (env.refArg pops ref).1.RelevantDims⟩,
      ⟨packet, sec⟩⟩ := by
  obtain ⟨hrv, hrlen, ⟨hrasc, hrbnd, hrones⟩, hrbt⟩ := href
  have hlenref : sec.length = (env.refArg pops ref).1.Indices.length := by
    rw [hlen, hrlen, hrv]
  obtain ⟨heff1, hvol1⟩ := anchor_eff_vol hlenref hrasc hrbnd hrones hsubref hne
  constructor
  · unfold MDependency.CheckCompatibility
    simp only [Bool.and_eq_true, decide_eq_true_eq]
    constructor
    · unfold BaseType.IsCompatible
      simp only [decide_eq_true_eq]
      rw [hpk, hrbt, hrv]
    · rw [heff1]
  · unfold Anchor.MemSize
    simp only
    rw [hvol1, hpk, hrbt, hrv]

theorem initDefs_inv (env : MKEnv) (pops : List (List ProcArg)) :
    DivInv env pops ⟨env.initDefs, [], []⟩ := by
  constructor
  · show env.initDefs.length = env.totalVars
    unfold MKEnv.initDefs MKEnv.totalVars
    rw [List.length_append, List.length_mapIdx, List.length_map]
  · intro v hv q hq
    show _ ∧ _ ∧ _
    have hq2 : q ∈ (env.initDefs.getD v ⟨[], []⟩).Sections := hq
    unfold MKEnv.initDefs at hq2
    by_cases hvm : v < env.mkPackets.length
    · rw [List.getD_append _ _ _ _ (by rw [List.length_mapIdx]; exact hvm)] at hq2
      rw [List.getD_eq_getElem _ _ (by rw [List.length_mapIdx]; exact hvm)] at hq2
      rw [List.getElem_mapIdx] at hq2
      have hvp : env.varPacket v = env.mkPackets[v] := by
        unfold MKEnv.varPacket
        rw [List.getD_eq_getElem _ _ (by rw [List.length_append]; omega)]
        exact List.getElem_append_left hvm
      split_ifs at hq2 with hacc
      · obtain ⟨hqe, hqne⟩ := initAssign_sections hq2
        subst hqe
        refine ⟨?_, hqne, ?_⟩
        · rw [Space.interA_length]
          unfold Space.ofDims
          rw [List.length_map, hvp]
        · intro ref href
          exact absurd href (by simp)
      · obtain ⟨hqe, hqne⟩ := initAssign_sections hq2
        subst hqe
        refine ⟨?_, hqne, ?_⟩
        · rw [Space.interA_length]
          unfold Space.ofDims
          rw [List.length_map, hvp]
        · intro ref href
          have hre : MArgRef.input v = ref := Option.some.inj href
          subst hre
          have hgd : env.mkPackets.getD v default = env.mkPackets[v] :=
            List.getD_eq_getElem _ _ hvm
          have hofl : (Space.ofDims (env.mkPackets.getD v default).ArrayDims).length =
              (env.mkPackets.getD v default).ArrayDims.length := by
            unfold Space.ofDims
            rw [List.length_map]
          have hrv : (env.refArg pops (MArgRef.input v)).1.var = v := rfl
          have hie : (env.refArg pops (MArgRef.input v)).1.Indices =
              Space.ofDims ((env.mkPackets.getD v default).ArrayDims) := rfl
          have hrd : (env.refArg pops (MArgRef.input v)).1.RelevantDims =
              List.range (env.mkPackets.getD v default).ArrayDims.length := rfl
          have hpk2 : (env.refArg pops (MArgRef.input v)).2 =
              env.mkPackets.getD v default := rfl
          refine ⟨⟨hrv, ?_, ⟨?_, ?_, ?_⟩, ?_⟩, ?_⟩
          · rw [hie, hrv, hofl, hgd, hvp]
          · rw [hrd]
            exact List.pairwise_lt_range _
          · intro d hd
            rw [hrd, List.mem_range] at hd
            rw [hie, hofl]
            exact hd
          · intro j hj hjr
            exfalso
            apply hjr
            rw [hrd, List.mem_range]
            rw [hie, hofl] at hj
            exact hj
          · rw [hpk2, hrv, hgd, hvp]
          · intro p hp
            have hfull := Space.memB_interA_left hp
            rw [hie, hgd]
            exact hfull
    · push_neg at hvm
      have hvlt : v - env.mkPackets.length < env.Variables.length := by
        unfold MKEnv.totalVars at hv
        omega
      rw [List.getD_append_right _ _ _ _ (by rw [List.length_mapIdx]; exact hvm)] at hq2
      rw [List.length_mapIdx] at hq2
      rw [List.getD_eq_getElem _ _ (by rw [List.length_map]; exact hvlt)] at hq2
      rw [List.getElem_map] at hq2
      obtain ⟨hqe, hqne⟩ := initAssign_sections hq2
      subst hqe
      have hvp : env.varPacket v = env.Variables[v - env.mkPackets.length] := by
        unfold MKEnv.varPacket
        rw [List.getD_eq_getElem _ _ (by
          rw [List.length_append]
          unfold MKEnv.totalVars at hv
          omega)]
        rw [List.getElem_append_right hvm]
      refine ⟨?_, hqne, ?_⟩
      · rw [Space.interA_length]
        unfold Space.ofDims
        rw [List.length_map, hvp]
      · intro ref href
        exact absurd href (by simp)

theorem secStep_pres {env : MKEnv} {pops : List (List ProcArg)} {i j : Nat}
    (hpops : PopsOk env pops) (hi : i < env.Operations.length)
    (hj : j < (pops.getD i []).length)
    {st0 : TransState} (hinv : DivInv env pops st0)
    {st : TransState} (hdefs : st.defs = st0.defs) (hdeps : ∀ d ∈ st.deps, DepOk d)
    {sec : Option MArgRef × Space}
    (hsec : sec ∈ ((st0.defs.getD ((pops.getD i []).getD j default).var ⟨[], []⟩).SubDivision
      ((pops.getD i []).getD j default).Indices).Sections) :
    (env.secStep pops i j st sec).defs = st0.defs ∧
    ∀ d ∈ (env.secStep pops i j st sec).deps, DepOk d := by
  obtain ⟨lbl, sp⟩ := sec
  cases lbl with
  | none => exact ⟨hdefs, hdeps⟩
  | some ref =>
    refine ⟨hdefs, ?_⟩
    intro d hd
    have hd2 : d ∈ st.deps ++
        [⟨⟨(env.refArg pops ref).2,
            IndicesAbsToRel sp (env.refArg pops ref).1.Indices
              (env.refArg pops ref).1.RelevantDims⟩,
          ⟨(env.Operations.getD i default).Callee.Packets.getD j default,
            IndicesAbsToRel sp ((pops.getD i []).getD j default).Indices
              ((pops.getD i []).getD j default).RelevantDims⟩⟩] := hd
    rw [List.mem_append, List.mem_singleton] at hd2
    rcases hd2 with hd2 | rfl
    · exact hdeps d hd2
    · obtain ⟨q0, hq0, hlbl, hsp, hne⟩ := subdiv_sections hsec
      have hlbl2 : q0.1 = some ref := hlbl.symm
      have hv : ((pops.getD i []).getD j default).var < env.totalVars := by
        by_contra hcon
        push_neg at hcon
        rw [List.getD_eq_default _ _ (by rw [hinv.1]; exact hcon)] at hsec
        simp [SpaceDivision.SubDivision] at hsec
      obtain ⟨hq0len, hq0ne, hq0lbl⟩ := hinv.2 _ hv q0 hq0
      obtain ⟨hrefok, hsubq0⟩ := hq0lbl ref hlbl2
      have hrel := (hpops.2 i hi).2 j hj
      have hsp2 : sp = Space.interA q0.2 ((pops.getD i []).getD j default).Indices := hsp
      have hq0pa : q0.2.length = ((pops.getD i []).getD j default).Indices.length := by
        rw [hq0len, hrel.1]
      refine dep_ok_build hrefok ?_ hrel rfl ?_ ?_ ?_
      · intro p hp
        rw [hsp2] at hp
        exact hsubq0 p (Space.memB_interA_left hp)
      · intro p hp
        rw [hsp2] at hp
        exact ((Space.memB_interA hq0pa).1 hp).2
      · rw [hsp2, Space.interA_length, hq0len]
      · rw [hsp2]
        exact hne

theorem inputStep_pres {env : MKEnv} {pops : List (List ProcArg)} {i : Nat}
    (hpops : PopsOk env pops) (hi : i < env.Operations.length)
    {st0 : TransState} (hinv : DivInv env pops st0)
    {st : TransState} (hP : st.defs = st0.defs ∧ ∀ d ∈ st.deps, DepOk d)
    {j : Nat} (hj : j < (pops.getD i []).length) :
    (env.inputStep pops i st j).defs = st0.defs ∧
    ∀ d ∈ (env.inputStep pops i st j).deps, DepOk d := by
  simp only [MKEnv.inputStep]
  split_ifs with hacc
  · exact hP
  · rw [hP.1]
    apply foldl_preserves (P := fun (st2 : TransState) => st2.defs = st0.defs ∧ ∀ d ∈ st2.deps, DepOk d)
    · intro st2 sec hsec hP2
      exact secStep_pres hpops hi hj hinv hP2.1 hP2.2 hsec
    · exact hP

theorem outputStep_deps {env : MKEnv} {pops : List (List ProcArg)} {i : Nat}
    {st : TransState} {j : Nat} : (env.outputStep pops i st j).deps = st.deps := by
  simp only [MKEnv.outputStep]
  split_ifs <;> rfl

theorem outputStep_errs {env : MKEnv} {pops : List (List ProcArg)} {i : Nat}
    {st : TransState} {j : Nat} : (env.outputStep pops i st j).errors = st.errors := by
  simp only [MKEnv.outputStep]
  split_ifs <;> rfl

theorem outputStep_div {env : MKEnv} {pops : List (List ProcArg)} {i : Nat}
    (hpops : PopsOk env pops) (hi : i < env.Operations.length)
    {st : TransState} (hinv : DivInv env pops st)
    {j : Nat} (hj : j < (pops.getD i []).length) :
    DivInv env pops (env.outputStep pops i st j) := by
  simp only [MKEnv.outputStep]
  split_ifs with hacc
  · exact hinv
  · refine ⟨?_, ?_⟩
    · show (st.defs.set _ _).length = _
      rw [List.length_set]
      exact hinv.1
    · intro v hv q hq
      have hrel := (hpops.2 i hi).2 j hj
      by_cases hvv : v = ((pops.getD i []).getD j default).var
      · have hvlen : ((pops.getD i []).getD j default).var < st.defs.length := by
          rw [hinv.1, ← hvv]
          exact hv
        rw [hvv] at hq
        rw [List.getD_eq_getElem?_getD, List.getElem?_set_self hvlen, Option.getD_some] at hq
        rcases assign_sections hq with hold | ⟨q0, hq0, hq1, hqp, hov, hne2⟩ | ⟨hqe, hne2⟩
        · rw [← hvv] at hold
          exact hinv.2 v hv q hold
        · obtain ⟨hl0, hne0, hlbl0⟩ := hinv.2 _ (hvv ▸ hv) q0 hq0
          refine ⟨?_, ?_, ?_⟩
          · rw [SpaceDivision.trimPieces_length hqp, hl0, hvv]
          · exact SpaceDivision.trimPieces_nonempty hne0 hne2 hov hqp
          · intro ref href
            obtain ⟨hrefok, hsub0⟩ := hlbl0 ref (hq1 ▸ href)
            refine ⟨?_, fun p hp => hsub0 p (SpaceDivision.trimPieces_subset hne2 hqp hp)⟩
            rw [hvv]
            exact hrefok
        · subst hqe
          refine ⟨?_, hne2, ?_⟩
          · rw [Space.interA_length, hrel.1, hvv]
          · intro ref href
            have hre : MArgRef.call i j = ref := Option.some.inj href
            subst hre
            refine ⟨⟨?_, ?_⟩, ?_⟩
            · rw [hvv]
              rfl
            · exact hrel
            · intro p hp
              exact Space.memB_interA_left hp
      · rw [List.getD_eq_getElem?_getD, List.getElem?_set_ne (by omega),
          ← List.getD_eq_getElem?_getD] at hq
        exact hinv.2 v hv q hq

theorem translateStep_inv {env : MKEnv} {pops : List (List ProcArg)}
    (hpops : PopsOk env pops) {i : Nat} (hi : i < env.Operations.length)
    {st : TransState} (hinv : DivInv env pops st) (hdeps : ∀ d ∈ st.deps, DepOk d) :
    DivInv env pops (env.translateStep pops st i) ∧
    ∀ d ∈ (env.translateStep pops st i).deps, DepOk d := by
  simp only [MKEnv.translateStep]
  have hst1 : ((List.range (pops.getD i []).length).foldl (env.inputStep pops i) st).defs
        = st.defs ∧
      ∀ d ∈ ((List.range (pops.getD i []).length).foldl (env.inputStep pops i) st).deps,
        DepOk d := by
    apply foldl_preserves (P := fun (st2 : TransState) => st2.defs = st.defs ∧ ∀ d ∈ st2.deps, DepOk d)
    · intro st2 j hj hP2
      exact inputStep_pres hpops hi hinv hP2 (by simpa using hj)
    · exact ⟨rfl, hdeps⟩
  have hinv1 : DivInv env pops
      ((List.range (pops.getD i []).length).foldl (env.inputStep pops i) st) := by
    refine ⟨?_, ?_⟩
    · rw [hst1.1]
      exact hinv.1
    · intro v hv q hq
      rw [hst1.1] at hq
      exact hinv.2 v hv q hq
  apply foldl_preserves (P := fun (st2 : TransState) => DivInv env pops st2 ∧ ∀ d ∈ st2.deps, DepOk d)
  · intro st2 j hj hP2
    refine ⟨outputStep_div hpops hi hP2.1 (by simpa using hj), ?_⟩
    rw [outputStep_deps]
    exact hP2.2
  · exact ⟨hinv1, hst1.2⟩

theorem finalSecStep_pres {env : MKEnv} {pops : List (List ProcArg)} {i : Nat}
    (hi : i < env.mkPackets.length)
    {st0 : TransState} (hinv : DivInv env pops st0)
    {st : TransState} (hdefs : st.defs = st0.defs) (hdeps : ∀ d ∈ st.deps, DepOk d)
    {sec : Option MArgRef × Space} (hsec : sec ∈ (st0.defs.getD i ⟨[], []⟩).Sections) :
    (env.finalSecStep pops i st sec).defs = st0.defs ∧
    ∀ d ∈ (env.finalSecStep pops i st sec).deps, DepOk d := by
  obtain ⟨lbl, sp⟩ := sec
  cases lbl with
  | none =>
    simp only [MKEnv.finalSecStep]
    split_ifs with hacc
    · exact ⟨hdefs, hdeps⟩
    · exact ⟨hdefs, hdeps⟩
  | some ref =>
    refine ⟨hdefs, ?_⟩
    intro d hd
    have hd2 : d ∈ st.deps ++
        [⟨⟨(env.refArg pops ref).2,
            IndicesAbsToRel sp (env.refArg pops ref).1.Indices
              (env.refArg pops ref).1.RelevantDims⟩,
          ⟨env.mkPackets.getD i default, sp⟩⟩] := hd
    rw [List.mem_append, List.mem_singleton] at hd2
    rcases hd2 with hd2 | rfl
    · exact hdeps d hd2
    · have hv : i < env.totalVars := by
        unfold MKEnv.totalVars
        omega
      obtain ⟨hlen, hne, hlbl⟩ := hinv.2 i hv (some ref, sp) hsec
      obtain ⟨hrefok, hsub⟩ := hlbl ref rfl
      refine dep_final_ok hrefok hsub hlen hne ?_
      have hvp : env.varPacket i = env.mkPackets.getD i default := by
        unfold MKEnv.varPacket
        rw [List.getD_append _ _ _ _ hi]
      rw [hvp]

theorem finalStep_deps {env : MKEnv} {pops : List (List ProcArg)}
    {st : TransState} (hinv : DivInv env pops st) (hdeps : ∀ d ∈ st.deps, DepOk d) :
    ∀ d ∈ (env.finalStep pops st).deps, DepOk d := by
  refine (foldl_preserves
    (P := fun (st2 : TransState) => st2.defs = st.defs ∧ ∀ d ∈ st2.deps, DepOk d) ?_ ⟨rfl, hdeps⟩).2
  intro st2 k hk hP2
  dsimp only
  split_ifs with hacc
  · exact hP2
  · rw [hP2.1]
    apply foldl_preserves (P := fun (st3 : TransState) => st3.defs = st.defs ∧ ∀ d ∈ st3.deps, DepOk d)
    · intro st3 sec hsec hP3
      exact finalSecStep_pres (by simpa using hk) hinv hP3.1 hP3.2 hsec
    · exact hP2

/-- Claim C5: every dependency produced by `TranslateToMetaKernel` —
including those emitted at the meta-kernel output boundary — passes
`Dependency::CheckCompatibility` (compatible base types and element-wise
equal effective dimensions) and transports the same number of bytes on
both sides.  The hypothesis states that all (substituted) callee array
dimensions are positive. -/
theorem claim5_dependency_compat (env : MKEnv)
    (hpos : ∀ op ∈ env.Operations, ∀ pk ∈ op.Callee.Packets, ∀ d ∈ pk.ArrayDims,
      0 < substDim op.DerivedParams d) :
    ∀ d ∈ (MKEnv.Translate env).2.1,
      d.CheckCompatibility = true ∧ d.From.MemSize = d.To.MemSize := by
  intro d hd
  unfold MKEnv.Translate at hd
  rcases hpo : env.procOps with _ | pops
  · rw [hpo] at hd
    simp at hd
  · rw [hpo] at hd
    simp only at hd
    have hpops := procOps_ok hpos hpo
    have hfold : DivInv env pops ((List.range env.Operations.length).foldl
          (env.translateStep pops) ⟨env.initDefs, [], []⟩) ∧
        ∀ d2 ∈ ((List.range env.Operations.length).foldl (env.translateStep pops)
          ⟨env.initDefs, [], []⟩).deps, DepOk d2 := by
      apply foldl_preserves (P := fun (st2 : TransState) => DivInv env pops st2 ∧ ∀ d2 ∈ st2.deps, DepOk d2)
      · intro st2 i hi hP2
        exact translateStep_inv hpops (by simpa using hi) hP2.1 hP2.2
      · exact ⟨initDefs_inv env pops, by intro d2 hd2; simp at hd2⟩
    exact finalStep_deps hfold.1 hfold.2 d hd

/-- Closed instance of claim C5 on `sampleMK`. -/
theorem claim5_witness :
    (∀ op ∈ sampleMK.Operations, ∀ pk ∈ op.Callee.Packets, ∀ d ∈ pk.ArrayDims,
      0 < substDim op.DerivedParams d) ∧
    ∀ d ∈ (MKEnv.Translate sampleMK).2.1,
      d.CheckCompatibility = true ∧ d.From.MemSize = d.To.MemSize :=
  ⟨by decide, claim5_dependency_compat sampleMK (by decide)⟩

/-! ## Claim C6: uninitialized reads and unwritten outputs -/

theorem foldl_establishP {σ α : Type} {P : σ → Prop} {Q : σ → α → Prop} {f : σ → α → σ} :
    ∀ {l : List α} {s : σ}, (∀ s2 a, a ∈ l → P s2 → P (f s2 a)) →
      (∀ s2 a b, a ∈ l → Q s2 b → Q (f s2 a) b) →
      (∀ s2 a, a ∈ l → P s2 → Q (f s2 a) a) →
      P s → ∀ a ∈ l, Q (l.foldl f s) a
  | [], _, _, _, _, _, a, ha => by simp at ha
  | a :: l, s, hP, hQ, hself, hs, b, hb => by
    rw [List.foldl_cons]
    rw [List.mem_cons] at hb
    rcases hb with rfl | hb
    · exact foldl_preserves (P := fun s2 => Q s2 b)
        (fun s2 c hc hq => hQ s2 c b (by simp [hc]) hq)
        (hself s b (by simp) hs)
    · exact foldl_establishP (fun s2 c hc hp => hP s2 c (by simp [hc]) hp)
        (fun s2 c d hc hq => hQ s2 c d (by simp [hc]) hq)
        (fun s2 c hc hp => hself s2 c (by simp [hc]) hp)
        (hP s a (by simp) hs) b hb

theorem secStep_defs {env : MKEnv} {pops : List (List ProcArg)} {i j : Nat}
    {st : TransState} {sec : Option MArgRef × Space} :
    (env.secStep pops i j st sec).defs = st.defs := by
  obtain ⟨lbl, sp⟩ := sec
  cases lbl <;> rfl

theorem secStep_errs {env : MKEnv} {pops : List (List ProcArg)} {i j : Nat}
    {st : TransState} {sec : Option MArgRef × Space} {e : TransError}
    (he : e ∈ st.errors) : e ∈ (env.secStep pops i j st sec).errors := by
  obtain ⟨lbl, sp⟩ := sec
  cases lbl
  · simp only [MKEnv.secStep, List.mem_append]
    exact .inl he
  · exact he

theorem inputStep_defs {env : MKEnv} {pops : List (List ProcArg)} {i : Nat}
    {st : TransState} {j : Nat} : (env.inputStep pops i st j).defs = st.defs := by
  simp only [MKEnv.inputStep]
  split_ifs with hacc
  · rfl
  · exact foldl_preserves (P := fun (st2 : TransState) => st2.defs = st.defs)
      (fun st2 sec hsec hd => secStep_defs.trans hd) rfl

theorem inputStep_errs {env : MKEnv} {pops : List (List ProcArg)} {i : Nat}
    {st : TransState} {j : Nat} {e : TransError} (he : e ∈ st.errors) :
    e ∈ (env.inputStep pops i st j).errors := by
  simp only [MKEnv.inputStep]
  split_ifs with hacc
  · exact he
  · exact foldl_preserves (P := fun (st2 : TransState) => e ∈ st2.errors)
      (fun st2 sec hsec h2 => secStep_errs h2) he

theorem translateStep_errs {env : MKEnv} {pops : List (List ProcArg)} {i : Nat}
    {st : TransState} {e : TransError} (he : e ∈ st.errors) :
    e ∈ (env.translateStep pops st i).errors := by
  simp only [MKEnv.translateStep]
  have h1 : e ∈ ((List.range (pops.getD i []).length).foldl (env.inputStep pops i) st).errors :=
    foldl_preserves (P := fun (st2 : TransState) => e ∈ st2.errors)
      (fun st2 j hj h2 => inputStep_errs h2) he
  exact foldl_preserves (P := fun (st2 : TransState) => e ∈ st2.errors)
    (fun st2 j hj h2 => by
      show e ∈ (env.outputStep pops i st2 j).errors
      rw [outputStep_errs]
      exact h2) h1

theorem finalSecStep_errs {env : MKEnv} {pops : List (List ProcArg)} {i : Nat}
    {st : TransState} {sec : Option MArgRef × Space} {e : TransError}
    (he : e ∈ st.errors) : e ∈ (env.finalSecStep pops i st sec).errors := by
  obtain ⟨lbl, sp⟩ := sec
  cases lbl
  · simp only [MKEnv.finalSecStep]
    split_ifs with hacc
    · simp only [List.mem_append]
      exact .inl he
    · exact he
  · exact he

theorem finalStep_errs {env : MKEnv} {pops : List (List ProcArg)}
    {st : TransState} {e : TransError} (he : e ∈ st.errors) :
    e ∈ (env.finalStep pops st).errors := by
  refine foldl_preserves (P := fun (st2 : TransState) => e ∈ st2.errors) ?_ he
  intro st2 k hk h2
  dsimp only
  split_ifs with hacc
  · exact h2
  · exact foldl_preserves (P := fun (st3 : TransState) => e ∈ st3.errors)
      (fun st3 sec hsec h3 => finalSecStep_errs h3) h2

theorem assign_fullSpace {A : Type} {sd : SpaceDivision A} {sec : Space} {a : A} :
    (sd.AssignSection sec a).FullSpace = sd.FullSpace := by
  simp only [SpaceDivision.AssignSection]
  split_ifs <;> rfl

theorem assign_new_mem {A : Type} {sd : SpaceDivision A} {sec : Space} {a : A}
    (hne : Space.IsEmpty (Space.interA sec sd.FullSpace) = false) :
    (a, Space.interA sec sd.FullSpace) ∈ (sd.AssignSection sec a).Sections := by
  simp only [SpaceDivision.AssignSection]
  rw [if_neg (by simp [hne])]
  simp

theorem assign_keep_mem {A : Type} {sd : SpaceDivision A} {sec : Space} {a : A}
    {q0 : A × Space} (hq0 : q0 ∈ sd.Sections) {p : List Int}
    (hp : Space.memB q0.2 p = true)
    (hnp : Space.memB (Space.interA sec sd.FullSpace) p ≠ true)
    (hlen : q0.2.length = (Space.interA sec sd.FullSpace).length) :
    ∃ q ∈ (sd.AssignSection sec a).Sections, Space.memB q.2 p = true ∧ q.1 = q0.1 := by
  simp only [SpaceDivision.AssignSection]
  split_ifs with hemp
  · exact ⟨q0, hq0, hp, rfl⟩
  · by_cases hov : Space.Overlaps q0.2 (Space.interA sec sd.FullSpace) = true
    · obtain ⟨piece, hpc, hpm⟩ := SpaceDivision.trimPieces_cover hlen hp hnp
      refine ⟨(q0.1, piece), ?_, hpm, rfl⟩
      simp only [List.mem_append, List.mem_flatMap]
      refine .inl ⟨q0, hq0, ?_⟩
      rw [if_pos hov]
      exact List.mem_map_of_mem _ hpc
    · refine ⟨q0, ?_, hp, rfl⟩
      simp only [List.mem_append, List.mem_flatMap]
      refine .inl ⟨q0, hq0, ?_⟩
      rw [if_neg hov]
      simp

theorem subdiv_mem_intro {A : Type} {sd : SpaceDivision A} {sub : Space}
    {q0 : A × Space} (hq0 : q0 ∈ sd.Sections)
    (hne : Space.IsEmpty (Space.interA q0.2 sub) = false) :
    (q0.1, Space.interA q0.2 sub) ∈ (sd.SubDivision sub).Sections := by
  simp only [SpaceDivision.SubDivision, List.mem_filterMap]
  exact ⟨q0, hq0, by rw [if_neg (by simp [hne])]⟩

theorem initAssign_cover {A : Type} {full : Space} (lbl : A) {p : List Int}
    (hp : Space.memB full p = true) :
    ∃ q ∈ ((⟨full, []⟩ : SpaceDivision A).AssignSection full lbl).Sections,
      Space.memB q.2 p = true ∧ q.1 = lbl := by
  have hpint : Space.memB (Space.interA full full) p = true :=
    (Space.memB_interA rfl).2 ⟨hp, hp⟩
  simp only [SpaceDivision.AssignSection]
  split_ifs with hemp
  · have := Space.memB_isEmpty_false hpint
    rw [hemp] at this
    exact absurd this (by simp)
  · exact ⟨(lbl, Space.interA full full), by simp, hpint, rfl⟩

theorem gtAfter_succ {env : MKEnv} {pops : List (List ProcArg)} {k v : Nat} {p : List Int} :
    env.gtAfter pops (k + 1) v p =
      (List.range (pops.getD k []).length).foldl (env.gtArgUpd pops k v p)
        (env.gtAfter pops k v p) := by
  unfold MKEnv.gtAfter
  rw [List.range_succ, List.foldl_append]
  simp only [List.foldl_cons, List.foldl_nil]

theorem cov_congr {env : MKEnv} {g1 g2 : Nat → List Int → Option MArgRef} {st : TransState}
    (h : ∀ v p, g1 v p = g2 v p) (hc : Cov env g1 st) : Cov env g2 st := by
  intro v hv
  obtain ⟨hfs, hcv⟩ := hc v hv
  refine ⟨hfs, ?_⟩
  intro p hp
  obtain ⟨q, hq, hqp, hql⟩ := hcv p hp
  exact ⟨q, hq, hqp, hql.trans (h v p)⟩

theorem cov_of_defs_eq {env : MKEnv} {g : Nat → List Int → Option MArgRef}
    {st st2 : TransState} (hd : st2.defs = st.defs) (hc : Cov env g st) : Cov env g st2 := by
  intro v hv
  rw [hd]
  exact hc v hv

theorem initDefs_cov (env : MKEnv) (pops : List (List ProcArg)) :
    Cov env (env.gtAfter pops 0) ⟨env.initDefs, [], []⟩ := by
  intro v hv
  have hgt : ∀ p : List Int, env.gtAfter pops 0 v p = env.gtInit v := fun _ => rfl
  have hq2 : (⟨env.initDefs, [], []⟩ : TransState).defs.getD v ⟨[], []⟩ =
      env.initDefs.getD v ⟨[], []⟩ := rfl
  rw [hq2]
  unfold MKEnv.initDefs
  by_cases hvm : v < env.mkPackets.length
  · rw [List.getD_append _ _ _ _ (by rw [List.length_mapIdx]; exact hvm)]
    rw [List.getD_eq_getElem _ _ (by rw [List.length_mapIdx]; exact hvm)]
    rw [List.getElem_mapIdx]
    have hvp : env.varPacket v = env.mkPackets[v] := by
      unfold MKEnv.varPacket
      rw [List.getD_eq_getElem _ _ (by rw [List.length_append]; omega)]
      exact List.getElem_append_left hvm
    split_ifs with hacc
    · refine ⟨by rw [assign_fullSpace, hvp], ?_⟩
      intro p hp
      rw [hvp] at hp
      obtain ⟨q, hq, hqp, hql⟩ := initAssign_cover (none : Option MArgRef) hp
      refine ⟨q, hq, hqp, ?_⟩
      rw [hql, hgt]
      unfold MKEnv.gtInit
      have hcond : ¬(v < env.mkPackets.length ∧
          (env.mkPackets.getD v default).Access ≠ AccessType.acOut) := by
        intro hcon
        apply hcon.2
        rw [List.getD_eq_getElem _ _ hvm]
        exact hacc
      rw [if_neg hcond]
    · refine ⟨by rw [assign_fullSpace, hvp], ?_⟩
      intro p hp
      rw [hvp] at hp
      obtain ⟨q, hq, hqp, hql⟩ :=
        initAssign_cover (some (MArgRef.input v) : Option MArgRef) hp
      refine ⟨q, hq, hqp, ?_⟩
      rw [hql, hgt]
      unfold MKEnv.gtInit
      have hcond : v < env.mkPackets.length ∧
          (env.mkPackets.getD v default).Access ≠ AccessType.acOut := by
        refine ⟨hvm, ?_⟩
        rw [List.getD_eq_getElem _ _ hvm]
        exact hacc
      rw [if_pos hcond]
  · push_neg at hvm
    have hvlt : v - env.mkPackets.length < env.Variables.length := by
      unfold MKEnv.totalVars at hv
      omega
    rw [List.getD_append_right _ _ _ _ (by rw [List.length_mapIdx]; exact hvm)]
    rw [List.length_mapIdx]
    rw [List.getD_eq_getElem _ _ (by rw [List.length_map]; exact hvlt)]
    rw [List.getElem_map]
    have hvp : env.varPacket v = env.Variables[v - env.mkPackets.length] := by
      unfold MKEnv.varPacket
      rw [List.getD_eq_getElem _ _ (by
        rw [List.length_append]
        unfold MKEnv.totalVars at hv
        omega)]
      rw [List.getElem_append_right hvm]
    refine ⟨by rw [assign_fullSpace, hvp], ?_⟩
    intro p hp
    rw [hvp] at hp
    obtain ⟨q, hq, hqp, hql⟩ := initAssign_cover (none : Option MArgRef) hp
    refine ⟨q, hq, hqp, ?_⟩
    rw [hql, hgt]
    unfold MKEnv.gtInit
    rw [if_neg (by omega)]

theorem ofDims_length {dims : List Int} : (Space.ofDims dims).length = dims.length := by
  unfold Space.ofDims
  rw [List.length_map]

theorem outputStep_cov {env : MKEnv} {pops : List (List ProcArg)} {i : Nat}
    (hpops : PopsOk env pops) (hi : i < env.Operations.length)
    {g : Nat → List Int → Option MArgRef} {st : TransState}
    (hdiv : DivInv env pops st) (hcov : Cov env g st)
    {j : Nat} (hj : j < (pops.getD i []).length) :
    Cov env (fun v p => env.gtArgUpd pops i v p (g v p) j) (env.outputStep pops i st j) := by
  have hrel := (hpops.2 i hi).2 j hj
  intro v hv
  simp only [MKEnv.outputStep, MKEnv.gtArgUpd]
  split_ifs with hacc
  · obtain ⟨hfs, hcv⟩ := hcov v hv
    refine ⟨hfs, ?_⟩
    intro p hp
    obtain ⟨q, hq, hqp, hql⟩ := hcv p hp
    refine ⟨q, hq, hqp, ?_⟩
    rw [hql]
    rw [if_neg (by intro hcon; exact hcon.1 hacc)]
  · by_cases hvv : v = ((pops.getD i []).getD j default).var
    · have hvlen : ((pops.getD i []).getD j default).var < st.defs.length := by
        rw [hdiv.1, ← hvv]
        exact hv
      rw [hvv]
      rw [List.getD_eq_getElem?_getD, List.getElem?_set_self hvlen, Option.getD_some]
      obtain ⟨hfs, hcv⟩ := hcov _ (hvv ▸ hv)
      have hilen : ((pops.getD i []).getD j default).Indices.length =
          ((st.defs.getD ((pops.getD i []).getD j default).var ⟨[], []⟩).FullSpace).length := by
        rw [hfs, ofDims_length]
        exact hrel.1
      refine ⟨by rw [assign_fullSpace, hfs], ?_⟩
      intro p hp
      by_cases hmem : Space.memB ((pops.getD i []).getD j default).Indices p = true
      · have hpint : Space.memB (Space.interA ((pops.getD i []).getD j default).Indices
            (st.defs.getD ((pops.getD i []).getD j default).var ⟨[], []⟩).FullSpace) p = true := by
          refine (Space.memB_interA hilen).2 ⟨hmem, ?_⟩
          rw [hfs]
          exact hp
        have hne := Space.memB_isEmpty_false hpint
        refine ⟨_, assign_new_mem (a := some (MArgRef.call i j)) hne, hpint, ?_⟩
        rw [if_pos ⟨hacc, rfl, hmem⟩]
      · obtain ⟨q0, hq0, hq0p, hq0l⟩ := hcv p hp
        have hnp : Space.memB (Space.interA ((pops.getD i []).getD j default).Indices
            (st.defs.getD ((pops.getD i []).getD j default).var ⟨[], []⟩).FullSpace) p ≠ true := by
          intro hcon
          exact hmem (Space.memB_interA_left hcon)
        have hl0 : q0.2.length = (Space.interA ((pops.getD i []).getD j default).Indices
            (st.defs.getD ((pops.getD i []).getD j default).var ⟨[], []⟩).FullSpace).length := by
          rw [Space.interA_length]
          have hq0len := (hdiv.2 _ (hvv ▸ hv) q0 hq0).1
          rw [hq0len, hrel.1]
        obtain ⟨q, hq, hqp, hql⟩ := assign_keep_mem (a := some (MArgRef.call i j)) hq0 hq0p hnp hl0
        refine ⟨q, hq, hqp, ?_⟩
        rw [hql, hq0l]
        rw [if_neg (by intro hcon; exact hmem hcon.2.2)]
    · rw [List.getD_eq_getElem?_getD, List.getElem?_set_ne (by omega),
        ← List.getD_eq_getElem?_getD]
      obtain ⟨hfs, hcv⟩ := hcov v hv
      refine ⟨hfs, ?_⟩
      intro p hp
      obtain ⟨q, hq, hqp, hql⟩ := hcv p hp
      refine ⟨q, hq, hqp, ?_⟩
      rw [hql]
      rw [if_neg (by intro hcon; exact hvv hcon.2.1.symm)]

theorem outputs_fold_cov {env : MKEnv} {pops : List (List ProcArg)} {i : Nat}
    (hpops : PopsOk env pops) (hi : i < env.Operations.length) :
    ∀ (l : List Nat), (∀ j ∈ l, j < (pops.getD i []).length) →
    ∀ {st : TransState} {g : Nat → List Int → Option MArgRef},
      DivInv env pops st → Cov env g st →
      DivInv env pops (l.foldl (env.outputStep pops i) st) ∧
      Cov env (fun v p => l.foldl (env.gtArgUpd pops i v p) (g v p))
        (l.foldl (env.outputStep pops i) st)
  | [], _, st, g, hdiv, hcov => ⟨hdiv, hcov⟩
  | j :: l, hbnd, st, g, hdiv, hcov => by
    rw [List.foldl_cons]
    have hj := hbnd j (by simp)
    have hdiv2 := outputStep_div hpops hi hdiv hj
    have hcov2 := outputStep_cov hpops hi hdiv hcov hj
    obtain ⟨hd3, hc3⟩ := outputs_fold_cov hpops hi l (fun j2 hj2 => hbnd j2 (by simp [hj2]))
      hdiv2 hcov2
    refine ⟨hd3, ?_⟩
    refine cov_congr ?_ hc3
    intro v p
    rw [List.foldl_cons]

theorem translateStep_cov {env : MKEnv} {pops : List (List ProcArg)}
    (hpops : PopsOk env pops) {i : Nat} (hi : i < env.Operations.length)
    {st : TransState} (hdiv : DivInv env pops st) (hcov : Cov env (env.gtAfter pops i) st) :
    DivInv env pops (env.translateStep pops st i) ∧
    Cov env (env.gtAfter pops (i + 1)) (env.translateStep pops st i) := by
  simp only [MKEnv.translateStep]
  have hd1 : ((List.range (pops.getD i []).length).foldl (env.inputStep pops i) st).defs
      = st.defs :=
    foldl_preserves (P := fun (st2 : TransState) => st2.defs = st.defs)
      (fun st2 j hj hd => inputStep_defs.trans hd) rfl
  have hdiv1 : DivInv env pops
      ((List.range (pops.getD i []).length).foldl (env.inputStep pops i) st) := by
    refine ⟨by rw [hd1]; exact hdiv.1, ?_⟩
    intro v hv q hq
    rw [hd1] at hq
    exact hdiv.2 v hv q hq
  have hcov1 := cov_of_defs_eq hd1 hcov
  obtain ⟨hd2, hc2⟩ := outputs_fold_cov hpops hi (List.range (pops.getD i []).length)
    (fun j hj => by simpa using hj) hdiv1 hcov1
  refine ⟨hd2, ?_⟩
  refine cov_congr ?_ hc2
  intro v p
  rw [gtAfter_succ]

theorem ops_cov {env : MKEnv} {pops : List (List ProcArg)} (hpops : PopsOk env pops) :
    ∀ k, k ≤ env.Operations.length →
    DivInv env pops ((List.range k).foldl (env.translateStep pops) ⟨env.initDefs, [], []⟩) ∧
    Cov env (env.gtAfter pops k)
      ((List.range k).foldl (env.translateStep pops) ⟨env.initDefs, [], []⟩)
  | 0, _ => ⟨initDefs_inv env pops, initDefs_cov env pops⟩
  | k + 1, hk => by
    obtain ⟨hdiv, hcov⟩ := ops_cov hpops k (by omega)
    rw [List.range_succ, List.foldl_append, List.foldl_cons, List.foldl_nil]
    exact translateStep_cov hpops (by omega) hdiv hcov

theorem finalSecStep_defs {env : MKEnv} {pops : List (List ProcArg)} {i : Nat}
    {st : TransState} {sec : Option MArgRef × Space} :
    (env.finalSecStep pops i st sec).defs = st.defs := by
  obtain ⟨lbl, sp⟩ := sec
  cases lbl with
  | none =>
    simp only [MKEnv.finalSecStep]
    split_ifs <;> rfl
  | some ref => rfl

theorem uninit_emitted {env : MKEnv} {pops : List (List ProcArg)}
    (hpops : PopsOk env pops) {i : Nat} (hi : i < env.Operations.length)
    {st : TransState} (hdiv : DivInv env pops st) (hcov : Cov env (env.gtAfter pops i) st)
    {j : Nat} (hj : j < (pops.getD i []).length)
    (hacc : ((env.Operations.getD i default).Callee.Packets.getD j default).Access ≠ .acOut)
    (hvlt : ((pops.getD i []).getD j default).var < env.totalVars)
    {p : List Int}
    (hpin : Space.memB ((pops.getD i []).getD j default).Indices p = true)
    (hpfull : Space.memB
      (Space.ofDims (env.varPacket ((pops.getD i []).getD j default).var).ArrayDims) p = true)
    (hgt : env.gtAfter pops i ((pops.getD i []).getD j default).var p = none) :
    ∃ region,
      TransError.uninit (env.Operations.getD i default).Callee.Name (env.instIdx i)
        (env.varPacket ((pops.getD i []).getD j default).var).Name region ∈
        (env.translateStep pops st i).errors ∧
      Space.memB region p = true := by
  have hrel := (hpops.2 i hi).2 j hj
  obtain ⟨hfs, hcv⟩ := hcov _ hvlt
  obtain ⟨q0, hq0, hq0p, hq0l⟩ := hcv p hpfull
  rw [hgt] at hq0l
  have hq0len : q0.2.length = ((pops.getD i []).getD j default).Indices.length := by
    rw [(hdiv.2 _ hvlt q0 hq0).1, hrel.1]
  have hpreg : Space.memB (Space.interA q0.2 ((pops.getD i []).getD j default).Indices) p
      = true := (Space.memB_interA hq0len).2 ⟨hq0p, hpin⟩
  refine ⟨Space.interA q0.2 ((pops.getD i []).getD j default).Indices, ?_, hpreg⟩
  simp only [MKEnv.translateStep]
  have herr : TransError.uninit (env.Operations.getD i default).Callee.Name (env.instIdx i)
      (env.varPacket ((pops.getD i []).getD j default).var).Name
      (Space.interA q0.2 ((pops.getD i []).getD j default).Indices) ∈
      ((List.range (pops.getD i []).length).foldl (env.inputStep pops i) st).errors := by
    refine (foldl_establishP
      (P := fun (st2 : TransState) => st2.defs = st.defs)
      (Q := fun (st2 : TransState) j2 => j2 = j → TransError.uninit
        (env.Operations.getD i default).Callee.Name (env.instIdx i)
        (env.varPacket ((pops.getD i []).getD j default).var).Name
        (Space.interA q0.2 ((pops.getD i []).getD j default).Indices) ∈ st2.errors)
      (fun st2 j2 hj2 hp2 => inputStep_defs.trans hp2)
      (fun st2 j2 j3 hj2 hq2 => fun he => inputStep_errs (hq2 he))
      ?_ rfl j (by rw [List.mem_range]; exact hj)) rfl
    intro st2 j2 hj2 hp2 hj2e
    subst hj2e
    simp only [MKEnv.inputStep]
    rw [if_neg hacc]
    have hsecmem : ((q0.1, Space.interA q0.2 ((pops.getD i []).getD j2 default).Indices)) ∈
        ((st2.defs.getD ((pops.getD i []).getD j2 default).var ⟨[], []⟩).SubDivision
          ((pops.getD i []).getD j2 default).Indices).Sections := by
      rw [hp2]
      exact subdiv_mem_intro hq0 (Space.memB_isEmpty_false hpreg)
    refine foldl_establishP
      (P := fun (_ : TransState) => True)
      (Q := fun (st3 : TransState) sec => sec =
        (q0.1, Space.interA q0.2 ((pops.getD i []).getD j2 default).Indices) →
        TransError.uninit (env.Operations.getD i default).Callee.Name (env.instIdx i)
          (env.varPacket ((pops.getD i []).getD j2 default).var).Name
          (Space.interA q0.2 ((pops.getD i []).getD j2 default).Indices) ∈ st3.errors)
      (fun _ _ _ _ => trivial)
      (fun st3 sec sec2 hsec hq3 => fun he => secStep_errs (hq3 he))
      ?_ trivial _ hsecmem rfl
    intro st3 sec hsec _ hsece
    subst hsece
    rw [hq0l]
    simp only [MKEnv.secStep, List.mem_append]
    exact .inr (by simp)
  exact foldl_preserves (P := fun (st2 : TransState) => TransError.uninit
      (env.Operations.getD i default).Callee.Name (env.instIdx i)
      (env.varPacket ((pops.getD i []).getD j default).var).Name
      (Space.interA q0.2 ((pops.getD i []).getD j default).Indices) ∈ st2.errors)
    (fun st2 j2 hj2 h2 => by
      show _ ∈ (env.outputStep pops i st2 j2).errors
      rw [outputStep_errs]
      exact h2) herr

theorem errs_range_mono {env : MKEnv} {pops : List (List ProcArg)} {s0 : TransState}
    {e : TransError} : ∀ (k2 k : Nat), k ≤ k2 →
    e ∈ ((List.range k).foldl (env.translateStep pops) s0).errors →
    e ∈ ((List.range k2).foldl (env.translateStep pops) s0).errors
  | 0, k, h, he => by
    have hk : k = 0 := by omega
    subst hk
    exact he
  | m + 1, k, h, he => by
    by_cases hk : k = m + 1
    · subst hk
      exact he
    · rw [List.range_succ, List.foldl_append, List.foldl_cons, List.foldl_nil]
      exact translateStep_errs (errs_range_mono m k (by omega) he)

theorem unwritten_emitted {env : MKEnv} {pops : List (List ProcArg)}
    {st : TransState} (hcov : Cov env (env.gtAfter pops env.Operations.length) st)
    {k : Nat} (hk : k < env.mkPackets.length)
    (hacc : (env.mkPackets.getD k default).Access = .acOut)
    {p : List Int}
    (hpfull : Space.memB (Space.ofDims (env.mkPackets.getD k default).ArrayDims) p = true)
    (hgt : env.gtAfter pops env.Operations.length k p = none) :
    ∃ region,
      TransError.unwrittenOutput (env.mkPackets.getD k default).Name region ∈
        (env.finalStep pops st).errors ∧
      Space.memB region p = true := by
  have hkv : k < env.totalVars := by
    unfold MKEnv.totalVars
    omega
  obtain ⟨hfs, hcv⟩ := hcov k hkv
  have hvp : env.varPacket k = env.mkPackets.getD k default := by
    unfold MKEnv.varPacket
    rw [List.getD_append _ _ _ _ hk]
  obtain ⟨q0, hq0, hq0p, hq0l⟩ := hcv p (by rw [hvp]; exact hpfull)
  rw [hgt] at hq0l
  refine ⟨q0.2, ?_, hq0p⟩
  simp only [MKEnv.finalStep]
  refine foldl_establishP
    (P := fun (st2 : TransState) => st2.defs = st.defs)
    (Q := fun (st2 : TransState) k2 => k2 = k →
      TransError.unwrittenOutput (env.mkPackets.getD k default).Name q0.2 ∈ st2.errors)
    ?_ ?_ ?_ rfl k (by rw [List.mem_range]; exact hk)
    rfl
  · intro st2 k2 hk2 hp2
    show ((fun st i => if (env.mkPackets.getD i default).Access = AccessType.acIn then st
      else (st.defs.getD i ⟨[], []⟩).Sections.foldl (env.finalSecStep pops i) st) st2 k2).defs
      = st.defs
    dsimp only
    split_ifs with hacc2
    · exact hp2
    · refine foldl_preserves (P := fun (st3 : TransState) => st3.defs = st.defs)
        (fun st3 sec hsec h3 => finalSecStep_defs.trans h3) hp2
  · intro st2 k2 k3 hk2 hq2 he
    show TransError.unwrittenOutput (env.mkPackets.getD k default).Name q0.2 ∈
      ((fun st i => if (env.mkPackets.getD i default).Access = AccessType.acIn then st
        else (st.defs.getD i ⟨[], []⟩).Sections.foldl (env.finalSecStep pops i) st) st2 k2).errors
    dsimp only
    split_ifs with hacc2
    · exact hq2 he
    · refine foldl_preserves (P := fun (st3 : TransState) =>
        TransError.unwrittenOutput (env.mkPackets.getD k default).Name q0.2 ∈ st3.errors)
        (fun st3 sec hsec h3 => finalSecStep_errs h3) (hq2 he)
  · intro st2 k2 hk2 hp2 hk2e
    subst hk2e
    show TransError.unwrittenOutput (env.mkPackets.getD k2 default).Name q0.2 ∈
      ((fun st i => if (env.mkPackets.getD i default).Access = AccessType.acIn then st
        else (st.defs.getD i ⟨[], []⟩).Sections.foldl (env.finalSecStep pops i) st) st2 k2).errors
    dsimp only
    rw [if_neg (by rw [hacc]; intro hcon; exact absurd hcon (by intro h2; cases h2))]
    refine foldl_establishP
      (P := fun (_ : TransState) => True)
      (Q := fun (st3 : TransState) sec => sec = (none, q0.2) →
        TransError.unwrittenOutput (env.mkPackets.getD k2 default).Name q0.2 ∈ st3.errors)
      (fun _ _ _ _ => trivial)
      (fun st3 sec sec2 hsec hq3 => fun he => finalSecStep_errs (hq3 he))
      ?_ trivial (none, q0.2) ?_ rfl
    · intro st3 sec hsec _ hsece
      subst hsece
      simp only [MKEnv.finalSecStep]
      rw [if_pos hacc]
      simp
    · rw [hp2]
      have hq0e : q0 = ((none : Option MArgRef), q0.2) := by
        obtain ⟨l0, s0⟩ := q0
        simp only at hq0l
        rw [hq0l]
      rw [← hq0e]
      exact hq0

/-- Claim C6: during dataflow resolution, a read argument (access kind not
`out`) over a region the ground truth leaves uncovered — no earlier write
and no meta-kernel input — makes `TranslateToMetaKernel` record an
uninitialized-variable error naming the task (kernel and instance), the
variable, and a region containing the uncovered point, and return false;
likewise every never-written region of an `out` packet of the meta-kernel
is reported as unwritten, with failure. -/
theorem claim6_uninitialized_error (env : MKEnv) (pops : List (List ProcArg))
    (hpo : env.procOps = some pops)
    (hpos : ∀ op ∈ env.Operations, ∀ pk ∈ op.Callee.Packets, ∀ d ∈ pk.ArrayDims,
      0 < substDim op.DerivedParams d) :
    (∀ i, i < env.Operations.length → ∀ j, j < (pops.getD i []).length →
      ((env.Operations.getD i default).Callee.Packets.getD j default).Access ≠ .acOut →
      ((pops.getD i []).getD j default).var < env.totalVars →
      ∀ p, Space.memB ((pops.getD i []).getD j default).Indices p = true →
        Space.memB (Space.ofDims
          (env.varPacket ((pops.getD i []).getD j default).var).ArrayDims) p = true →
        env.gtAfter pops i ((pops.getD i []).getD j default).var p = none →
        (MKEnv.Translate env).1 = false ∧
        ∃ region,
          TransError.uninit (env.Operations.getD i default).Callee.Name (env.instIdx i)
            (env.varPacket ((pops.getD i []).getD j default).var).Name region ∈
            (MKEnv.Translate env).2.2 ∧
          Space.memB region p = true) ∧
    (∀ k, k < env.mkPackets.length →
      (env.mkPackets.getD k default).Access = .acOut →
      ∀ p, Space.memB (Space.ofDims (env.mkPackets.getD k default).ArrayDims) p = true →
        env.gtAfter pops env.Operations.length k p = none →
        (MKEnv.Translate env).1 = false ∧
        ∃ region,
          TransError.unwrittenOutput (env.mkPackets.getD k default).Name region ∈
            (MKEnv.Translate env).2.2 ∧
          Space.memB region p = true) := by
  have hpops := procOps_ok hpos hpo
  have htr : MKEnv.Translate env =
      (decide ((env.finalStep pops ((List.range env.Operations.length).foldl
          (env.translateStep pops) ⟨env.initDefs, [], []⟩)).errors = []),
        (env.finalStep pops ((List.range env.Operations.length).foldl
          (env.translateStep pops) ⟨env.initDefs, [], []⟩)).deps,
        (env.finalStep pops ((List.range env.Operations.length).foldl
          (env.translateStep pops) ⟨env.initDefs, [], []⟩)).errors) := by
    unfold MKEnv.Translate
    rw [hpo]
  constructor
  · intro i hi j hj hacc hvlt p hpin hpfull hgt
    obtain ⟨hdiv, hcov⟩ := ops_cov hpops i (by omega)
    obtain ⟨region, hreg, hregp⟩ := uninit_emitted hpops hi hdiv hcov hj hacc hvlt
      hpin hpfull hgt
    have hin1 : TransError.uninit (env.Operations.getD i default).Callee.Name (env.instIdx i)
        (env.varPacket ((pops.getD i []).getD j default).var).Name region ∈
        ((List.range (i + 1)).foldl (env.translateStep pops) ⟨env.initDefs, [], []⟩).errors := by
      rw [List.range_succ, List.foldl_append, List.foldl_cons, List.foldl_nil]
      exact hreg
    have hin2 := errs_range_mono env.Operations.length (i + 1) (by omega) hin1
    have hin3 := @finalStep_errs env pops _ _ hin2
    refine ⟨?_, region, ?_, hregp⟩
    · rw [htr]
      simp only
      exact decide_eq_false (List.ne_nil_of_mem hin3)
    · rw [htr]
      exact hin3
  · intro k hk hacc p hpfull hgt
    obtain ⟨hdiv, hcov⟩ := ops_cov hpops env.Operations.length le_rfl
    obtain ⟨region, hreg, hregp⟩ := unwritten_emitted hcov hk hacc hpfull hgt
    refine ⟨?_, region, ?_, hregp⟩
    · rw [htr]
      simp only
      exact decide_eq_false (List.ne_nil_of_mem hreg)
    · rw [htr]
      exact hreg

/-- Closed instance of claim C6 on `sampleUninit`. -/
theorem claim6_witness :
    MKEnv.procOps sampleUninit = some sampleUninitPops ∧
    (∀ op ∈ sampleUninit.Operations, ∀ pk ∈ op.Callee.Packets, ∀ d ∈ pk.ArrayDims,
      0 < substDim op.DerivedParams d) ∧
    ((∀ i, i < sampleUninit.Operations.length → ∀ j, j < (sampleUninitPops.getD i []).length →
      ((sampleUninit.Operations.getD i default).Callee.Packets.getD j default).Access ≠ .acOut →
      ((sampleUninitPops.getD i []).getD j default).var < sampleUninit.totalVars →
      ∀ p, Space.memB ((sampleUninitPops.getD i []).getD j default).Indices p = true →
        Space.memB (Space.ofDims
          (sampleUninit.varPacket
            ((sampleUninitPops.getD i []).getD j default).var).ArrayDims) p = true →
        sampleUninit.gtAfter sampleUninitPops i
          ((sampleUninitPops.getD i []).getD j default).var p = none →
        (MKEnv.Translate sampleUninit).1 = false ∧
        ∃ region,
          TransError.uninit (sampleUninit.Operations.getD i default).Callee.Name
            (sampleUninit.instIdx i)
            (sampleUninit.varPacket
              ((sampleUninitPops.getD i []).getD j default).var).Name region ∈
            (MKEnv.Translate sampleUninit).2.2 ∧
          Space.memB region p = true) ∧
    (∀ k, k < sampleUninit.mkPackets.length →
      (sampleUninit.mkPackets.getD k default).Access = .acOut →
      ∀ p, Space.memB (Space.ofDims (sampleUninit.mkPackets.getD k default).ArrayDims) p
          = true →
        sampleUninit.gtAfter sampleUninitPops sampleUninit.Operations.length k p = none →
        (MKEnv.Translate sampleUninit).1 = false ∧
        ∃ region,
          TransError.unwrittenOutput (sampleUninit.mkPackets.getD k default).Name region ∈
            (MKEnv.Translate sampleUninit).2.2 ∧
          Space.memB region p = true)) :=
  ⟨by decide, by decide,
    claim6_uninitialized_error sampleUninit sampleUninitPops (by decide) (by decide)⟩

end Ladybirds
